import Mathlib

/-!
Shallow embedding of `osmem.c`, the memory allocator.

The allocator keeps a singly linked chain of block headers (the Directory)
that starts at `global_base` and is followed through `next`.  The chain is
represented here by the list of its nodes in chain order; every node carries
the address of its header, so that `next` of a node is the address of its
list successor.  Pointers are addresses (`Nat`, `0` is `NULL`), `size_t`
arithmetic is arithmetic modulo `2 ^ 64`, and `int` is the 32-bit
two's-complement integer.  `STRUCT_SIZE` (`sizeof(struct block_meta)`, declared
in a header that is not part of the sources) is the parameter `H` of every
function that uses it.

The operating system is part of the state: the program break `brk`, the
highest break `lim` that `sbrk` grants, and the live anonymous mappings.  The
address that `mmap` returns is chosen by the kernel and is an argument of the
operations that may call it.  A result `none` stands for a memory fault (an
access through an address that holds no block header).  The bytes of the
payloads are not part of the state: the calls of `memset` and `memcpy` are
recorded in the log, and they fault where they are given `NULL`.
-/

namespace Osmem

/-! ## Constants and machine arithmetic -/

/-- Modulus of `size_t` and of pointers. -/
def WORD : Nat := 2 ^ 64

/-- Macro `MMAP_THRESHOLD`, `(128 * 1024)`. -/
def MMAP_THRESHOLD : Nat := 128 * 1024

/-- Macro `MMAP_THRESHOLD_CALLOC`, `4096`. -/
def MMAP_THRESHOLD_CALLOC : Nat := 4096

/-- Macro `ALIGNMENT`, `8`. -/
def ALIGNMENT : Nat := 8

/-- The constant `INT_MAX` of a 32-bit `int`. -/
def INT_MAX : Nat := 2147483647

/-- The pointer `(void *) -1`, the failure value of `sbrk` and `mmap`. -/
def FAILED : Nat := WORD - 1

/-- Macro `ALIGN(size)`, `(((size) + (ALIGNMENT-1)) & ~(ALIGNMENT-1))`, on `size_t`. -/
def ALIGN (size : Nat) : Nat :=
  ((size + (ALIGNMENT - 1)) % WORD) / ALIGNMENT * ALIGNMENT

/-- Addition of two `size_t` values. -/
def wadd (a b : Nat) : Nat := (a + b) % WORD

/-- Subtraction of two `size_t` values. -/
def wsub (a b : Nat) : Nat := (a + (WORD - b % WORD)) % WORD

/-- Conversion of a `size_t` value to `int` (the low 32 bits, two's complement). -/
def toInt32 (x : Nat) : Int :=
  if x % 2 ^ 32 < 2 ^ 31 then ((x % 2 ^ 32 : Nat) : Int) else ((x % 2 ^ 32 : Nat) : Int) - 2 ^ 32

/-- Conversion of a `size_t` value to `intptr_t` (64 bits, two's complement). -/
def toIntptr (x : Nat) : Int :=
  if x % WORD < 2 ^ 63 then ((x % WORD : Nat) : Int) else ((x % WORD : Nat) : Int) - 2 ^ 64

/-- Conversion of an `int` back to `size_t` (sign extension). -/
def ofInt (i : Int) : Nat := (i % (2 ^ 64 : Int)).toNat

/-! ## Data model -/

/-- The `status` field of a header. -/
inductive Status
  | STATUS_FREE
  | STATUS_ALLOC
  | STATUS_MAPPED
  deriving DecidableEq, Repr

open Status

/-- A block header together with the address it lives at; `next` is given by
the position of the node in the chain. -/
structure block_meta where
  addr : Nat
  size : Nat
  status : Status
  deriving DecidableEq, Repr

/-- A live anonymous mapping made by `os_malloc_mmap`: its base address, where
the header is, and the `size` recorded in the header.  The header of a mapping
is written once, with status `STATUS_MAPPED` and `next = NULL`. -/
structure mapped_block where
  addr : Nat
  size : Nat
  deriving DecidableEq, Repr

/-- A call of an operating-system primitive, with its arguments and result, or
of one of the two library routines through which the allocator writes payload
bytes: `memcpy(dst, src, n)` and `memset(dst, 0, n)`. -/
inductive OsCall
  | sbrk (increment : Int) (result : Nat)
  | mmap (length : Nat) (result : Nat)
  | munmap (base : Nat) (length : Nat)
  | memcpy (dst src n : Nat)
  | memset (dst n : Nat)
  deriving DecidableEq, Repr

/-- The allocator and the part of the process it acts on.
* `dir` is the chain from `global_base` (`[]` when `global_base` is `NULL`);
* `tail_next` is the `next` field of the final node of the chain (`0` unless a
  failed `request_space` left it pointing at the break);
* `brk`, `lim` are the program break and the highest break `sbrk` grants;
* `mapped` are the live anonymous mappings;
* `log` are the operating-system calls and the calls of `memcpy` and `memset`
  made so far, oldest first. -/
structure Allocator where
  dir : List block_meta
  tail_next : Nat
  brk : Nat
  lim : Nat
  mapped : List mapped_block
  log : List OsCall
  deriving DecidableEq, Repr

/-- The value of `global_base`. -/
def global_base (st : Allocator) : Nat :=
  match st.dir with
  | [] => 0
  | b :: _ => b.addr

/-- The header found at address `p` by following the chain. -/
def deref (dir : List block_meta) (p : Nat) : Option block_meta :=
  dir.find? (fun b => b.addr = p)

/-- A write through the pointer `p` to a node of the chain. -/
def store (p : Nat) (f : block_meta → block_meta) : List block_meta → List block_meta
  | [] => []
  | b :: rest => if b.addr = p then f b :: rest else b :: store p f rest

/-! ## Operating-system primitives -/

/-- The primitive `sbrk(increment)`: it returns the previous break and moves the
break, or returns `(void *) -1` and leaves it when the new break would leave
`[0, lim]`. -/
def sbrk (st : Allocator) (increment : Int) : Nat × Allocator :=
  if 0 ≤ (st.brk : Int) + increment ∧ (st.brk : Int) + increment ≤ (st.lim : Int) then
    (st.brk, { st with brk := ((st.brk : Int) + increment).toNat,
                       log := st.log ++ [OsCall.sbrk increment st.brk] })
  else
    (FAILED, { st with log := st.log ++ [OsCall.sbrk increment FAILED] })

/-! ## `find_free_block` -/

/-- The loop of `find_free_block`: `min_size`, `result` and `last` are the local
variables, the list is the part of the chain from `current` on.  The chain is
returned as well, because the loop writes the aligned size into each new best
candidate. -/
def find_free_block_loop (size : Nat) :
    List block_meta → Nat → Nat → Nat → List block_meta × Nat × Nat
  | [], _, result, last => ([], result, last)
  | current :: rest, min_size, result, last =>
    if current.status = STATUS_FREE ∧ ALIGN current.size ≥ ALIGN size
        ∧ min_size > ALIGN current.size then
      let r := find_free_block_loop size rest (ALIGN current.size) current.addr last
      ({ current with size := ALIGN current.size } :: r.1, r.2.1, r.2.2)
    else
      let r := find_free_block_loop size rest min_size result current.addr
      (current :: r.1, r.2.1, r.2.2)

/-- The function `find_free_block(&last, size)`: the chain after the call, the
returned pointer and the final value of `*last`. -/
def find_free_block (dir : List block_meta) (last size : Nat) :
    List block_meta × Nat × Nat :=
  find_free_block_loop size dir INT_MAX 0 last

/-! ## `os_coalesce` -/

/-- The loop of `os_coalesce`: `current` is the loop variable, the list is the
chain from `current->next` on; the result is the chain from `current` on after
the loop. -/
def os_coalesce_loop (H : Nat) : block_meta → List block_meta → List block_meta
  | current, [] => [current]
  | current, next :: rest =>
    if current.status = STATUS_FREE ∧ next.status = STATUS_FREE then
      os_coalesce_loop H { current with size := wadd current.size (wadd next.size H) } rest
    else
      current :: os_coalesce_loop H next rest

/-- The function `os_coalesce()` on the chain from `global_base`.  It is only
called with `global_base` set. -/
def os_coalesce (H : Nat) : List block_meta → List block_meta
  | [] => []
  | current :: rest => os_coalesce_loop H current rest

/-! ## `os_split` -/

/-- The function `os_split(block, size)`: the new header is written at
`block + STRUCT_SIZE + ALIGN(size)` and linked in after `block`. -/
def os_split (H : Nat) (block size : Nat) : List block_meta → List block_meta
  | [] => []
  | b :: rest =>
    if b.addr = block then
      { b with size := size } ::
        { addr := wadd (wadd block H) (ALIGN size),
          size := wsub (wsub b.size (ALIGN size)) H,
          status := STATUS_FREE } :: rest
    else
      b :: os_split H block size rest

/-! ## `request_space` -/

/-- The write `last->next = block` seen on the chain: the chain now ends at the
node `last`.  `none` when `last` is no node of the chain. -/
def cut_after (last : Nat) : List block_meta → Option (List block_meta)
  | [] => none
  | b :: rest =>
    if b.addr = last then some [b] else (cut_after last rest).map (fun d => b :: d)

/-- The function `request_space(last, size)`.  The result is the returned
pointer as the header written there (`none` for `NULL`) and the state; when
`last` is `NULL` the header is written but not linked, the caller stores the
pointer in `global_base`. -/
def request_space (H : Nat) (st : Allocator) (last size : Nat) :
    Option (Option block_meta × Allocator) :=
  let r0 := sbrk st 0
  let block := r0.1
  if last ≠ 0 then
    match cut_after last r0.2.dir with
    | none => none
    | some d =>
      let st1 := { r0.2 with dir := d, tail_next := block }
      let r1 := sbrk st1 (toIntptr (ALIGN (wadd size H)))
      if r1.1 = FAILED then
        some (none, r1.2)
      else
        some (some ⟨block, size, STATUS_ALLOC⟩,
          { r1.2 with dir := r1.2.dir ++ [⟨block, size, STATUS_ALLOC⟩], tail_next := 0 })
  else
    let r1 := sbrk r0.2 (MMAP_THRESHOLD : Nat)
    if r1.1 = FAILED then
      none
    else
      some (some ⟨r1.1, wsub MMAP_THRESHOLD H, STATUS_FREE⟩, r1.2)

/-! ## `os_malloc_mmap` -/

/-- The function `os_malloc_mmap(size)`; `r` is the address `mmap` returns.
A header written through `(void *) -1` is a fault. -/
def os_malloc_mmap (H : Nat) (st : Allocator) (size r : Nat) : Option (Nat × Allocator) :=
  let newSize : Int := toInt32 (ALIGN (wadd size H))
  let st1 := { st with log := st.log ++ [OsCall.mmap (ofInt newSize) r] }
  if r ≠ 0 then
    if r = FAILED then
      none
    else
      some (wadd r H, { st1 with mapped := ⟨r, ofInt newSize⟩ :: st1.mapped })
  else
    some (0, st1)

/-! ## `os_malloc` -/

/-- Lines 161-167 of `os_malloc`: on the first call the arena is created by
`request_space(NULL, size)` and its header becomes `global_base`.  The flag is
`false` when `os_malloc` returns `NULL` here. -/
def os_malloc_first (H : Nat) (st : Allocator) (size : Nat) : Option (Bool × Allocator) :=
  if st.dir = [] then
    match request_space H st 0 size with
    | none => none
    | some (none, st1) => some (false, st1)
    | some (some block, st1) => some (true, { st1 with dir := [block] })
  else
    some (true, st)

/-- Lines 169-197 of `os_malloc`, with `global_base` set (so both tests
`global_base != NULL` hold and `os_coalesce` runs).  A chain whose final `next`
dangles cannot be walked: the traversals fault. -/
def os_malloc_place (H : Nat) (st : Allocator) (size : Nat) : Option (Nat × Allocator) :=
  if st.tail_next ≠ 0 then none
  else
    let f := find_free_block (os_coalesce H st.dir) (global_base st) size
    let block := f.2.1
    let last := f.2.2
    if block = 0 then
      let d := os_coalesce H f.1
      match deref d last with
      | none => none
      | some l =>
        if l.status = STATUS_FREE then
          let newSize : Int := toInt32 (wsub (ALIGN size) l.size)
          let st1 := (sbrk st newSize).2
          let d1 := store last (fun b => { b with size := ALIGN size }) d
          some (wadd last H,
            { st1 with dir := store last (fun b => { b with status := STATUS_ALLOC }) d1 })
        else
          match request_space H { st with dir := d } last size with
          | none => none
          | some (none, st1) => some (0, st1)
          | some (some b, st1) =>
            some (wadd b.addr H,
              { st1 with dir := store b.addr (fun c => { c with status := STATUS_ALLOC }) st1.dir })
    else
      match deref f.1 block with
      | none => none
      | some b =>
        let d := if ALIGN b.size ≥ wadd (wadd 8 H) (ALIGN size) then os_split H block size f.1
                 else f.1
        some (wadd block H,
          { st with dir := store block (fun c => { c with status := STATUS_ALLOC }) d })

/-- The function `os_malloc(size)`; `r` is the address `mmap` returns if it is
called. -/
def os_malloc (H : Nat) (st : Allocator) (size r : Nat) : Option (Nat × Allocator) :=
  if size = 0 then some (0, st)
  else if size ≥ MMAP_THRESHOLD then os_malloc_mmap H st size r
  else
    match os_malloc_first H st size with
    | none => none
    | some (false, st1) => some (0, st1)
    | some (true, st1) => os_malloc_place H st1 size

/-! ## `os_free` -/

/-- The function `os_free(ptr)`.  The header `ptr - STRUCT_SIZE` is a node of
the chain or the header of a live mapping; anything else is a fault. -/
def os_free (H : Nat) (st : Allocator) (ptr : Nat) : Option Allocator :=
  if ptr = 0 then some st
  else
    let block := wsub ptr H
    match deref st.dir block with
    | some b =>
      if b.status = STATUS_MAPPED then
        some { st with log := st.log ++ [OsCall.munmap block b.size] }
      else
        let d := store block (fun c => { c with status := STATUS_FREE, size := ALIGN c.size }) st.dir
        some { st with dir := d }
    | none =>
      match st.mapped.find? (fun m => m.addr = block) with
      | some m =>
        some { st with mapped := st.mapped.filter (fun k => k.addr ≠ block),
                       log := st.log ++ [OsCall.munmap block m.size] }
      | none => none

/-! ## `os_calloc` -/

/-- The function `os_calloc(nmemb, size)`; `r` is the address `mmap` returns if
it is called.  The `memset` of a non-empty range through `NULL` is a fault. -/
def os_calloc (H : Nat) (st : Allocator) (nmemb size r : Nat) : Option (Nat × Allocator) :=
  if nmemb = 0 ∨ size = 0 then some (0, st)
  else
    let callocSize := (nmemb * size) % WORD
    let res := if ALIGN (wadd callocSize H) ≥ MMAP_THRESHOLD_CALLOC then
                 os_malloc_mmap H st callocSize r
               else os_malloc H st callocSize r
    match res with
    | none => none
    | some (ptr, st1) =>
      if ptr = 0 ∧ callocSize ≠ 0 then none
      else some (ptr, { st1 with log := st1.log ++ [OsCall.memset ptr callocSize] })

/-! ## `os_coalesce_realloc` and `os_realloc` -/

/-- The loop of `os_coalesce_realloc`: the first argument is `block->size`, the
list is the chain from `current` on.  The result is `block->size`, the chain
from `current` on when the loop is left, and whether it was left by
`return block + 1`. -/
def os_coalesce_realloc_loop (H size : Nat) : Nat → List block_meta → Nat × List block_meta × Bool
  | bsize, [] => (bsize, [], false)
  | bsize, current :: rest =>
    if current.status = STATUS_FREE then
      if wadd bsize (wadd current.size H) ≥ size then
        (wadd bsize (wadd current.size H), rest, true)
      else
        os_coalesce_realloc_loop H size (wadd bsize (wadd current.size H)) rest
    else
      (bsize, current :: rest, false)

/-- Lines 258-271 of `os_coalesce_realloc` on the chain: the chain after the
loop, `block->size`, whether the loop returned, and whether `current` is
`NULL` after it.  `none` when `block` is no node of the chain. -/
def os_coalesce_realloc_walk (H block size : Nat) :
    List block_meta → Option (List block_meta × Nat × Bool × Bool)
  | [] => none
  | b :: rest =>
    if b.addr = block then
      let r := os_coalesce_realloc_loop H size (ALIGN b.size) rest
      some ({ b with size := r.1 } :: r.2.1, r.1, r.2.2, decide (r.2.1 = []))
    else
      (os_coalesce_realloc_walk H block size rest).map (fun w => (b :: w.1, w.2))

/-- Lines 280-285 of `os_coalesce_realloc` and 312-317 of `os_realloc`: allocate,
copy `n` bytes, release the old block.  Copying a non-empty range to `NULL`
is a fault. -/
def os_realloc_move (H : Nat) (st : Allocator) (ptr size n r : Nat) : Option (Nat × Allocator) :=
  match os_malloc H st size r with
  | none => none
  | some (newBlock, st1) =>
    if newBlock = 0 ∧ n ≠ 0 then none
    else
      match os_free H { st1 with log := st1.log ++ [OsCall.memcpy newBlock ptr n] } ptr with
      | none => none
      | some st2 => some (newBlock, st2)

/-- The function `os_coalesce_realloc(block, size)`. -/
def os_coalesce_realloc (H : Nat) (st : Allocator) (block size r : Nat) :
    Option (Nat × Allocator) :=
  match os_coalesce_realloc_walk H block size st.dir with
  | none => none
  | some (d, bsize, returned, atEnd) =>
    if returned then some (wadd block H, { st with dir := d })
    else if atEnd then
      if st.tail_next ≠ 0 then none
      else
        let newSize : Int := toInt32 (wsub (ALIGN size) bsize)
        let st1 := (sbrk st newSize).2
        let d1 := store block (fun c => { c with size := ALIGN size, status := STATUS_ALLOC }) d
        some (wadd block H, { st1 with dir := d1 })
    else
      os_realloc_move H { st with dir := d } (wadd block H) size bsize r

/-- The function `os_realloc(ptr, size)`; `r` is the address `mmap` returns if
it is called. -/
def os_realloc (H : Nat) (st : Allocator) (ptr size r : Nat) : Option (Nat × Allocator) :=
  let block := wsub ptr H
  if ptr = 0 then os_malloc H st size r
  else
    match deref st.dir block with
    | some b =>
      if b.status = STATUS_FREE then some (0, st)
      else if size = 0 then (os_free H st ptr).map (fun s => (0, s))
      else if b.status = STATUS_MAPPED ∨ size ≥ MMAP_THRESHOLD then
        os_realloc_move H st ptr size (min size b.size) r
      else if b.size ≥ size then
        let d := if ALIGN b.size ≥ wadd (wadd 8 H) (ALIGN size) then os_split H block size st.dir
                 else st.dir
        some (ptr, { st with dir := d })
      else
        os_coalesce_realloc H st block size r
    | none =>
      match st.mapped.find? (fun m => m.addr = block) with
      | some m =>
        if size = 0 then (os_free H st ptr).map (fun s => (0, s))
        else os_realloc_move H st ptr size (min size m.size) r
      | none => none

/-! ## Specification-level definitions -/

/-- The coalescing contract in the words of the specification: each maximal run
of adjacent FREE blocks is replaced by one FREE block at the address of the
first block of the run, whose size is the sum of the sizes of the run plus `H`
for each absorbed block; the other blocks are kept, in order. -/
def merge_free_runs (H : Nat) : List block_meta → List block_meta
  | [] => []
  | b :: rest =>
    if b.status = STATUS_FREE then
      ⟨b.addr,
        b.size + ((rest.takeWhile (fun c => c.status = STATUS_FREE)).map (fun c => c.size)).sum
          + H * (rest.takeWhile (fun c => c.status = STATUS_FREE)).length,
        STATUS_FREE⟩ :: merge_free_runs H (rest.dropWhile (fun c => c.status = STATUS_FREE))
    else
      b :: merge_free_runs H rest
termination_by l => l.length
decreasing_by
  all_goals simp_wf
  · exact Nat.lt_succ_of_le (List.dropWhile_sublist _).length_le

/-- The number of bytes the blocks of a chain occupy, headers included. -/
def extent (H : Nat) (d : List block_meta) : Nat := (d.map (fun b => b.size + H)).sum

/-- No two adjacent nodes of the chain are both FREE. -/
def no_adjacent_free (d : List block_meta) : Prop :=
  List.Chain' (fun a b => ¬ (a.status = STATUS_FREE ∧ b.status = STATUS_FREE)) d

/-- The address of the final node of a chain (`dflt` for the empty chain). -/
def last_addr : Nat → List block_meta → Nat
  | dflt, [] => dflt
  | _, b :: rest => last_addr b.addr rest

/-- What `find_free_block` may do to a node: nothing, or round its size up. -/
def ffb_rel (a b : block_meta) : Prop :=
  b.addr = a.addr ∧ b.status = a.status ∧ (b.size = a.size ∨ b.size = ALIGN a.size)

/-- What is assumed of `STRUCT_SIZE`: a positive multiple of 8 (the header holds
a `size_t` and a pointer) below one page. -/
def header_ok (H : Nat) : Prop := H % 8 = 0 ∧ 0 < H ∧ H < 4096

instance (H : Nat) : Decidable (header_ok H) := by unfold header_ok; infer_instance

/-- The first address after a block: header, then the payload with its size
rounded up to the alignment. -/
def block_end (H : Nat) (b : block_meta) : Nat := b.addr + H + ALIGN b.size

/-- A chain laid out in memory below `e`: every block ends at or before the
header of every later block and at or before `e`, no header is at `NULL` and
no recorded size is within 7 bytes of `2 ^ 64`. -/
def chain_ok (H e : Nat) (d : List block_meta) : Prop :=
  d.Pairwise (fun a b => block_end H a ≤ b.addr) ∧
    ∀ b ∈ d, 0 < b.addr ∧ b.size ≤ ALIGN b.size ∧ block_end H b ≤ e

instance (H e : Nat) (d : List block_meta) : Decidable (chain_ok H e d) := by
  unfold chain_ok; infer_instance

/-- Two headers at the same address with the same rounded size, the second
size not wrapping when rounded. -/
def same_layout (a b : block_meta) : Prop :=
  b.addr = a.addr ∧ ALIGN b.size = ALIGN a.size ∧ b.size ≤ ALIGN b.size

/-! ## Calls of the public interface -/

/-- A call of one of the four public functions; `r` is the address `mmap`
returns, should the call reach `mmap`. -/
inductive Call
  | malloc (size r : Nat)
  | calloc (nmemb size r : Nat)
  | realloc (ptr size r : Nat)
  | free (ptr : Nat)
  deriving DecidableEq, Repr

/-- The result of a call: the returned pointer (`0` for `os_free`) and the
state after it. -/
def call (H : Nat) (st : Allocator) : Call → Option (Nat × Allocator)
  | Call.malloc size r => os_malloc H st size r
  | Call.calloc nmemb size r => os_calloc H st nmemb size r
  | Call.realloc ptr size r => os_realloc H st ptr size r
  | Call.free ptr => (os_free H st ptr).map (fun s => (0, s))

/-- The state after a sequence of calls. -/
def run (H : Nat) : Allocator → List Call → Option Allocator
  | st, [] => some st
  | st, c :: cs =>
    match call H st c with
    | none => none
    | some (_, st1) => run H st1 cs

/-- The allocator before the first call: `global_base` is `NULL`, nothing is
mapped, the break is `brk`. -/
def fresh (brk lim : Nat) : Allocator := ⟨[], 0, brk, lim, [], []⟩

/-- The allocator after `p = os_malloc(100)`, `os_malloc(100)` and
`os_realloc(p, 10)` on a fresh allocator with a 32-byte header: the second
node is a FREE block of `16 + 32 + 4` bytes. -/
def split_demo : Allocator :=
  ⟨[⟨4096, 10, STATUS_ALLOC⟩, ⟨4144, 52, STATUS_FREE⟩, ⟨4232, 100, STATUS_ALLOC⟩,
    ⟨4368, 130768, STATUS_FREE⟩], 0, 135168, 2 ^ 40, [],
    [OsCall.sbrk 0 4096, OsCall.sbrk 131072 4096]⟩

/-- The allocator after `os_malloc(131000)` on a fresh allocator with a 32-byte
header whose break cannot move beyond the preallocated arena: the final node
is a FREE block of 8 bytes. -/
def full_demo : Allocator :=
  ⟨[⟨4096, 131000, STATUS_ALLOC⟩, ⟨135128, 8, STATUS_FREE⟩], 0, 135168, 135168, [],
    [OsCall.sbrk 0 4096, OsCall.sbrk 131072 4096]⟩

/-! ## Reachable states -/

/-- A call of an operating-system primitive that succeeded, seen from an
allocator whose `sbrk` limit is `lim` and whose live mappings are `mapped`:
`sbrk` did not return `(void *) -1`; `mmap` returned neither `NULL` nor
`(void *) -1` but a region above the heap, inside the address space and
disjoint from the live mappings. -/
def os_ok (lim : Nat) (mapped : List mapped_block) : OsCall → Prop
  | OsCall.sbrk _ result => result ≠ FAILED
  | OsCall.mmap length result =>
    result ≠ 0 ∧ result ≠ FAILED ∧ lim ≤ result ∧ result + length ≤ WORD ∧
      ∀ m ∈ mapped, result + length ≤ m.addr ∨ m.addr + m.size ≤ result
  | OsCall.munmap _ _ => True
  | OsCall.memcpy _ _ _ => True
  | OsCall.memset _ _ => True

/-- Every primitive called between the states `st` and `st1` succeeded. -/
def calls_ok (st st1 : Allocator) : Prop :=
  ∃ es, st1.log = st.log ++ es ∧ ∀ e ∈ es, os_ok st.lim st.mapped e

/-- The live mappings are pairwise disjoint, above the heap and inside the
address space. -/
def mapped_ok (lim : Nat) (mapped : List mapped_block) : Prop :=
  mapped.Pairwise (fun a b => a.addr + a.size ≤ b.addr ∨ b.addr + b.size ≤ a.addr) ∧
    ∀ m ∈ mapped, lim ≤ m.addr ∧ m.addr + m.size ≤ WORD

/-- The invariant of the allocator state. -/
def Inv (H : Nat) (st : Allocator) : Prop :=
  chain_ok H st.brk st.dir ∧ st.tail_next = 0 ∧ 0 < st.brk ∧ st.brk ≤ st.lim ∧
    st.lim < FAILED ∧ mapped_ok st.lim st.mapped

/-- The states reachable from the allocator before its first call (break
`brk`, `sbrk` limit `lim`) by calls of `os_malloc`, `os_calloc`, `os_realloc`
and `os_free` that return and during which every operating-system primitive
succeeds. -/
inductive Reachable (H brk lim : Nat) : Allocator → Prop
  | init : Reachable H brk lim (fresh brk lim)
  | step (st : Allocator) (c : Call) (p : Nat) (st1 : Allocator) :
      Reachable H brk lim st → call H st c = some (p, st1) → calls_ok st st1 →
      Reachable H brk lim st1

instance (lim : Nat) (mapped : List mapped_block) (e : OsCall) :
    Decidable (os_ok lim mapped e) := by
  cases e <;> unfold os_ok <;> infer_instance

/-- The address ranges of the live blocks: header and payload
`[b, b + H + b.size)` of every ALLOCATED node of the Directory, and the mapping
`[m, m + m.size)` of every MAPPED block, whose recorded size is the length of
the whole mapping, header included. -/
def live_ranges (H : Nat) (st : Allocator) : List (Nat × Nat) :=
  (st.dir.filter (fun b => b.status = STATUS_ALLOC)).map (fun b => (b.addr, b.addr + H + b.size))
    ++ st.mapped.map (fun m => (m.addr, m.addr + m.size))

/-- Two address ranges `[x.1, x.2)` and `[y.1, y.2)` are disjoint. -/
def disjoint_ranges (x y : Nat × Nat) : Prop := x.2 ≤ y.1 ∨ y.2 ≤ x.1

/-- The allocator after two calls `os_malloc(135136)` with a 32-byte header,
the kernel having placed the second mapping directly after the first. -/
def mapped_demo : Allocator :=
  ⟨[], 0, 4096, 2 ^ 31, [⟨4295102464, 135168⟩, ⟨4294967296, 135168⟩],
    [OsCall.mmap 135168 4294967296, OsCall.mmap 135168 4295102464]⟩

/-- The allocator after `os_malloc(20)` on a fresh allocator with a 32-byte
header. -/
def first_demo : Allocator :=
  ⟨[⟨4096, 20, STATUS_ALLOC⟩, ⟨4152, 130984, STATUS_FREE⟩], 0, 135168, 2 ^ 31, [],
    [OsCall.sbrk 0 4096, OsCall.sbrk 131072 4096]⟩

/-- The allocator after `os_malloc(20)` and `os_malloc(135136)` on a fresh
allocator with a 32-byte header. -/
def mixed_demo : Allocator :=
  ⟨[⟨4096, 20, STATUS_ALLOC⟩, ⟨4152, 130984, STATUS_FREE⟩], 0, 135168, 2 ^ 31,
    [⟨4294967296, 135168⟩],
    [OsCall.sbrk 0 4096, OsCall.sbrk 131072 4096, OsCall.mmap 135168 4294967296]⟩

instance (lim : Nat) (mapped : List mapped_block) : Decidable (mapped_ok lim mapped) := by
  unfold mapped_ok; infer_instance

instance (H : Nat) (st : Allocator) : Decidable (Inv H st) := by
  unfold Inv; infer_instance

/-- The `size` field read through a header pointer: the header is a node of
the Directory or the header of a live mapping. -/
def recorded_size (st : Allocator) (hdr : Nat) : Option Nat :=
  match deref st.dir hdr with
  | some b => some b.size
  | none => (st.mapped.find? (fun m => m.addr = hdr)).map (fun m => m.size)

/-- A block fits a request: it is FREE and its rounded size is at least the
rounded request. -/
def fits (size : Nat) (b : block_meta) : Prop :=
  b.status = STATUS_FREE ∧ ALIGN b.size ≥ ALIGN size

/-- The allocator after `os_malloc(1000)` on a fresh allocator with a 32-byte
header. -/
def kilo_demo : Allocator :=
  ⟨[⟨4096, 1000, STATUS_ALLOC⟩, ⟨5128, 130008, STATUS_FREE⟩], 0, 135168, 2 ^ 31, [],
    [OsCall.sbrk 0 4096, OsCall.sbrk 131072 4096]⟩

/-- Between the states `st` and `st1` the mappings are unchanged and nothing but
`sbrk` was called. -/
def sbrk_only (st st1 : Allocator) : Prop :=
  st1.mapped = st.mapped ∧
    ∃ es, st1.log = st.log ++ es ∧ ∀ e ∈ es, ∃ x res, e = OsCall.sbrk x res

/-- The allocator after two calls `os_malloc(10)` on a fresh allocator with a
32-byte header: the first block has 16 bytes of payload and an ALLOCATED
successor. -/
def grow_demo : Allocator :=
  ⟨[⟨4096, 10, STATUS_ALLOC⟩, ⟨4144, 10, STATUS_ALLOC⟩, ⟨4192, 130944, STATUS_FREE⟩], 0,
    135168, 2 ^ 31, [], [OsCall.sbrk 0 4096, OsCall.sbrk 131072 4096]⟩

/-- Blocks number `m` to `m + n - 1` of a row of blocks of 131040 bytes, every
block directly after the previous one (the header has 32 bytes), block number 0
at 4096, all with the same status. -/
def row (status : Status) (m n : Nat) : List block_meta :=
  (List.range' m n).map (fun i => ⟨4096 + i * 131072, 131040, status⟩)

/-- A Directory that consists of one FREE block of 2147614688 bytes (`H = 32`):
what the coalescing pass of `os_malloc` makes of a row of 16385 released blocks
of 131040 bytes (`131040 + 16384 * (131040 + 32)` bytes). -/
def huge_demo : Allocator :=
  ⟨[⟨4096, 2147614688, STATUS_FREE⟩], 0, 2147618816, 2 ^ 40, [], []⟩

/-! ## Machine arithmetic without wrap-around -/

theorem ALIGN_of_lt (s : Nat) (h : s + 7 < WORD) : ALIGN s = (s + 7) / 8 * 8 := by
  unfold ALIGN ALIGNMENT
  rw [Nat.mod_eq_of_lt h]

theorem ALIGN_bounds (s : Nat) (h : s + 7 < WORD) :
    s ≤ ALIGN s ∧ ALIGN s < s + 8 ∧ ALIGN s % 8 = 0 := by
  rw [ALIGN_of_lt s h]; omega

theorem ALIGN_lt_WORD (s : Nat) : ALIGN s < WORD := by
  have h : (s + (ALIGNMENT - 1)) % WORD < WORD := Nat.mod_lt _ (by decide)
  have h2 := Nat.div_mul_le_self ((s + (ALIGNMENT - 1)) % WORD) ALIGNMENT
  unfold ALIGN
  omega

theorem ALIGN_mod (s : Nat) : ALIGN s % 8 = 0 := by
  unfold ALIGN ALIGNMENT
  omega

theorem ALIGN_idem (s : Nat) : ALIGN (ALIGN s) = ALIGN s := by
  have h1 := ALIGN_lt_WORD s
  have h2 := ALIGN_mod s
  have h3 : ALIGN s + 7 < WORD := by unfold WORD at *; omega
  rw [ALIGN_of_lt _ h3]; omega

theorem wadd_of_lt (a b : Nat) (h : a + b < WORD) : wadd a b = a + b := by
  unfold wadd; exact Nat.mod_eq_of_lt h

theorem wsub_of_le (a b : Nat) (h : b ≤ a) (ha : a < WORD) : wsub a b = a - b := by
  unfold wsub WORD at *
  omega

/-! ## `find_free_block`: the sentinel `INT_MAX` -/

/-- C1, the failing input: the Directory holds one FREE block of 2 GiB, whose
aligned size is at least the aligned request of 20 bytes, and `find_free_block`
returns `NULL`, because no aligned size below `min_size = INT_MAX` exists. -/
theorem find_free_block_misses_large_block :
    (∃ b ∈ [(⟨4096, 2147483648, STATUS_FREE⟩ : block_meta)],
        b.status = STATUS_FREE ∧ ALIGN b.size ≥ ALIGN 20) ∧
      (find_free_block [⟨4096, 2147483648, STATUS_FREE⟩] 4096 20).2.1 = 0 := by
  refine ⟨⟨_, List.mem_singleton.mpr rfl, rfl, by decide⟩, by decide⟩

/-- The example of the specification: with FREE blocks of aligned sizes 16, 32
and 64 and a request of 20 bytes, the 32-byte block is returned. -/
theorem find_free_block_example :
    (find_free_block [⟨1000, 16, STATUS_FREE⟩, ⟨1048, 32, STATUS_FREE⟩,
      ⟨1112, 64, STATUS_FREE⟩] 1000 20).2.1 = 1048 := by
  decide

theorem find_free_block_loop_rel (size : Nat) (l : List block_meta) :
    ∀ m r last, List.Forall₂ ffb_rel l (find_free_block_loop size l m r last).1 := by
  induction l with
  | nil => intro m r last; exact List.Forall₂.nil
  | cons c rest ih =>
    intro m r last
    simp only [find_free_block_loop]
    split
    · exact List.Forall₂.cons ⟨rfl, rfl, Or.inr rfl⟩ (ih _ _ _)
    · exact List.Forall₂.cons ⟨rfl, rfl, Or.inl rfl⟩ (ih _ _ _)

theorem find_free_block_loop_result (size : Nat) (l : List block_meta) :
    ∀ m r last, (find_free_block_loop size l m r last).2.1 = r ∨
      ∃ b ∈ (find_free_block_loop size l m r last).1,
        b.addr = (find_free_block_loop size l m r last).2.1 ∧ b.status = STATUS_FREE ∧
        b.size = ALIGN b.size ∧ ALIGN size ≤ b.size ∧ b.size < m := by
  induction l with
  | nil => intro m r last; exact Or.inl rfl
  | cons c rest ih =>
    intro m r last
    simp only [find_free_block_loop]
    split
    · rename_i h
      rcases ih (ALIGN c.size) c.addr last with h1 | ⟨b, hb, h2, h3, h4, h5, h6⟩
      · right
        refine ⟨{ c with size := ALIGN c.size }, List.mem_cons_self _ _, h1.symm, h.1,
          (ALIGN_idem _).symm, h.2.1, h.2.2⟩
      · right
        exact ⟨b, List.mem_cons_of_mem _ hb, h2, h3, h4, h5, by omega⟩
    · rcases ih m r c.addr with h1 | ⟨b, hb, h2⟩
      · exact Or.inl h1
      · exact Or.inr ⟨b, List.mem_cons_of_mem _ hb, h2⟩

theorem find_free_block_loop_miss (size : Nat) (l : List block_meta) :
    ∀ m r last,
      (∀ a ∈ l, ¬ (a.status = STATUS_FREE ∧ ALIGN a.size ≥ ALIGN size ∧ m > ALIGN a.size)) →
      find_free_block_loop size l m r last = (l, r, last_addr last l) := by
  induction l with
  | nil => intro m r last _; rfl
  | cons c rest ih =>
    intro m r last h
    have hc := h c (List.mem_cons_self _ _)
    simp only [find_free_block_loop, hc, if_false]
    rw [ih m r c.addr (fun a ha => h a (List.mem_cons_of_mem _ ha))]
    rfl

/-! ## `os_split` -/

theorem os_split_append (H block s : Nat) (pre rest : List block_meta)
    (hpre : ∀ c ∈ pre, c.addr ≠ block) :
    os_split H block s (pre ++ rest) = pre ++ os_split H block s rest := by
  induction pre with
  | nil => rfl
  | cons c pre ih =>
    have hc : c.addr ≠ block := hpre c (List.mem_cons_self _ _)
    have ih2 := ih (fun d hd => hpre d (List.mem_cons_of_mem _ hd))
    simp [os_split, hc, ih2]

/-- C6, counterexample: splitting a 200-byte block for a request of 20 bytes
(with a 32-byte header) leaves 20, not `ALIGN(20) = 24`, in the size field of
the original block. -/
theorem os_split_size_not_aligned :
    (200 ≥ ALIGN 20 + 32 + 8) ∧
      (deref (os_split 32 4096 20 [⟨4096, 200, STATUS_ALLOC⟩]) 4096).map (fun b => b.size)
        = some 20 ∧
      ALIGN 20 ≠ 20 := by
  decide

theorem os_split_eq (H s : Nat) (pre post : List block_meta) (b : block_meta)
    (hpre : ∀ c ∈ pre, c.addr ≠ b.addr)
    (hfit : b.size ≥ ALIGN s + H)
    (hmem : b.addr + H + b.size < WORD) :
    os_split H b.addr s (pre ++ b :: post) =
      pre ++ { b with size := s } ::
        ⟨b.addr + H + ALIGN s, b.size - ALIGN s - H, STATUS_FREE⟩ :: post := by
  rw [os_split_append H b.addr s pre _ hpre]
  have h1 : wadd (wadd b.addr H) (ALIGN s) = b.addr + H + ALIGN s := by
    rw [wadd_of_lt b.addr H (by omega), wadd_of_lt _ _ (by omega)]
  have h2 : wsub (wsub b.size (ALIGN s)) H = b.size - ALIGN s - H := by
    rw [wsub_of_le b.size (ALIGN s) (by omega) (by omega), wsub_of_le _ H (by omega) (by omega)]
  simp [os_split, h1, h2]

/-- C6, amended: for a block `b` of the chain with `b.size ≥ ALIGN(s) + H + 8`
(lying inside the address space), `os_split(b, s)` creates a FREE block at
`b + H + ALIGN(s)` of size `b.size - ALIGN(s) - H` whose successor is the old
successor of `b`; the size of `b` becomes `s` itself and its successor the new
block; the rest of the chain is unchanged. -/
theorem os_split_spec (H s : Nat) (pre post : List block_meta) (b : block_meta)
    (hpre : ∀ c ∈ pre, c.addr ≠ b.addr)
    (hfit : b.size ≥ ALIGN s + H + 8)
    (hmem : b.addr + H + b.size < WORD) :
    os_split H b.addr s (pre ++ b :: post) =
      pre ++ { b with size := s } ::
        ⟨b.addr + H + ALIGN s, b.size - ALIGN s - H, STATUS_FREE⟩ :: post :=
  os_split_eq H s pre post b hpre (by omega) hmem

/-- C6, witness: a 200-byte block at 4096 followed by a block at 4328, split
for 20 bytes with a 32-byte header. -/
theorem os_split_spec_witness :
    os_split 32 4096 20 ([] ++ (⟨4096, 200, STATUS_ALLOC⟩ : block_meta) ::
        [⟨4328, 8, STATUS_ALLOC⟩]) =
      [] ++ ({ (⟨4096, 200, STATUS_ALLOC⟩ : block_meta) with size := 20 }) ::
        ⟨4096 + 32 + ALIGN 20, 200 - ALIGN 20 - 32, STATUS_FREE⟩ ::
        [⟨4328, 8, STATUS_ALLOC⟩] :=
  os_split_spec 32 20 [] [⟨4328, 8, STATUS_ALLOC⟩] ⟨4096, 200, STATUS_ALLOC⟩
    (by simp) (by decide) (by decide)

/-! ## `os_coalesce` -/

theorem extent_dropWhile_le (H : Nat) (p : block_meta → Bool) (d : List block_meta) :
    extent H (d.dropWhile p) ≤ extent H d := by
  induction d with
  | nil => simp [extent]
  | cons a d ih =>
    simp only [List.dropWhile_cons]
    split
    · simp only [extent, List.map_cons, List.sum_cons] at *; omega
    · exact le_refl _

theorem os_coalesce_loop_nonfree (H : Nat) (b : block_meta) (rest : List block_meta)
    (hb : b.status ≠ STATUS_FREE) : os_coalesce_loop H b rest = b :: os_coalesce H rest := by
  cases rest with
  | nil => rfl
  | cons n r => simp [os_coalesce_loop, os_coalesce, hb]

theorem os_coalesce_loop_free (H : Nat) (rest : List block_meta) :
    ∀ cur : block_meta, cur.status = STATUS_FREE → cur.size + extent H rest < WORD →
      os_coalesce_loop H cur rest =
        ⟨cur.addr,
          cur.size + ((rest.takeWhile (fun c => c.status = STATUS_FREE)).map (fun c => c.size)).sum
            + H * (rest.takeWhile (fun c => c.status = STATUS_FREE)).length,
          STATUS_FREE⟩ :: os_coalesce H (rest.dropWhile (fun c => c.status = STATUS_FREE)) := by
  induction rest with
  | nil =>
    intro cur hc _
    cases cur; simp_all [os_coalesce_loop, os_coalesce]
  | cons n r ih =>
    intro cur hc hsum
    simp only [extent, List.map_cons, List.sum_cons] at hsum
    by_cases hn : n.status = STATUS_FREE
    · have h1 : wadd cur.size (wadd n.size H) = cur.size + n.size + H := by
        rw [wadd_of_lt n.size H (by omega), wadd_of_lt _ _ (by omega)]; omega
      have h2 := ih ⟨cur.addr, cur.size + n.size + H, STATUS_FREE⟩ rfl
        (by simp only [extent]; omega)
      have h3 : os_coalesce_loop H cur (n :: r) =
          os_coalesce_loop H ⟨cur.addr, cur.size + n.size + H, STATUS_FREE⟩ r := by
        simp [os_coalesce_loop, hc, hn, h1]
      rw [h3, h2]
      simp only [List.takeWhile_cons, List.dropWhile_cons, hn, decide_True, if_true,
        List.map_cons, List.sum_cons, List.length_cons]
      congr 2
      ring
    · simp [os_coalesce_loop, hn, List.takeWhile_cons, List.dropWhile_cons, os_coalesce]
      cases cur; simp_all

theorem os_coalesce_eq_merge (H : Nat) : ∀ (n : Nat) (d : List block_meta), d.length ≤ n →
    extent H d < WORD → os_coalesce H d = merge_free_runs H d := by
  intro n
  induction n with
  | zero =>
    intro d hd _
    have : d = [] := List.length_eq_zero.mp (by omega)
    subst this; simp [os_coalesce, merge_free_runs]
  | succ n ih =>
    intro d hd hsum
    cases d with
    | nil => simp [os_coalesce, merge_free_runs]
    | cons b rest =>
      have hsum2 : b.size + H + extent H rest < WORD := by
        simpa [extent] using hsum
      rw [merge_free_runs]
      by_cases hb : b.status = STATUS_FREE
      · have hlen : (rest.dropWhile (fun c => decide (c.status = STATUS_FREE))).length ≤ n := by
          have := (List.dropWhile_sublist (fun c : block_meta => decide (c.status = STATUS_FREE))
            (l := rest)).length_le
          simp only [List.length_cons] at hd; omega
        have hext := extent_dropWhile_le H (fun c => decide (c.status = STATUS_FREE)) rest
        rw [if_pos hb, os_coalesce, os_coalesce_loop_free H rest b hb (by omega),
          ih _ hlen (by omega)]
      · rw [if_neg hb, os_coalesce, os_coalesce_loop_nonfree H b rest hb,
          ih rest (by simp only [List.length_cons] at hd; omega) (by omega)]

theorem os_coalesce_loop_chain (H : Nat) (rest : List block_meta) :
    ∀ cur : block_meta, no_adjacent_free (os_coalesce_loop H cur rest) ∧
      ∃ c tl, os_coalesce_loop H cur rest = c :: tl ∧ c.status = cur.status := by
  induction rest with
  | nil => intro cur; exact ⟨List.chain'_singleton _, cur, [], rfl, rfl⟩
  | cons n r ih =>
    intro cur
    by_cases h : cur.status = STATUS_FREE ∧ n.status = STATUS_FREE
    · have h2 := ih { cur with size := wadd cur.size (wadd n.size H) }
      simp only [os_coalesce_loop, h, and_self, if_true]
      simpa [h.1] using h2
    · obtain ⟨hch, c, tl, hc, hst⟩ := ih n
      simp only [os_coalesce_loop, h, if_false]
      refine ⟨?_, cur, _, rfl, rfl⟩
      rw [hc] at hch ⊢
      exact List.Chain'.cons (by rw [hst]; exact h) hch

theorem os_coalesce_no_adjacent_free (H : Nat) (d : List block_meta) :
    no_adjacent_free (os_coalesce H d) := by
  cases d with
  | nil => exact List.chain'_nil
  | cons c rest => exact (os_coalesce_loop_chain H rest c).1

theorem os_coalesce_loop_fixed (H : Nat) (l : List block_meta) :
    ∀ c : block_meta, no_adjacent_free (c :: l) → os_coalesce_loop H c l = c :: l := by
  induction l with
  | nil => intro c _; rfl
  | cons n r ih =>
    intro c hch
    have h1 := List.chain'_cons.mp hch
    simp only [os_coalesce_loop, h1.1, if_false]
    rw [ih n h1.2]

theorem os_coalesce_fixed (H : Nat) (d : List block_meta) (h : no_adjacent_free d) :
    os_coalesce H d = d := by
  cases d with
  | nil => rfl
  | cons c rest => exact os_coalesce_loop_fixed H rest c h

/-- C7: for a non-empty Directory that fits in the address space, `os_coalesce`
yields the Directory in which each maximal run of adjacent FREE blocks is
replaced by one FREE block at the first address of the run, of size the sum of
the sizes of the run plus `H` per absorbed block, the other blocks unchanged
and in order; and no two adjacent nodes of the result are both FREE. -/
theorem os_coalesce_merges_free_runs (H : Nat) (d : List block_meta) (_hd : d ≠ [])
    (hfit : extent H d < WORD) :
    os_coalesce H d = merge_free_runs H d ∧ no_adjacent_free (os_coalesce H d) :=
  ⟨os_coalesce_eq_merge H d.length d (le_refl _) hfit, os_coalesce_no_adjacent_free H d⟩

/-- C7, witness: FREE, FREE, ALLOC, FREE, FREE, FREE with a 32-byte header. -/
theorem os_coalesce_merges_free_runs_witness :
    os_coalesce 32 [⟨4096, 16, STATUS_FREE⟩, ⟨4144, 8, STATUS_FREE⟩, ⟨4184, 8, STATUS_ALLOC⟩,
        ⟨4224, 8, STATUS_FREE⟩, ⟨4264, 24, STATUS_FREE⟩, ⟨4320, 8, STATUS_FREE⟩]
      = merge_free_runs 32 [⟨4096, 16, STATUS_FREE⟩, ⟨4144, 8, STATUS_FREE⟩,
        ⟨4184, 8, STATUS_ALLOC⟩, ⟨4224, 8, STATUS_FREE⟩, ⟨4264, 24, STATUS_FREE⟩,
        ⟨4320, 8, STATUS_FREE⟩] ∧
    no_adjacent_free (os_coalesce 32 [⟨4096, 16, STATUS_FREE⟩, ⟨4144, 8, STATUS_FREE⟩,
        ⟨4184, 8, STATUS_ALLOC⟩, ⟨4224, 8, STATUS_FREE⟩, ⟨4264, 24, STATUS_FREE⟩,
        ⟨4320, 8, STATUS_FREE⟩]) :=
  os_coalesce_merges_free_runs 32 _ (by simp) (by decide)

/-- The merged Directory of the witness, evaluated. -/
theorem os_coalesce_example :
    os_coalesce 32 [⟨4096, 16, STATUS_FREE⟩, ⟨4144, 8, STATUS_FREE⟩, ⟨4184, 8, STATUS_ALLOC⟩,
        ⟨4224, 8, STATUS_FREE⟩, ⟨4264, 24, STATUS_FREE⟩, ⟨4320, 8, STATUS_FREE⟩]
      = [⟨4096, 56, STATUS_FREE⟩, ⟨4184, 8, STATUS_ALLOC⟩, ⟨4224, 104, STATUS_FREE⟩] := by
  decide

/-- C8: running `os_coalesce` twice on a non-empty Directory gives the same
Directory as running it once. -/
theorem os_coalesce_idempotent (H : Nat) (d : List block_meta) (_hd : d ≠ []) :
    os_coalesce H (os_coalesce H d) = os_coalesce H d :=
  os_coalesce_fixed H _ (os_coalesce_no_adjacent_free H d)

/-- C8, witness: two adjacent FREE blocks followed by an ALLOCATED one. -/
theorem os_coalesce_idempotent_witness :
    os_coalesce 32 (os_coalesce 32 [⟨4096, 16, STATUS_FREE⟩, ⟨4144, 8, STATUS_FREE⟩,
        ⟨4184, 8, STATUS_ALLOC⟩])
      = os_coalesce 32 [⟨4096, 16, STATUS_FREE⟩, ⟨4144, 8, STATUS_FREE⟩,
        ⟨4184, 8, STATUS_ALLOC⟩] :=
  os_coalesce_idempotent 32 _ (by simp)

/-! ## Chains laid out in memory -/

theorem chain_ok_nil (H e : Nat) : chain_ok H e [] := by
  simp [chain_ok]

theorem chain_ok_cons (H e : Nat) (a : block_meta) (l : List block_meta) :
    chain_ok H e (a :: l) ↔
      (∀ b ∈ l, block_end H a ≤ b.addr) ∧ (0 < a.addr ∧ a.size ≤ ALIGN a.size ∧ block_end H a ≤ e) ∧
        chain_ok H e l := by
  simp only [chain_ok, List.pairwise_cons, List.mem_cons, forall_eq_or_imp]
  tauto

theorem chain_ok_append (H e : Nat) (l1 l2 : List block_meta) :
    chain_ok H e (l1 ++ l2) ↔
      chain_ok H e l1 ∧ chain_ok H e l2 ∧ ∀ a ∈ l1, ∀ b ∈ l2, block_end H a ≤ b.addr := by
  simp only [chain_ok, List.pairwise_append, List.mem_append]
  constructor
  · rintro ⟨⟨h1, h2, h3⟩, h4⟩
    exact ⟨⟨h1, fun b hb => h4 b (Or.inl hb)⟩, ⟨h2, fun b hb => h4 b (Or.inr hb)⟩, h3⟩
  · rintro ⟨⟨h1, h4⟩, ⟨h2, h5⟩, h3⟩
    exact ⟨⟨h1, h2, h3⟩, fun b hb => hb.elim (h4 b) (h5 b)⟩

theorem chain_ok_mono (H e e2 : Nat) (d : List block_meta) (h : chain_ok H e d) (he : e ≤ e2) :
    chain_ok H e2 d :=
  ⟨h.1, fun b hb => ⟨(h.2 b hb).1, (h.2 b hb).2.1, le_trans (h.2 b hb).2.2 he⟩⟩

theorem forall₂_mem_right {R : block_meta → block_meta → Prop} {l l2 : List block_meta}
    (h : List.Forall₂ R l l2) : ∀ b ∈ l2, ∃ a ∈ l, R a b := by
  induction h with
  | nil => intro b hb; cases hb
  | cons hab _ ih =>
    intro b hb
    rcases List.mem_cons.mp hb with rfl | hb2
    · exact ⟨_, List.mem_cons_self _ _, hab⟩
    · obtain ⟨a, ha, hr⟩ := ih b hb2
      exact ⟨a, List.mem_cons_of_mem _ ha, hr⟩

theorem chain_ok_forall₂ (H e : Nat) (l l2 : List block_meta)
    (hrel : List.Forall₂ same_layout l l2) (h : chain_ok H e l) : chain_ok H e l2 := by
  induction hrel with
  | nil => exact h
  | cons hab hrest ih =>
    rename_i a b l l2
    rw [chain_ok_cons] at h ⊢
    obtain ⟨h1, h2, h3⟩ := h
    obtain ⟨ha, hs, hw⟩ := hab
    have hend : block_end H b = block_end H a := by simp [block_end, ha, hs]
    refine ⟨?_, ⟨by omega, hw, by omega⟩, ih h3⟩
    intro c hc
    obtain ⟨c0, hc0, hrel0⟩ := forall₂_mem_right hrest c hc
    rw [hend, hrel0.1]
    exact h1 c0 hc0

theorem ALIGN_add_le (x y H : Nat) (hH : H % 8 = 0) (h : ALIGN x + H + ALIGN y < WORD)
    (hx : x ≤ ALIGN x) (hy : y ≤ ALIGN y) :
    wadd x (wadd y H) = x + y + H ∧ x + y + H ≤ ALIGN (x + y + H) ∧
      ALIGN (x + y + H) ≤ ALIGN x + H + ALIGN y := by
  have hx2 := ALIGN_mod x
  have hy2 := ALIGN_mod y
  have h1 : wadd y H = y + H := wadd_of_lt _ _ (by omega)
  have h2 : wadd x (y + H) = x + y + H := by rw [wadd_of_lt _ _ (by omega)]; omega
  have h3 : x + y + H + 7 < WORD := by
    unfold WORD at *; omega
  rw [h1, h2, ALIGN_of_lt _ h3]
  refine ⟨rfl, by omega, ?_⟩
  omega

theorem os_coalesce_loop_addr_mem (H : Nat) (rest : List block_meta) :
    ∀ cur : block_meta, ∀ b ∈ os_coalesce_loop H cur rest, ∃ a ∈ cur :: rest, a.addr = b.addr := by
  induction rest with
  | nil => intro cur b hb; exact ⟨b, hb, rfl⟩
  | cons n r ih =>
    intro cur b hb
    simp only [os_coalesce_loop] at hb
    split at hb
    · obtain ⟨a, ha, hab⟩ := ih _ b hb
      rcases List.mem_cons.mp ha with rfl | ha2
      · exact ⟨cur, List.mem_cons_self _ _, hab⟩
      · exact ⟨a, List.mem_cons_of_mem _ (List.mem_cons_of_mem _ ha2), hab⟩
    · rcases List.mem_cons.mp hb with rfl | hb2
      · exact ⟨b, List.mem_cons_self _ _, rfl⟩
      · obtain ⟨a, ha, hab⟩ := ih n b hb2
        exact ⟨a, List.mem_cons_of_mem _ ha, hab⟩

theorem os_coalesce_loop_chain_ok (H e : Nat) (hH : H % 8 = 0) (he : e < WORD)
    (rest : List block_meta) :
    ∀ cur : block_meta, chain_ok H e (cur :: rest) → chain_ok H e (os_coalesce_loop H cur rest) := by
  induction rest with
  | nil => intro cur h; exact h
  | cons n r ih =>
    intro cur h
    simp only [os_coalesce_loop]
    split
    · apply ih
      rw [chain_ok_cons, chain_ok_cons] at h
      obtain ⟨h1, ⟨h2, h3, h4⟩, h5, ⟨h6, h7, h8⟩, h9⟩ := h
      have h10 := h1 n (List.mem_cons_self _ _)
      simp only [block_end] at *
      obtain ⟨a1, a2, a3⟩ := ALIGN_add_le cur.size n.size H hH (by omega) h3 h7
      rw [chain_ok_cons]
      simp only [block_end, a1]
      refine ⟨fun b hb => ?_, ⟨h2, a2, by omega⟩, h9⟩
      have := h5 b hb
      omega
    · rw [chain_ok_cons] at h ⊢
      refine ⟨?_, h.2.1, ih n h.2.2⟩
      intro b hb
      obtain ⟨a, ha, hab⟩ := os_coalesce_loop_addr_mem H r n b hb
      rw [← hab]
      exact h.1 a ha


theorem os_coalesce_chain_ok (H e : Nat) (hH : H % 8 = 0) (he : e < WORD) (d : List block_meta)
    (h : chain_ok H e d) : chain_ok H e (os_coalesce H d) := by
  cases d with
  | nil => exact h
  | cons c rest => exact os_coalesce_loop_chain_ok H e hH he rest c h

theorem os_coalesce_ne_nil (H : Nat) (d : List block_meta) (h : d ≠ []) : os_coalesce H d ≠ [] := by
  cases d with
  | nil => exact absurd rfl h
  | cons c rest =>
    obtain ⟨_, c2, tl, h2, _⟩ := os_coalesce_loop_chain H rest c
    simp [os_coalesce, h2]

/-! ## Pointers into a chain -/

theorem chain_ok_addr_ne (H e : Nat) (hH : 0 < H) (pre post : List block_meta) (b : block_meta)
    (h : chain_ok H e (pre ++ b :: post)) :
    (∀ c ∈ pre, c.addr ≠ b.addr) ∧ (∀ c ∈ post, c.addr ≠ b.addr) := by
  rw [chain_ok_append, chain_ok_cons] at h
  obtain ⟨_, ⟨h1, h2, _⟩, h3⟩ := h
  constructor
  · intro c hc
    have := h3 c hc b (List.mem_cons_self _ _)
    simp only [block_end] at this; omega
  · intro c hc
    have := h1 c hc
    simp only [block_end] at this; omega

theorem deref_append (pre post : List block_meta) (b : block_meta)
    (hpre : ∀ c ∈ pre, c.addr ≠ b.addr) : deref (pre ++ b :: post) b.addr = some b := by
  induction pre with
  | nil => simp [deref]
  | cons c pre ih =>
    have hc := hpre c (List.mem_cons_self _ _)
    have := ih (fun d hd => hpre d (List.mem_cons_of_mem _ hd))
    simp only [deref] at this
    simp [deref, hc, this]

theorem store_append (f : block_meta → block_meta) (pre post : List block_meta) (b : block_meta)
    (hpre : ∀ c ∈ pre, c.addr ≠ b.addr) :
    store b.addr f (pre ++ b :: post) = pre ++ f b :: post := by
  induction pre with
  | nil => simp [store]
  | cons c pre ih =>
    have hc := hpre c (List.mem_cons_self _ _)
    simp [store, hc, ih (fun d hd => hpre d (List.mem_cons_of_mem _ hd))]

theorem deref_split (d : List block_meta) (p : Nat) (b : block_meta) (h : deref d p = some b) :
    b.addr = p ∧ ∃ pre post, d = pre ++ b :: post ∧ ∀ c ∈ pre, c.addr ≠ b.addr := by
  unfold deref at h
  rw [List.find?_eq_some] at h
  obtain ⟨h1, pre, post, h2, h3⟩ := h
  have hb : b.addr = p := by simpa using h1
  refine ⟨hb, pre, post, h2, fun c hc => ?_⟩
  have := h3 c hc
  rw [hb]; simpa using this

/-! ## The paths of `os_malloc` -/

theorem ffb_rel_same_layout (a b : block_meta) (h : ffb_rel a b) (ha : a.size ≤ ALIGN a.size) :
    same_layout a b := by
  obtain ⟨h1, _, h3 | h3⟩ := h
  · exact ⟨h1, by rw [h3], by rw [h3]; exact ha⟩
  · exact ⟨h1, by rw [h3, ALIGN_idem], by rw [h3, ALIGN_idem]⟩

theorem forall₂_strengthen {R S : block_meta → block_meta → Prop} {l l2 : List block_meta}
    (h : List.Forall₂ R l l2) (hs : ∀ a ∈ l, ∀ b, R a b → S a b) : List.Forall₂ S l l2 := by
  induction h with
  | nil => exact List.Forall₂.nil
  | cons hab _ ih =>
    exact List.Forall₂.cons (hs _ (List.mem_cons_self _ _) _ hab)
      (ih (fun a ha b hr => hs a (List.mem_cons_of_mem _ ha) b hr))

theorem find_free_block_chain_ok (H e : Nat) (d : List block_meta) (last size : Nat)
    (h : chain_ok H e d) : chain_ok H e (find_free_block d last size).1 := by
  apply chain_ok_forall₂ H e d _ _ h
  exact forall₂_strengthen (find_free_block_loop_rel size d INT_MAX 0 last)
    (fun a ha b hr => ffb_rel_same_layout a b hr (h.2 a ha).2.1)

theorem find_free_block_loop_zero (size : Nat) (l : List block_meta) :
    ∀ m r last, (∀ a ∈ l, 0 < a.addr) → (find_free_block_loop size l m r last).2.1 = 0 →
      find_free_block_loop size l m r last = (l, r, last_addr last l) := by
  induction l with
  | nil => intro m r last _ _; rfl
  | cons c rest ih =>
    intro m r last hpos hz
    have hc := hpos c (List.mem_cons_self _ _)
    simp only [find_free_block_loop] at hz ⊢
    split
    · rename_i hcond
      rw [if_pos hcond] at hz
      exfalso
      rcases find_free_block_loop_result size rest (ALIGN c.size) c.addr last with h1 | ⟨b, hb, h2, _⟩
      · simp only at hz; omega
      · obtain ⟨a, ha, hr⟩ := forall₂_mem_right (find_free_block_loop_rel size rest _ _ _) b hb
        have := hpos a (List.mem_cons_of_mem _ ha)
        have := hr.1
        simp only at hz; omega
    · rename_i hcond
      rw [if_neg hcond] at hz
      rw [ih m r c.addr (fun a ha => hpos a (List.mem_cons_of_mem _ ha)) hz]
      rfl

theorem find_free_block_hit (d : List block_meta) (last size : Nat)
    (hz : (find_free_block d last size).2.1 ≠ 0) :
    ∃ pre blk post, (find_free_block d last size).1 = pre ++ blk :: post ∧
      blk.addr = (find_free_block d last size).2.1 ∧ blk.status = STATUS_FREE ∧
      blk.size = ALIGN blk.size ∧ ALIGN size ≤ blk.size := by
  rcases find_free_block_loop_result size d INT_MAX 0 last with h1 | ⟨b, hb, h2, h3, h4, h5, _⟩
  · exact absurd h1 hz
  · obtain ⟨pre, post, hpp⟩ := List.append_of_mem hb
    exact ⟨pre, b, post, hpp, h2, h3, h4, h5⟩

theorem ALIGN_le_threshold (size : Nat) (h : size < MMAP_THRESHOLD) :
    ALIGN size ≤ MMAP_THRESHOLD ∧ size ≤ ALIGN size ∧ ALIGN size < size + 8 := by
  have h1 : size + 7 < WORD := by unfold MMAP_THRESHOLD at h; unfold WORD; omega
  have := ALIGN_bounds size h1
  unfold MMAP_THRESHOLD at *
  omega

theorem os_malloc_place_hit (H : Nat) (st : Allocator) (size : Nat) (hH : header_ok H)
    (hs : size < MMAP_THRESHOLD) (hc : chain_ok H st.brk st.dir) (hb : st.brk < WORD)
    (ht : st.tail_next = 0)
    (hhit : (find_free_block (os_coalesce H st.dir) (global_base st) size).2.1 ≠ 0) :
    ∃ pre blk post,
      (find_free_block (os_coalesce H st.dir) (global_base st) size).1 = pre ++ blk :: post ∧
      blk.addr = (find_free_block (os_coalesce H st.dir) (global_base st) size).2.1 ∧
      blk.status = STATUS_FREE ∧ blk.size = ALIGN blk.size ∧ ALIGN size ≤ blk.size ∧
      os_malloc_place H st size = some (blk.addr + H,
        { st with dir :=
            if blk.size ≥ ALIGN size + H + 8 then
              pre ++ ⟨blk.addr, size, STATUS_ALLOC⟩ ::
                ⟨blk.addr + H + ALIGN size, blk.size - ALIGN size - H, STATUS_FREE⟩ :: post
            else pre ++ ⟨blk.addr, blk.size, STATUS_ALLOC⟩ :: post }) := by
  obtain ⟨hH1, hH2, hH3⟩ := hH
  obtain ⟨pre, blk, post, hf, ha, hfree, hal, hge⟩ := find_free_block_hit _ _ _ hhit
  refine ⟨pre, blk, post, hf, ha, hfree, hal, hge, ?_⟩
  have hck := find_free_block_chain_ok H st.brk _ (global_base st) size
    (os_coalesce_chain_ok H st.brk hH1 hb _ hc)
  rw [hf] at hck
  have hne := (chain_ok_addr_ne H st.brk hH2 pre post blk hck).1
  have hblk := (hck.2 blk (by simp))
  simp only [block_end] at hblk
  have hsz := ALIGN_le_threshold size hs
  have hw : wadd (wadd 8 H) (ALIGN size) = ALIGN size + H + 8 := by
    unfold MMAP_THRESHOLD at hsz
    rw [wadd_of_lt 8 H (by unfold WORD; omega), wadd_of_lt _ _ (by unfold WORD; omega)]; omega
  have hp : wadd blk.addr H = blk.addr + H := wadd_of_lt _ _ (by omega)
  unfold os_malloc_place
  generalize find_free_block (os_coalesce H st.dir) (global_base st) size = f at *
  obtain ⟨fd, fb, fl⟩ := f
  simp only at hf ha hhit
  subst hf ha
  simp only [ht, ne_eq, not_true_eq_false, if_false, hhit, deref_append pre post blk hne,
    hw, ← hal, hp]
  by_cases hsplit : blk.size ≥ ALIGN size + H + 8
  · simp only [hsplit, if_true]
    rw [os_split_eq H size pre post blk hne (by omega) (by omega)]
    have h4 := store_append (fun c => { c with status := STATUS_ALLOC }) pre
      (⟨blk.addr + H + ALIGN size, blk.size - ALIGN size - H, STATUS_FREE⟩ :: post)
      ({ blk with size := size }) hne
    simp only at h4
    rw [h4]
  · simp only [hsplit, if_false]
    rw [store_append _ pre post blk hne]

theorem last_addr_concat (l : List block_meta) (b : block_meta) :
    ∀ dflt, last_addr dflt (l ++ [b]) = b.addr := by
  induction l with
  | nil => intro _; rfl
  | cons c rest ih => intro _; exact ih c.addr

theorem cut_after_append (pre post : List block_meta) (b : block_meta)
    (hpre : ∀ c ∈ pre, c.addr ≠ b.addr) : cut_after b.addr (pre ++ b :: post) = some (pre ++ [b]) := by
  induction pre with
  | nil => simp [cut_after]
  | cons c pre ih =>
    have hc := hpre c (List.mem_cons_self _ _)
    simp [cut_after, hc, ih (fun d hd => hpre d (List.mem_cons_of_mem _ hd))]

/-- The state of `os_malloc` at a miss: the coalesced chain is unchanged by the
search, it is `init ++ [l]`, and `last` points to `l`. -/
theorem os_malloc_place_miss (H : Nat) (st : Allocator) (size : Nat) (hH : header_ok H)
    (hc : chain_ok H st.brk st.dir) (hb : st.brk < WORD) (hd : st.dir ≠ [])
    (hmiss : (find_free_block (os_coalesce H st.dir) (global_base st) size).2.1 = 0) :
    ∃ init l, os_coalesce H st.dir = init ++ [l] ∧
      find_free_block (os_coalesce H st.dir) (global_base st) size = (init ++ [l], 0, l.addr) ∧
      os_coalesce H (init ++ [l]) = init ++ [l] ∧
      deref (init ++ [l]) l.addr = some l ∧ (∀ c ∈ init, c.addr ≠ l.addr) ∧
      chain_ok H st.brk (init ++ [l]) := by
  obtain ⟨hH1, hH2, hH3⟩ := hH
  have hck := os_coalesce_chain_ok H st.brk hH1 hb _ hc
  have hne := os_coalesce_ne_nil H st.dir hd
  obtain ⟨init, l, hil⟩ : ∃ init l, os_coalesce H st.dir = init ++ [l] :=
    ⟨_, _, (List.dropLast_append_getLast hne).symm⟩
  have hfix : os_coalesce H (init ++ [l]) = init ++ [l] := by
    rw [← hil]; exact os_coalesce_fixed H _ (os_coalesce_no_adjacent_free H st.dir)
  have hz := find_free_block_loop_zero size (os_coalesce H st.dir) INT_MAX 0 (global_base st)
    (fun a ha => (hck.2 a ha).1) hmiss
  rw [hil] at hck hz
  have hne2 := (chain_ok_addr_ne H st.brk hH2 init [] l hck).1
  refine ⟨init, l, hil, ?_, hfix, deref_append init [] l hne2, hne2, hck⟩
  rw [hil]; unfold find_free_block; rw [hz, last_addr_concat]

theorem sbrk_zero (st : Allocator) (h : st.brk ≤ st.lim) :
    sbrk st 0 = (st.brk, { st with log := st.log ++ [OsCall.sbrk 0 st.brk] }) := by
  unfold sbrk
  have h1 : (0 : Int) ≤ (st.brk : Int) + 0 ∧ (st.brk : Int) + 0 ≤ (st.lim : Int) := by omega
  rw [if_pos h1]
  simp

theorem os_malloc_place_grow (H : Nat) (st : Allocator) (size : Nat) (hH : header_ok H)
    (hc : chain_ok H st.brk st.dir) (hb : st.brk < WORD) (hd : st.dir ≠ [])
    (ht : st.tail_next = 0)
    (hmiss : (find_free_block (os_coalesce H st.dir) (global_base st) size).2.1 = 0)
    (init : List block_meta) (l : block_meta) (hil : os_coalesce H st.dir = init ++ [l])
    (hfree : l.status = STATUS_FREE) :
    os_malloc_place H st size = some (l.addr + H,
      { (sbrk st (toInt32 (wsub (ALIGN size) l.size))).2 with
        dir := init ++ [⟨l.addr, ALIGN size, STATUS_ALLOC⟩] }) := by
  obtain ⟨init2, l2, h1, h2, h3, h4, h5, h6⟩ := os_malloc_place_miss H st size hH hc hb hd hmiss
  obtain ⟨hi, hl⟩ := List.append_inj' (h1.symm.trans hil) rfl
  have hl2 : l2 = l := by simpa using hl
  rw [hi, hl2] at h2 h3 h4 h5 h6
  have hblk := h6.2 l (by simp)
  simp only [block_end] at hblk
  have hp : wadd l.addr H = l.addr + H := wadd_of_lt _ _ (by omega)
  unfold os_malloc_place
  rw [h2]
  simp only [ht, ne_eq, not_true_eq_false, if_false, if_true, h3, h4, hfree, hp]
  have s1 := store_append (fun b => { b with size := ALIGN size }) init [] l h5
  simp only at s1
  rw [s1]
  have s2 := store_append (fun b => { b with status := STATUS_ALLOC }) init []
    ({ l with size := ALIGN size }) h5
  simp only at s2
  rw [s2]


theorem ALIGN_add_header (H size : Nat) (hH : header_ok H) (hs : size < MMAP_THRESHOLD) :
    toIntptr (ALIGN (wadd size H)) = ((H + ALIGN size : Nat) : Int) := by
  obtain ⟨hH1, hH2, hH3⟩ := hH
  unfold MMAP_THRESHOLD at hs
  have h1 : wadd size H = size + H := wadd_of_lt _ _ (by unfold WORD; omega)
  have h2 : ALIGN (size + H) = H + ALIGN size := by
    rw [ALIGN_of_lt _ (by unfold WORD; omega), ALIGN_of_lt _ (by unfold WORD; omega)]; omega
  have h3 := ALIGN_le_threshold size (by unfold MMAP_THRESHOLD; omega)
  unfold MMAP_THRESHOLD at h3
  rw [h1, h2]
  unfold toIntptr
  have h4 : (H + ALIGN size) % WORD = H + ALIGN size := Nat.mod_eq_of_lt (by unfold WORD; omega)
  rw [h4, if_pos (by omega)]

theorem request_space_append (H : Nat) (st : Allocator) (size : Nat) (hH : header_ok H)
    (hs : size < MMAP_THRESHOLD) (hlim : st.brk ≤ st.lim) (hlim2 : st.lim < WORD)
    (pre : List block_meta) (l : block_meta) (hdir : st.dir = pre ++ [l])
    (hne : ∀ c ∈ pre, c.addr ≠ l.addr) (hl0 : l.addr ≠ 0) :
    request_space H st l.addr size =
      if st.brk + (H + ALIGN size) ≤ st.lim then
        some (some ⟨st.brk, size, STATUS_ALLOC⟩,
          { st with dir := pre ++ [l] ++ [⟨st.brk, size, STATUS_ALLOC⟩],
                    tail_next := 0,
                    brk := st.brk + (H + ALIGN size),
                    log := st.log ++ [OsCall.sbrk 0 st.brk,
                      OsCall.sbrk ((H + ALIGN size : Nat) : Int) st.brk] })
      else
        some (none,
          { st with dir := pre ++ [l], tail_next := st.brk,
                    log := st.log ++ [OsCall.sbrk 0 st.brk,
                      OsCall.sbrk ((H + ALIGN size : Nat) : Int) FAILED] }) := by
  unfold request_space
  rw [sbrk_zero _ hlim]
  simp only [ne_eq, hl0, not_false_eq_true, if_true, hdir, cut_after_append pre [] l hne,
    ALIGN_add_header H size hH hs]
  unfold sbrk
  by_cases hfit : st.brk + (H + ALIGN size) ≤ st.lim
  · have hfit2 : (0 : Int) ≤ (st.brk : Int) + ((H + ALIGN size : Nat) : Int) ∧
        (st.brk : Int) + ((H + ALIGN size : Nat) : Int) ≤ (st.lim : Int) := by omega
    have hfail : st.brk ≠ FAILED := by
      have := ALIGN_le_threshold size hs
      have := hH.2.1
      unfold FAILED WORD at *; omega
    simp only [hfit2, and_self, if_true, hfail, if_false, hfit]
    congr 3
    simp
  · have hfit2 : ¬ ((0 : Int) ≤ (st.brk : Int) + ((H + ALIGN size : Nat) : Int) ∧
        (st.brk : Int) + ((H + ALIGN size : Nat) : Int) ≤ (st.lim : Int)) := by omega
    simp only [hfit2, if_false, if_true, hfit]
    simp

theorem os_malloc_place_append (H : Nat) (st : Allocator) (size : Nat) (hH : header_ok H)
    (hs : size < MMAP_THRESHOLD)
    (hc : chain_ok H st.brk st.dir) (hlim : st.brk ≤ st.lim) (hlim2 : st.lim < WORD)
    (hd : st.dir ≠ []) (ht : st.tail_next = 0)
    (hmiss : (find_free_block (os_coalesce H st.dir) (global_base st) size).2.1 = 0)
    (init : List block_meta) (l : block_meta) (hil : os_coalesce H st.dir = init ++ [l])
    (hnf : l.status ≠ STATUS_FREE) :
    os_malloc_place H st size =
      if st.brk + (H + ALIGN size) ≤ st.lim then
        some (st.brk + H,
          { st with dir := init ++ [l] ++ [⟨st.brk, size, STATUS_ALLOC⟩],
                    brk := st.brk + (H + ALIGN size),
                    log := st.log ++ [OsCall.sbrk 0 st.brk,
                      OsCall.sbrk ((H + ALIGN size : Nat) : Int) st.brk] })
      else
        some (0,
          { st with dir := init ++ [l], tail_next := st.brk,
                    log := st.log ++ [OsCall.sbrk 0 st.brk,
                      OsCall.sbrk ((H + ALIGN size : Nat) : Int) FAILED] }) := by
  have hb : st.brk < WORD := by omega
  obtain ⟨init2, l2, h1, h2, h3, h4, h5, h6⟩ := os_malloc_place_miss H st size hH hc hb hd hmiss
  obtain ⟨hi, hl⟩ := List.append_inj' (h1.symm.trans hil) rfl
  have hl2 : l2 = l := by simpa using hl
  rw [hi, hl2] at h2 h3 h4 h5 h6
  have hblk := h6.2 l (by simp)
  simp only [block_end] at hblk
  have hl0 : l.addr ≠ 0 := by omega
  unfold os_malloc_place
  rw [h2, if_neg (by simp [ht])]
  simp only [if_true, h3, h4, hnf, if_false]
  rw [request_space_append H { st with dir := init ++ [l] } size hH hs hlim hlim2 init l rfl h5 hl0]
  by_cases hfit : st.brk + (H + ALIGN size) ≤ st.lim
  · simp only [hfit, if_true]
    have hne : ∀ c ∈ init ++ [l], c.addr ≠ (⟨st.brk, size, STATUS_ALLOC⟩ : block_meta).addr := by
      intro c hc2
      have := (h6.2 c hc2).2.2
      simp only [block_end] at this
      have := hH.2.1
      simp only; omega
    have s1 := store_append (fun c => { c with status := STATUS_ALLOC }) (init ++ [l]) []
      ⟨st.brk, size, STATUS_ALLOC⟩ hne
    simp only at s1
    simp only [s1, wadd_of_lt st.brk H (by omega), ht]
  · simp only [hfit, if_false]

/-! ## `os_malloc` on a miss -/

theorem os_malloc_initialised (H : Nat) (st : Allocator) (size r : Nat) (hs0 : 0 < size)
    (hs : size < MMAP_THRESHOLD) (hd : st.dir ≠ []) :
    os_malloc H st size r = os_malloc_place H st size := by
  unfold os_malloc os_malloc_first
  rw [if_neg (by omega), if_neg (by omega), if_neg hd]

theorem find_free_block_no_fit (d : List block_meta) (last size : Nat)
    (h : ∀ b ∈ d, ¬ (b.status = STATUS_FREE ∧ ALIGN b.size ≥ ALIGN size)) :
    (find_free_block d last size).2.1 = 0 := by
  unfold find_free_block
  rw [find_free_block_loop_miss size d INT_MAX 0 last (fun a ha hc => h a ha ⟨hc.1, hc.2.1⟩)]

theorem toInt32_small (x : Nat) (h : x < 2 ^ 31) : toInt32 x = (x : Int) := by
  unfold toInt32
  have h1 : x % 2 ^ 32 = x := Nat.mod_eq_of_lt (by omega)
  rw [h1, if_pos h]

theorem sbrk_grant (st : Allocator) (n : Nat) (h : st.brk + n ≤ st.lim) :
    sbrk st (n : Int) =
      (st.brk, { st with brk := st.brk + n, log := st.log ++ [OsCall.sbrk (n : Int) st.brk] }) := by
  unfold sbrk
  have h1 : (0 : Int) ≤ (st.brk : Int) + (n : Int) ∧ (st.brk : Int) + (n : Int) ≤ (st.lim : Int) := by
    omega
  rw [if_pos h1]
  congr 2

/-! ## `os_malloc` on a hit -/

theorem forall₂_split_right {R : block_meta → block_meta → Prop} (pre : List block_meta) :
    ∀ (d : List block_meta) (b : block_meta) (post : List block_meta),
      List.Forall₂ R d (pre ++ b :: post) →
      ∃ pre0 b0 post0, d = pre0 ++ b0 :: post0 ∧ List.Forall₂ R pre0 pre ∧ R b0 b ∧
        List.Forall₂ R post0 post := by
  induction pre with
  | nil =>
    intro d b post h
    simp only [List.nil_append] at h
    obtain ⟨b0, post0, h1, h2, h3⟩ := List.forall₂_cons_right_iff.mp h
    exact ⟨[], b0, post0, by simp [h3], List.Forall₂.nil, h1, h2⟩
  | cons c pre ih =>
    intro d b post h
    simp only [List.cons_append] at h
    obtain ⟨c0, d0, h1, h2, h3⟩ := List.forall₂_cons_right_iff.mp h
    obtain ⟨pre0, b0, post0, h4, h5, h6, h7⟩ := ih d0 b post h2
    exact ⟨c0 :: pre0, b0, post0, by simp [h3, h4], List.Forall₂.cons h1 h5, h6, h7⟩

/-- C5, amended: `os_malloc(s)` with `0 < s < 128 KiB` served by a free-list hit.
The block `b` that `find_free_block` returns is a FREE node of the coalesced
Directory; its size is first rounded up to `ALIGN(b.size)`, and it is split
exactly when `ALIGN(b.size) ≥ ALIGN(s) + H + 8`.  Then its size becomes `s` and
a new FREE block of size `ALIGN(b.size) - ALIGN(s) - H` at `b + H + ALIGN(s)`
directly follows it; otherwise no block is created.  The other nodes (`pre`,
`post`) are those of the coalesced Directory, sizes possibly rounded up. -/
theorem os_malloc_hit (H : Nat) (st : Allocator) (s r : Nat) (hH : header_ok H)
    (hs0 : 0 < s) (hs : s < MMAP_THRESHOLD) (hd : st.dir ≠ [])
    (hc : chain_ok H st.brk st.dir) (hb : st.brk < WORD) (ht : st.tail_next = 0)
    (hhit : (find_free_block (os_coalesce H st.dir) (global_base st) s).2.1 ≠ 0) :
    ∃ b pre post,
      deref (os_coalesce H st.dir) b.addr = some b ∧
      b.addr = (find_free_block (os_coalesce H st.dir) (global_base st) s).2.1 ∧
      b.status = STATUS_FREE ∧ ALIGN s ≤ ALIGN b.size ∧
      List.Forall₂ ffb_rel (os_coalesce H st.dir)
        (pre ++ ⟨b.addr, ALIGN b.size, STATUS_FREE⟩ :: post) ∧
      os_malloc H st s r = some (b.addr + H,
        { st with dir :=
            if ALIGN b.size ≥ ALIGN s + H + 8 then
              pre ++ ⟨b.addr, s, STATUS_ALLOC⟩ ::
                ⟨b.addr + H + ALIGN s, ALIGN b.size - ALIGN s - H, STATUS_FREE⟩ :: post
            else pre ++ ⟨b.addr, ALIGN b.size, STATUS_ALLOC⟩ :: post }) := by
  obtain ⟨pre, blk, post, hf, ha, hfree, hal, hge, hres⟩ :=
    os_malloc_place_hit H st s hH hs hc hb ht hhit
  have hrel := find_free_block_loop_rel s (os_coalesce H st.dir) INT_MAX 0 (global_base st)
  have hf2 : (find_free_block_loop s (os_coalesce H st.dir) INT_MAX 0 (global_base st)).1
      = pre ++ blk :: post := hf
  rw [hf2] at hrel
  obtain ⟨pre0, b0, post0, hd0, _, hb0, _⟩ := forall₂_split_right pre _ blk post hrel
  have hck := os_coalesce_chain_ok H st.brk hH.1 hb _ hc
  have hck0 := hck
  rw [hd0] at hck0
  have hne := (chain_ok_addr_ne H st.brk hH.2.1 pre0 post0 b0 hck0).1
  have hsize : blk.size = ALIGN b0.size := by
    rcases hb0.2.2 with h | h
    · rw [hal, h]
    · exact h
  have hblk : blk = ⟨b0.addr, ALIGN b0.size, STATUS_FREE⟩ := by
    have h1 := hb0.1
    cases blk
    simp only at hsize hfree h1
    simp [hsize, hfree, h1]
  refine ⟨b0, pre, post, ?_, ?_, ?_, ?_, ?_, ?_⟩
  · rw [hd0]; exact deref_append pre0 post0 b0 hne
  · rw [← hb0.1]; exact ha
  · rw [← hb0.2.1]; exact hfree
  · rw [← hsize]; exact hge
  · rw [← hblk]; exact hrel
  · rw [os_malloc_initialised H st s r hs0 hs hd, hres, hsize, hb0.1]


/-- C5, counterexample: after `p = os_malloc(100)`, `os_malloc(100)`,
`os_realloc(p, 10)` the Directory holds a FREE block of `16 + H + 4 = 52` bytes
(`H = 32`) at 4144.  `os_malloc(16)` is served by this block, and although
`52 < ALIGN(16) + H + 8` the block is split: a new FREE block of 8 bytes at 4192
follows it. -/
theorem os_malloc_splits_unaligned_block :
    run 32 (fresh 4096 (2 ^ 40))
        [Call.malloc 100 0, Call.malloc 100 0, Call.realloc 4128 10 0] = some split_demo ∧
      deref split_demo.dir 4144 = some ⟨4144, 16 + 32 + 4, STATUS_FREE⟩ ∧
      ¬ (16 + 32 + 4 ≥ ALIGN 16 + 32 + 8) ∧
      (os_malloc 32 split_demo 16 0).map (fun x => (x.1, x.2.dir)) =
        some (4176, [⟨4096, 10, STATUS_ALLOC⟩, ⟨4144, 16, STATUS_ALLOC⟩,
          ⟨4192, 8, STATUS_FREE⟩, ⟨4232, 100, STATUS_ALLOC⟩, ⟨4368, 130768, STATUS_FREE⟩]) := by
  decide

/-- C5, witness: the request of 16 bytes on `split_demo`. -/
theorem os_malloc_hit_witness :
    ∃ b pre post,
      deref (os_coalesce 32 split_demo.dir) b.addr = some b ∧
      b.addr = (find_free_block (os_coalesce 32 split_demo.dir) (global_base split_demo) 16).2.1 ∧
      b.status = STATUS_FREE ∧ ALIGN 16 ≤ ALIGN b.size ∧
      List.Forall₂ ffb_rel (os_coalesce 32 split_demo.dir)
        (pre ++ ⟨b.addr, ALIGN b.size, STATUS_FREE⟩ :: post) ∧
      os_malloc 32 split_demo 16 0 = some (b.addr + 32,
        { split_demo with
          dir :=
            if ALIGN b.size ≥ ALIGN 16 + 32 + 8 then
              pre ++ ⟨b.addr, 16, STATUS_ALLOC⟩ ::
                ⟨b.addr + 32 + ALIGN 16, ALIGN b.size - ALIGN 16 - 32, STATUS_FREE⟩ :: post
            else pre ++ ⟨b.addr, ALIGN b.size, STATUS_ALLOC⟩ :: post }) :=
  os_malloc_hit 32 split_demo 16 0 (by decide) (by decide) (by decide) (by decide) (by decide)
    (by decide) (by decide) (by decide)

/-- The first example of the specification: 16 bytes from a FREE block of 200
bytes leave a new FREE block of `200 - 16 - H` bytes (`H = 32`). -/
theorem os_malloc_split_example :
    (os_malloc 32 ⟨[⟨4096, 200, STATUS_FREE⟩, ⟨4328, 8, STATUS_ALLOC⟩], 0, 4368, 2 ^ 40, [], []⟩
        16 0).map (fun x => (x.1, x.2.dir)) =
      some (4128, [⟨4096, 16, STATUS_ALLOC⟩, ⟨4144, 200 - 16 - 32, STATUS_FREE⟩,
        ⟨4328, 8, STATUS_ALLOC⟩]) := by
  decide

/-- A FREE block of `16 + H` bytes (`H = 32`) is not split by a request of 16
bytes. -/
theorem os_malloc_no_split_example :
    (os_malloc 32 ⟨[⟨4096, 16 + 32, STATUS_FREE⟩, ⟨4176, 8, STATUS_ALLOC⟩], 0, 4216, 2 ^ 40, [],
        []⟩ 16 0).map (fun x => (x.1, x.2.dir)) =
      some (4128, [⟨4096, 48, STATUS_ALLOC⟩, ⟨4176, 8, STATUS_ALLOC⟩]) := by
  decide

/-! ## `os_malloc` and a failing `sbrk` -/

/-- C10, the failing inputs (`H = 32`).  (1) On a fresh allocator whose break
cannot move by 128 KiB the first `os_malloc(100)` does not return `NULL`: the
header is written through `(void *) -1`.  (2) After `os_malloc(131000)` the
final node is FREE with 8 bytes and the break is at its limit; `os_malloc(100)`
calls `sbrk(96)`, which fails, and returns the non-null pointer 135160 to a
block of 104 bytes that ends beyond the break.  (3) Only when a node has to be
appended is the failure of `sbrk` turned into `NULL`. -/
theorem os_malloc_sbrk_failure :
    os_malloc 32 (fresh 4096 (4096 + 131071)) 100 0 = none ∧
    run 32 (fresh 4096 (4096 + 131072)) [Call.malloc 131000 0] = some full_demo ∧
    os_malloc 32 full_demo 100 0 = some (135160,
      { full_demo with
        dir := [⟨4096, 131000, STATUS_ALLOC⟩, ⟨135128, 104, STATUS_ALLOC⟩],
        log := full_demo.log ++ [OsCall.sbrk 96 FAILED] }) ∧
    (os_malloc 32 { full_demo with dir := [⟨4096, 131040, STATUS_ALLOC⟩] } 100 0).map
      (fun x => x.1) = some 0 := by
  decide

/-! ## The invariant is kept by `os_malloc` -/

theorem sbrk_log (st : Allocator) (x : Int) :
    (sbrk st x).2.log = st.log ++ [OsCall.sbrk x (sbrk st x).1] ∧
    (sbrk st x).2.dir = st.dir ∧ (sbrk st x).2.lim = st.lim ∧
    (sbrk st x).2.mapped = st.mapped ∧ (sbrk st x).2.tail_next = st.tail_next := by
  unfold sbrk
  split <;> simp

theorem sbrk_success (st : Allocator) (x : Int)
    (h : (sbrk st x).1 ≠ FAILED) :
    0 ≤ (st.brk : Int) + x ∧ (st.brk : Int) + x ≤ (st.lim : Int) ∧
      ((sbrk st x).2.brk : Int) = (st.brk : Int) + x := by
  unfold sbrk at h ⊢
  split
  · rename_i hc
    refine ⟨hc.1, hc.2, ?_⟩
    simp only
    omega
  · rename_i hc
    rw [if_neg hc] at h
    exact absurd rfl h

theorem toInt32_wsub_ge (a b : Nat) (ha : a < 2 ^ 31) (hb : b < WORD) :
    (a : Int) - (b : Int) ≤ toInt32 (wsub a b) := by
  unfold toInt32 wsub WORD at *
  split <;> omega

theorem calls_ok_single (st st1 : Allocator) (e : OsCall) (h : calls_ok st st1)
    (hl : st1.log = st.log ++ [e]) : os_ok st.lim st.mapped e := by
  obtain ⟨es, h1, h2⟩ := h
  rw [hl] at h1
  have := List.append_cancel_left h1
  exact h2 e (by rw [← this]; simp)

theorem calls_ok_pair (st st1 : Allocator) (e1 e2 : OsCall) (h : calls_ok st st1)
    (hl : st1.log = st.log ++ [e1, e2]) :
    os_ok st.lim st.mapped e1 ∧ os_ok st.lim st.mapped e2 := by
  obtain ⟨es, h1, h2⟩ := h
  rw [hl] at h1
  have := List.append_cancel_left h1
  exact ⟨h2 e1 (by rw [← this]; simp), h2 e2 (by rw [← this]; simp)⟩


theorem ALIGN_nowrap (x : Nat) (h : x ≤ ALIGN x) (hx : x < WORD) :
    ALIGN x = (x + 7) / 8 * 8 := by
  unfold ALIGN ALIGNMENT WORD at *
  omega

theorem chain_ok_replace (H e : Nat) (pre post : List block_meta) (b c : block_meta)
    (h : chain_ok H e (pre ++ b :: post)) (hl : same_layout b c) :
    chain_ok H e (pre ++ c :: post) := by
  obtain ⟨h1, h2, h3⟩ := hl
  have hend : block_end H c = block_end H b := by simp [block_end, h1, h2]
  rw [chain_ok_append, chain_ok_cons] at h ⊢
  obtain ⟨a1, ⟨a2, a3, a4⟩, a5⟩ := h
  refine ⟨a1, ⟨?_, ⟨by omega, h3, by omega⟩, a4⟩, ?_⟩
  · intro x hx; rw [hend]; exact a2 x hx
  · intro x hx y hy
    rcases List.mem_cons.mp hy with rfl | hy2
    · rw [h1]; exact a5 x hx b (List.mem_cons_self _ _)
    · exact a5 x hx y (List.mem_cons_of_mem _ hy2)

theorem chain_ok_split (H e s : Nat) (pre post : List block_meta) (b : block_meta)
    (x y : Status) (hH : H % 8 = 0) (he : e < WORD)
    (h : chain_ok H e (pre ++ b :: post)) (hfit : ALIGN b.size ≥ ALIGN s + H + 8)
    (hs : s ≤ ALIGN s) :
    chain_ok H e (pre ++ ⟨b.addr, s, x⟩ ::
      ⟨b.addr + H + ALIGN s, b.size - ALIGN s - H, y⟩ :: post) := by
  rw [chain_ok_append, chain_ok_cons] at h
  obtain ⟨a1, ⟨a2, ⟨a3, a4, a6⟩, a7⟩, a5⟩ := h
  simp only [block_end] at a6
  have hW : WORD = 2 ^ 64 := rfl
  have hb := ALIGN_nowrap b.size a4 (by omega)
  have hs2 := ALIGN_mod s
  have hb2 := ALIGN_mod b.size
  have hn1 : ALIGN (b.size - ALIGN s - H) = (b.size - ALIGN s - H + 7) / 8 * 8 :=
    ALIGN_of_lt _ (by omega)
  have hn : b.size - ALIGN s - H ≤ ALIGN (b.size - ALIGN s - H) ∧
      ALIGN (b.size - ALIGN s - H) + ALIGN s + H = ALIGN b.size := by
    omega
  rw [chain_ok_append, chain_ok_cons, chain_ok_cons]
  refine ⟨a1, ⟨?_, ⟨a3, hs, by simp only [block_end]; omega⟩, ?_,
    ⟨by simp only; omega, hn.1, ?_⟩, a7⟩, ?_⟩
  · intro z hz
    rcases List.mem_cons.mp hz with rfl | hz2
    · simp [block_end]
    · have := a2 z hz2
      simp only [block_end] at this ⊢
      omega
  · intro z hz
    have := a2 z hz
    simp only [block_end] at this ⊢
    omega
  · simp only [block_end]; omega
  · intro z hz w hw
    have hzb := a5 z hz b (List.mem_cons_self _ _)
    rcases List.mem_cons.mp hw with rfl | hw2
    · exact hzb
    · rcases List.mem_cons.mp hw2 with rfl | hw3
      · simp only; omega
      · exact a5 z hz w (List.mem_cons_of_mem _ hw3)


theorem chain_ok_lt_WORD (H e : Nat) (d : List block_meta) (h : chain_ok H e d) (he : e < WORD) :
    ∀ b ∈ d, b.addr + H + ALIGN b.size < WORD ∧ b.size < WORD := by
  intro b hb
  have := h.2 b hb
  simp only [block_end] at this
  omega

theorem os_malloc_place_inv (H : Nat) (st : Allocator) (s p : Nat) (st1 : Allocator)
    (hH : header_ok H) (hs : s < MMAP_THRESHOLD) (hinv : Inv H st) (hd : st.dir ≠ [])
    (hres : os_malloc_place H st s = some (p, st1)) :
    (∃ es, st1.log = st.log ++ es) ∧ st1.lim = st.lim ∧ st1.mapped = st.mapped ∧
      (calls_ok st st1 → Inv H st1) := by
  obtain ⟨hc, ht, hb0, hlim, hlim2, hm⟩ := hinv
  have hW : WORD = 2 ^ 64 := rfl
  have hF : FAILED = WORD - 1 := rfl
  have hbW : st.brk < WORD := by omega
  have hsz := ALIGN_le_threshold s hs
  by_cases hhit : (find_free_block (os_coalesce H st.dir) (global_base st) s).2.1 ≠ 0
  · obtain ⟨pre, blk, post, hf, _, _, hal, hge, hr⟩ :=
      os_malloc_place_hit H st s hH hs hc hbW ht hhit
    have hck := find_free_block_chain_ok H st.brk _ (global_base st) s
      (os_coalesce_chain_ok H st.brk hH.1 hbW _ hc)
    rw [hf] at hck
    rw [hr] at hres
    have hst := (Prod.mk.inj (Option.some.inj hres)).2
    subst hst
    refine ⟨⟨[], by simp⟩, rfl, rfl, fun _ => ⟨?_, ht, hb0, hlim, hlim2, hm⟩⟩
    simp only
    split
    · rename_i hsplit
      exact chain_ok_split H st.brk s pre post blk _ _ hH.1 hbW hck (by rw [← hal]; exact hsplit)
        hsz.2.1
    · exact chain_ok_replace H st.brk pre post blk _ hck
        ⟨rfl, rfl, (hck.2 blk (by simp)).2.1⟩
  · have hmiss : (find_free_block (os_coalesce H st.dir) (global_base st) s).2.1 = 0 := by
      omega
    obtain ⟨init, l, hil, _, _, _, hne, hck⟩ := os_malloc_place_miss H st s hH hc hbW hd hmiss
    have hl := hck.2 l (by simp)
    simp only [block_end] at hl
    by_cases hfree : l.status = STATUS_FREE
    · rw [os_malloc_place_grow H st s hH hc hbW hd ht hmiss init l hil hfree] at hres
      have hst := (Prod.mk.inj (Option.some.inj hres)).2
      subst hst
      obtain ⟨g1, g2, g3, g4, g5⟩ := sbrk_log st (toInt32 (wsub (ALIGN s) l.size))
      refine ⟨⟨_, g1⟩, g3, g4, fun hok => ?_⟩
      have hsucc := sbrk_success st _ (calls_ok_single st _ _ hok g1)
      have hge := toInt32_wsub_ge (ALIGN s) l.size (by unfold MMAP_THRESHOLD at hsz; omega)
        (by omega)
      refine ⟨?_, g5.trans ht, ?_, ?_, by rw [g3]; exact hlim2, by rw [g3, g4]; exact hm⟩
      · rw [chain_ok_append] at hck ⊢
        obtain ⟨c1, c2, c3⟩ := hck
        refine ⟨⟨c1.1, fun b hb => ?_⟩, ?_, ?_⟩
        · have h1 := c1.2 b hb
          have h2 := c3 b hb l (List.mem_singleton.mpr rfl)
          refine ⟨h1.1, h1.2.1, ?_⟩
          simp only
          omega
        · rw [chain_ok_cons]
          refine ⟨by simp, ⟨hl.1, ?_, ?_⟩, chain_ok_nil _ _⟩
          · simp only [ALIGN_idem]; exact le_refl _
          · simp only [block_end, ALIGN_idem]
            omega
        · intro a ha b hb
          rw [List.mem_singleton.mp hb]
          exact c3 a ha l (List.mem_singleton.mpr rfl)
      · simp only; omega
      · simp only; rw [g3]; omega
    · rw [os_malloc_place_append H st s hH hs hc hlim (by omega) hd ht hmiss init l hil hfree]
        at hres
      split at hres
      · rename_i hfit
        have hst := (Prod.mk.inj (Option.some.inj hres)).2
        subst hst
        refine ⟨⟨_, rfl⟩, rfl, rfl, fun _ => ⟨?_, ht, ?_, hfit, hlim2, hm⟩⟩
        · simp only
          rw [chain_ok_append]
          refine ⟨chain_ok_mono H _ _ _ hck (by omega), ?_, ?_⟩
          · rw [chain_ok_cons]
            refine ⟨by simp, ⟨hb0, hsz.2.1, ?_⟩, chain_ok_nil _ _⟩
            simp only [block_end]; omega
          · intro a ha b hb
            rw [List.mem_singleton.mp hb]
            exact (hck.2 a ha).2.2
        · simp only; omega
      · have hst := (Prod.mk.inj (Option.some.inj hres)).2
        subst hst
        refine ⟨⟨_, rfl⟩, rfl, rfl, fun hok => ?_⟩
        have := (calls_ok_pair st _ _ _ hok rfl).2
        exact absurd rfl this


theorem calls_ok_suffix (st st2 st1 : Allocator) (es1 es2 : List OsCall)
    (h1 : st2.log = st.log ++ es1) (hl : st2.lim = st.lim) (hm : st2.mapped = st.mapped)
    (h2 : st1.log = st2.log ++ es2) (hok : calls_ok st st1) :
    calls_ok st2 st1 ∧ ∀ e ∈ es1, os_ok st.lim st.mapped e := by
  obtain ⟨es, h3, h4⟩ := hok
  rw [h2, h1, List.append_assoc] at h3
  have h5 := List.append_cancel_left h3
  subst h5
  refine ⟨⟨es2, h2, fun e he => ?_⟩, fun e he => h4 e (List.mem_append_left _ he)⟩
  rw [hl, hm]
  exact h4 e (List.mem_append_right _ he)

theorem os_malloc_mmap_inv (H : Nat) (st : Allocator) (s r p : Nat) (st1 : Allocator)
    (hinv : Inv H st) (hres : os_malloc_mmap H st s r = some (p, st1)) :
    (∃ es, st1.log = st.log ++ es) ∧ st1.lim = st.lim ∧ (calls_ok st st1 → Inv H st1) := by
  obtain ⟨hc, ht, hb0, hlim, hlim2, hm⟩ := hinv
  unfold os_malloc_mmap at hres
  simp only at hres
  split at hres
  · split at hres
    · exact absurd hres (by simp)
    · have hst := (Prod.mk.inj (Option.some.inj hres)).2
      subst hst
      refine ⟨⟨_, rfl⟩, rfl, fun hok => ⟨hc, ht, hb0, hlim, hlim2, ?_⟩⟩
      have h1 := calls_ok_single st _ _ hok rfl
      obtain ⟨_, _, k3, k4, k5⟩ := h1
      refine ⟨List.pairwise_cons.mpr ⟨fun m hm2 => k5 m hm2, hm.1⟩, fun m hm2 => ?_⟩
      rcases List.mem_cons.mp hm2 with rfl | hm3
      · exact ⟨k3, k4⟩
      · exact hm.2 m hm3
  · have hst := (Prod.mk.inj (Option.some.inj hres)).2
    subst hst
    exact ⟨⟨_, rfl⟩, rfl, fun _ => ⟨hc, ht, hb0, hlim, hlim2, hm⟩⟩

theorem os_malloc_first_inv (H : Nat) (st : Allocator) (s : Nat) (flag : Bool)
    (st2 : Allocator) (hH : header_ok H) (hinv : Inv H st)
    (hres : os_malloc_first H st s = some (flag, st2)) :
    flag = true ∧ st2.dir ≠ [] ∧ Inv H st2 ∧ (∃ es, st2.log = st.log ++ es) ∧
      st2.lim = st.lim ∧ st2.mapped = st.mapped := by
  obtain ⟨hc, ht, hb0, hlim, hlim2, hm⟩ := hinv
  have hW : WORD = 2 ^ 64 := rfl
  have hF : FAILED = WORD - 1 := rfl
  unfold os_malloc_first at hres
  split at hres
  · rename_i hnil
    unfold request_space at hres
    rw [sbrk_zero st hlim] at hres
    simp only [ne_eq, not_true_eq_false, if_false] at hres
    by_cases hne : (sbrk { st with log := st.log ++ [OsCall.sbrk 0 st.brk] }
        ((MMAP_THRESHOLD : Nat) : Int)).1 = FAILED
    · simp [hne] at hres
    · simp only [hne, if_false] at hres
      obtain ⟨g1, g2, g3, g4, g5⟩ := sbrk_log
        { st with log := st.log ++ [OsCall.sbrk 0 st.brk] } ((MMAP_THRESHOLD : Nat) : Int)
      obtain ⟨s1, s2, s3⟩ := sbrk_success _ _ hne
      simp only at hres g1 g3 g4 g5 s1 s2 s3
      have hst := Prod.mk.inj (Option.some.inj hres)
      obtain ⟨hfl, hst2⟩ := hst
      subst hst2
      have hr1 : (sbrk { st with log := st.log ++ [OsCall.sbrk 0 st.brk] }
          ((MMAP_THRESHOLD : Nat) : Int)).1 = st.brk := by
        unfold sbrk
        rw [if_pos ⟨s1, s2⟩]
      refine ⟨hfl.symm, by simp, ⟨?_, g5.trans ht, ?_, ?_, by rw [g3]; exact hlim2,
        by rw [g3, g4]; exact hm⟩, ⟨_, by rw [g1, List.append_assoc]⟩, g3, g4⟩
      · simp only [hr1]
        rw [chain_ok_cons]
        have hH3 := hH.2.2
        have hH1 := hH.1
        have h1 : wsub MMAP_THRESHOLD H = MMAP_THRESHOLD - H :=
          wsub_of_le _ _ (by unfold MMAP_THRESHOLD; omega) (by unfold MMAP_THRESHOLD; omega)
        have h2 : ALIGN (MMAP_THRESHOLD - H) = MMAP_THRESHOLD - H := by
          rw [ALIGN_of_lt _ (by unfold MMAP_THRESHOLD; omega)]
          unfold MMAP_THRESHOLD; omega
        refine ⟨by simp, ⟨hb0, by rw [h1, h2], ?_⟩, chain_ok_nil _ _⟩
        simp only [block_end, h1, h2]
        unfold MMAP_THRESHOLD at *
        omega
      · simp only; omega
      · simp only; rw [g3]; omega
  · rename_i hnil
    have hst := Prod.mk.inj (Option.some.inj hres)
    obtain ⟨hfl, hst2⟩ := hst
    subst hst2
    exact ⟨hfl.symm, hnil, ⟨hc, ht, hb0, hlim, hlim2, hm⟩, ⟨[], by simp⟩, rfl, rfl⟩

theorem os_malloc_inv (H : Nat) (st : Allocator) (s r p : Nat) (st1 : Allocator)
    (hH : header_ok H) (hinv : Inv H st) (hres : os_malloc H st s r = some (p, st1)) :
    (∃ es, st1.log = st.log ++ es) ∧ st1.lim = st.lim ∧ (calls_ok st st1 → Inv H st1) := by
  unfold os_malloc at hres
  split at hres
  · have hst := (Prod.mk.inj (Option.some.inj hres)).2
    subst hst
    exact ⟨⟨[], by simp⟩, rfl, fun _ => hinv⟩
  · split at hres
    · exact os_malloc_mmap_inv H st s r p st1 hinv hres
    · rename_i hs
      split at hres
      · exact absurd hres (by simp)
      · rename_i st2 hfirst
        exact absurd (os_malloc_first_inv H st s false st2 hH hinv hfirst).1 (by simp)
      · rename_i st2 hfirst
        obtain ⟨_, h2, h3, ⟨es1, h4⟩, h5, h6⟩ := os_malloc_first_inv H st s true st2 hH hinv hfirst
        obtain ⟨⟨es2, k1⟩, k2, k3, k4⟩ :=
          os_malloc_place_inv H st2 s p st1 hH (by omega) h3 h2 hres
        refine ⟨⟨es1 ++ es2, by rw [k1, h4, List.append_assoc]⟩, k2.trans h5, fun hok => ?_⟩
        exact k4 (calls_ok_suffix st st2 st1 es1 es2 h4 h5 h6 k1 hok).1

/-! ## The invariant is kept by `os_free` and `os_calloc` -/

theorem os_free_inv (H : Nat) (st : Allocator) (ptr : Nat) (st1 : Allocator)
    (hinv : Inv H st) (hres : os_free H st ptr = some st1) :
    Inv H st1 ∧ st1.lim = st.lim ∧
      ∃ es, st1.log = st.log ++ es ∧ ∀ e ∈ es, ∀ lim mapped, os_ok lim mapped e := by
  obtain ⟨hc, ht, hb0, hlim, hlim2, hm⟩ := hinv
  unfold os_free at hres
  split at hres
  · have hst := Option.some.inj hres
    subst hst
    exact ⟨⟨hc, ht, hb0, hlim, hlim2, hm⟩, rfl, [], by simp, by simp⟩
  · simp only at hres
    split at hres
    · rename_i b hb
      split at hres
      · have hst := Option.some.inj hres
        subst hst
        refine ⟨⟨hc, ht, hb0, hlim, hlim2, hm⟩, rfl, _, rfl, fun e he lim mapped => ?_⟩
        rw [List.mem_singleton.mp he]
        trivial
      · have hst := Option.some.inj hres
        subst hst
        obtain ⟨hba, pre, post, hd, hne⟩ := deref_split _ _ _ hb
        refine ⟨⟨?_, ht, hb0, hlim, hlim2, hm⟩, rfl, [], by simp, by simp⟩
        simp only
        rw [hd] at hc ⊢
        rw [← hba, store_append _ pre post b hne]
        exact chain_ok_replace H st.brk pre post b _ hc
          ⟨rfl, by simp only [ALIGN_idem], by simp only [ALIGN_idem]; exact le_refl _⟩
    · split at hres
      · rename_i m hmf
        have hst := Option.some.inj hres
        subst hst
        refine ⟨⟨hc, ht, hb0, hlim, hlim2, ?_⟩, rfl, _, rfl, fun e he lim mapped => ?_⟩
        · exact ⟨hm.1.sublist (List.filter_sublist _),
            fun k hk => hm.2 k (List.mem_of_mem_filter hk)⟩
        · rw [List.mem_singleton.mp he]
          trivial
      · exact absurd hres (by simp)

theorem calls_ok_first_part (st st2 st1 : Allocator) (es1 es2 : List OsCall)
    (h1 : st2.log = st.log ++ es1) (h2 : st1.log = st2.log ++ es2) (hok : calls_ok st st1) :
    calls_ok st st2 := by
  obtain ⟨es, h3, h4⟩ := hok
  rw [h2, h1, List.append_assoc] at h3
  have h5 := List.append_cancel_left h3
  subst h5
  exact ⟨es1, h1, fun e he => h4 e (List.mem_append_left _ he)⟩

theorem inv_add_log (H : Nat) (st st2 : Allocator) (e : OsCall)
    (h : (∃ es, st2.log = st.log ++ es) ∧ st2.lim = st.lim ∧ (calls_ok st st2 → Inv H st2)) :
    (∃ es, ({ st2 with log := st2.log ++ [e] } : Allocator).log = st.log ++ es) ∧
      ({ st2 with log := st2.log ++ [e] } : Allocator).lim = st.lim ∧
      (calls_ok st { st2 with log := st2.log ++ [e] } →
        Inv H { st2 with log := st2.log ++ [e] }) := by
  obtain ⟨⟨es, h1⟩, h2, h3⟩ := h
  refine ⟨⟨es ++ [e], by simp only [h1, List.append_assoc]⟩, h2, fun hok => ?_⟩
  exact h3 (calls_ok_first_part st st2 { st2 with log := st2.log ++ [e] } es [e] h1 rfl hok)

theorem os_calloc_inv (H : Nat) (st : Allocator) (nmemb s r p : Nat) (st1 : Allocator)
    (hH : header_ok H) (hinv : Inv H st) (hres : os_calloc H st nmemb s r = some (p, st1)) :
    (∃ es, st1.log = st.log ++ es) ∧ st1.lim = st.lim ∧ (calls_ok st st1 → Inv H st1) := by
  unfold os_calloc at hres
  split at hres
  · have hst := (Prod.mk.inj (Option.some.inj hres)).2
    subst hst
    exact ⟨⟨[], by simp⟩, rfl, fun _ => hinv⟩
  · simp only at hres
    split at hres
    · exact absurd hres (by simp)
    · rename_i ptr st2 hcall
      split at hres
      · exact absurd hres (by simp)
      · have hst := (Prod.mk.inj (Option.some.inj hres)).2
        subst hst
        apply inv_add_log
        split at hcall
        · exact os_malloc_mmap_inv H st _ r ptr _ hinv hcall
        · exact os_malloc_inv H st _ r ptr _ hH hinv hcall

/-! ## The invariant is kept by `os_realloc` -/

theorem os_free_log (H : Nat) (st : Allocator) (ptr : Nat) (st1 : Allocator)
    (hres : os_free H st ptr = some st1) :
    st1.lim = st.lim ∧
      ∃ es, st1.log = st.log ++ es ∧ ∀ e ∈ es, ∀ lim mapped, os_ok lim mapped e := by
  unfold os_free at hres
  split at hres
  · have hst := Option.some.inj hres
    subst hst
    exact ⟨rfl, [], by simp, by simp⟩
  · simp only at hres
    split at hres
    · split at hres
      · have hst := Option.some.inj hres
        subst hst
        refine ⟨rfl, _, rfl, fun e he lim mapped => ?_⟩
        rw [List.mem_singleton.mp he]
        trivial
      · have hst := Option.some.inj hres
        subst hst
        exact ⟨rfl, [], by simp, by simp⟩
    · split at hres
      · have hst := Option.some.inj hres
        subst hst
        refine ⟨rfl, _, rfl, fun e he lim mapped => ?_⟩
        rw [List.mem_singleton.mp he]
        trivial
      · exact absurd hres (by simp)

theorem os_realloc_move_inv (H : Nat) (st : Allocator) (ptr s n r p : Nat) (st1 : Allocator)
    (hH : header_ok H) (hinv : Inv H st)
    (hres : os_realloc_move H st ptr s n r = some (p, st1)) :
    (∃ es, st1.log = st.log ++ es) ∧ st1.lim = st.lim ∧ (calls_ok st st1 → Inv H st1) := by
  unfold os_realloc_move at hres
  split at hres
  · exact absurd hres (by simp)
  · rename_i nb st2 hmal
    split at hres
    · exact absurd hres (by simp)
    · split at hres
      · exact absurd hres (by simp)
      · rename_i st3 hfree
        have hst := (Prod.mk.inj (Option.some.inj hres)).2
        subst hst
        obtain ⟨⟨es1, k1⟩, k2, k3⟩ := inv_add_log H st st2 (OsCall.memcpy nb ptr n)
          (os_malloc_inv H st s r nb st2 hH hinv hmal)
        obtain ⟨f1, es2, f2, _⟩ := os_free_log H _ ptr st3 hfree
        refine ⟨⟨es1 ++ es2, by rw [f2, k1, List.append_assoc]⟩, f1.trans k2, fun hok => ?_⟩
        exact (os_free_inv H _ ptr st3 (k3 (calls_ok_first_part st _ st3 es1 es2 k1 f2 hok))
          hfree).1

theorem chain_ok_merge (H e : Nat) (hH : H % 8 = 0) (he : e < WORD) (cur n : block_meta)
    (r : List block_meta) (h : chain_ok H e (cur :: n :: r)) :
    wadd cur.size (wadd n.size H) = cur.size + n.size + H ∧
      chain_ok H e ({ cur with size := cur.size + n.size + H } :: r) := by
  rw [chain_ok_cons, chain_ok_cons] at h
  obtain ⟨h1, ⟨h2, h3, h4⟩, h5, ⟨h6, h7, h8⟩, h9⟩ := h
  have h10 := h1 n (List.mem_cons_self _ _)
  simp only [block_end] at *
  obtain ⟨a1, a2, a3⟩ := ALIGN_add_le cur.size n.size H hH (by omega) h3 h7
  refine ⟨a1, ?_⟩
  rw [chain_ok_cons]
  simp only [block_end]
  refine ⟨fun b hb => ?_, ⟨h2, a2, by omega⟩, h9⟩
  have := h5 b hb
  omega

theorem os_coalesce_realloc_loop_chain_ok (H e size : Nat) (hH : H % 8 = 0) (he : e < WORD)
    (rest : List block_meta) :
    ∀ cur : block_meta, chain_ok H e (cur :: rest) →
      chain_ok H e ({ cur with size := (os_coalesce_realloc_loop H size cur.size rest).1 } ::
        (os_coalesce_realloc_loop H size cur.size rest).2.1) := by
  induction rest with
  | nil => intro cur h; exact h
  | cons n r ih =>
    intro cur h
    obtain ⟨m1, m2⟩ := chain_ok_merge H e hH he cur n r h
    simp only [os_coalesce_realloc_loop, m1]
    split
    · split
      · exact m2
      · exact ih { cur with size := cur.size + n.size + H } m2
    · exact h


theorem os_coalesce_realloc_loop_subset (H size : Nat) (rest : List block_meta) :
    ∀ bsize, ∀ y ∈ (os_coalesce_realloc_loop H size bsize rest).2.1, y ∈ rest := by
  induction rest with
  | nil => intro bsize y hy; exact hy
  | cons n r ih =>
    intro bsize y hy
    simp only [os_coalesce_realloc_loop] at hy
    split at hy
    · split at hy
      · exact List.mem_cons_of_mem _ hy
      · exact List.mem_cons_of_mem _ (ih _ y hy)
    · exact hy

theorem os_coalesce_realloc_walk_eq (H block size : Nat) (d : List block_meta)
    (w : List block_meta × Nat × Bool × Bool)
    (hw : os_coalesce_realloc_walk H block size d = some w) :
    ∃ pre b post, d = pre ++ b :: post ∧ b.addr = block ∧ (∀ c ∈ pre, c.addr ≠ block) ∧
      w = (pre ++ { b with size := (os_coalesce_realloc_loop H size (ALIGN b.size) post).1 } ::
            (os_coalesce_realloc_loop H size (ALIGN b.size) post).2.1,
          (os_coalesce_realloc_loop H size (ALIGN b.size) post).1,
          (os_coalesce_realloc_loop H size (ALIGN b.size) post).2.2,
          decide ((os_coalesce_realloc_loop H size (ALIGN b.size) post).2.1 = [])) := by
  induction d generalizing w with
  | nil => simp [os_coalesce_realloc_walk] at hw
  | cons c rest ih =>
    simp only [os_coalesce_realloc_walk] at hw
    split at hw
    · rename_i hc
      exact ⟨[], c, rest, rfl, hc, by simp, (Option.some.inj hw).symm⟩
    · rename_i hc
      cases hrec : os_coalesce_realloc_walk H block size rest with
      | none => simp [hrec] at hw
      | some w2 =>
        rw [hrec] at hw
        obtain ⟨pre, b, post, h1, h2, h3, h4⟩ := ih w2 hrec
        refine ⟨c :: pre, b, post, by simp [h1], h2, ?_, ?_⟩
        · intro x hx
          rcases List.mem_cons.mp hx with rfl | hx2
          · exact hc
          · exact h3 x hx2
        · have := (Option.some.inj hw).symm
          simp only [Option.map_some'] at this
          rw [this, h4]
          simp

theorem chain_ok_walk (H e size : Nat) (hH : H % 8 = 0) (he : e < WORD)
    (pre post : List block_meta) (b : block_meta) (h : chain_ok H e (pre ++ b :: post)) :
    chain_ok H e
      (pre ++ { b with size := (os_coalesce_realloc_loop H size (ALIGN b.size) post).1 } ::
        (os_coalesce_realloc_loop H size (ALIGN b.size) post).2.1) := by
  have h1 := chain_ok_replace H e pre post b { b with size := ALIGN b.size } h
    ⟨rfl, by simp only [ALIGN_idem], by simp only [ALIGN_idem]; exact le_refl _⟩
  rw [chain_ok_append] at h1 ⊢
  obtain ⟨a1, a2, a3⟩ := h1
  have h2 := os_coalesce_realloc_loop_chain_ok H e size hH he post { b with size := ALIGN b.size } a2
  refine ⟨a1, h2, fun x hx y hy => ?_⟩
  rcases List.mem_cons.mp hy with rfl | hy2
  · exact a3 x hx { b with size := ALIGN b.size } (List.mem_cons_self _ _)
  · exact a3 x hx y (List.mem_cons_of_mem _
      (os_coalesce_realloc_loop_subset H size post _ y hy2))


theorem os_coalesce_realloc_inv (H : Nat) (st : Allocator) (block s r p : Nat)
    (st1 : Allocator) (hH : header_ok H) (hs : s < MMAP_THRESHOLD) (hinv : Inv H st)
    (hres : os_coalesce_realloc H st block s r = some (p, st1)) :
    (∃ es, st1.log = st.log ++ es) ∧ st1.lim = st.lim ∧ (calls_ok st st1 → Inv H st1) := by
  obtain ⟨hc, ht, hb0, hlim, hlim2, hm⟩ := hinv
  have hW : WORD = 2 ^ 64 := rfl
  have hF : FAILED = WORD - 1 := rfl
  have hsz := ALIGN_le_threshold s hs
  unfold os_coalesce_realloc at hres
  split at hres
  · exact absurd hres (by simp)
  · rename_i d bsize returned atEnd hw
    obtain ⟨pre, b, post, h1, h2, h3, h4⟩ := os_coalesce_realloc_walk_eq H block s st.dir _ hw
    rw [h1] at hc
    have hck := chain_ok_walk H st.brk s hH.1 (by omega) pre post b hc
    simp only [Prod.mk.injEq] at h4
    obtain ⟨e1, e2, e3, e4⟩ := h4
    subst e2 e3 e4
    generalize os_coalesce_realloc_loop H s (ALIGN b.size) post = L at *
    obtain ⟨bsize, rest, ret⟩ := L
    simp only at hck e1 hres
    rw [← e1] at hck
    split at hres
    · have hst := (Prod.mk.inj (Option.some.inj hres)).2
      subst hst
      exact ⟨⟨[], by simp⟩, rfl, fun _ => ⟨hck, ht, hb0, hlim, hlim2, hm⟩⟩
    · split at hres
      · rename_i hend
        rw [if_neg (by simp [ht])] at hres
        have hst := (Prod.mk.inj (Option.some.inj hres)).2
        subst hst
        obtain ⟨g1, g2, g3, g4, g5⟩ := sbrk_log st (toInt32 (wsub (ALIGN s) bsize))
        refine ⟨⟨_, g1⟩, g3, fun hok => ?_⟩
        have hsucc := sbrk_success st _ (calls_ok_single st _ _ hok g1)
        have hnil : rest = [] := of_decide_eq_true hend
        subst hnil
        rw [e1] at hck
        have hb := hck.2 _ (List.mem_append_right _ (List.mem_singleton.mpr rfl))
        simp only [block_end] at hb
        have hge := toInt32_wsub_ge (ALIGN s) bsize (by unfold MMAP_THRESHOLD at hsz; omega)
          (by omega)
        refine ⟨?_, g5.trans ht, ?_, ?_, by rw [g3]; exact hlim2, by rw [g3, g4]; exact hm⟩
        · simp only
          rw [e1, ← h2]
          have hst2 := store_append (fun c => { c with size := ALIGN s, status := STATUS_ALLOC })
            pre [] ({ b with size := bsize }) (by rw [h2]; exact h3)
          simp only at hst2
          rw [hst2]
          rw [chain_ok_append] at hck ⊢
          obtain ⟨c1, c2, c3⟩ := hck
          refine ⟨⟨c1.1, fun x hx => ?_⟩, ?_, ?_⟩
          · have k1 := c1.2 x hx
            have k2 := c3 x hx _ (List.mem_singleton.mpr rfl)
            refine ⟨k1.1, k1.2.1, ?_⟩
            simp only at k2
            omega
          · rw [chain_ok_cons]
            refine ⟨by simp, ⟨hb.1, ?_, ?_⟩, chain_ok_nil _ _⟩
            · simp only [ALIGN_idem]; exact le_refl _
            · simp only [block_end, ALIGN_idem]
              omega
          · intro a ha x hx
            rw [List.mem_singleton.mp hx]
            exact c3 a ha { b with size := bsize } (List.mem_singleton.mpr rfl)
        · simp only; omega
        · simp only; rw [g3]; omega
      · exact os_realloc_move_inv H { st with dir := d } _ s bsize r p st1 hH
          ⟨hck, ht, hb0, hlim, hlim2, hm⟩ hres

theorem os_realloc_inv (H : Nat) (st : Allocator) (ptr s r p : Nat) (st1 : Allocator)
    (hH : header_ok H) (hinv : Inv H st) (hres : os_realloc H st ptr s r = some (p, st1)) :
    (∃ es, st1.log = st.log ++ es) ∧ st1.lim = st.lim ∧ (calls_ok st st1 → Inv H st1) := by
  have hinv2 := hinv
  obtain ⟨hc, ht, hb0, hlim, hlim2, hm⟩ := hinv
  have hW : WORD = 2 ^ 64 := rfl
  have hF : FAILED = WORD - 1 := rfl
  have hfreecase : ∀ q, (os_free H st ptr).map (fun x => ((0 : Nat), x)) = some (q, st1) →
      (∃ es, st1.log = st.log ++ es) ∧ st1.lim = st.lim ∧ (calls_ok st st1 → Inv H st1) := by
    intro q hq
    cases hf : os_free H st ptr with
    | none => simp [hf] at hq
    | some st2 =>
      rw [hf] at hq
      have hst := (Prod.mk.inj (Option.some.inj hq)).2
      subst hst
      obtain ⟨k1, k2, es, k3, _⟩ := os_free_inv H st ptr _ hinv2 hf
      exact ⟨⟨es, k3⟩, k2, fun _ => k1⟩
  unfold os_realloc at hres
  simp only at hres
  split at hres
  · exact os_malloc_inv H st s r p st1 hH hinv2 hres
  · split at hres
    · rename_i b hb
      split at hres
      · have hst := (Prod.mk.inj (Option.some.inj hres)).2
        subst hst
        exact ⟨⟨[], by simp⟩, rfl, fun _ => hinv2⟩
      · split at hres
        · exact hfreecase p hres
        · split at hres
          · exact os_realloc_move_inv H st ptr s _ r p st1 hH hinv2 hres
          · rename_i hsmall
            have hs : s < MMAP_THRESHOLD := by
              simp only [not_or, not_le, ge_iff_le] at hsmall
              exact hsmall.2
            split at hres
            · rename_i hge
              have hst := (Prod.mk.inj (Option.some.inj hres)).2
              subst hst
              refine ⟨⟨[], by simp⟩, rfl, fun _ => ⟨?_, ht, hb0, hlim, hlim2, hm⟩⟩
              simp only
              split
              · rename_i hsplit
                obtain ⟨hba, pre, post, hd, hne⟩ := deref_split _ _ _ hb
                have hsz := ALIGN_le_threshold s hs
                have hw : wadd (wadd 8 H) (ALIGN s) = ALIGN s + H + 8 := by
                  have := hH.2.2
                  unfold MMAP_THRESHOLD at hsz
                  rw [wadd_of_lt 8 H (by omega), wadd_of_lt _ _ (by omega)]; omega
                rw [hw] at hsplit
                rw [hd] at hc ⊢
                have hbb := hc.2 b (by simp)
                simp only [block_end] at hbb
                have hnw := ALIGN_nowrap b.size hbb.2.1 (by omega)
                rw [← hba, os_split_eq H s pre post b hne (by omega) (by omega)]
                exact chain_ok_split H st.brk s pre post b _ _ hH.1 (by omega) hc hsplit hsz.2.1
              · exact hc
            · exact os_coalesce_realloc_inv H st _ s r p st1 hH hs hinv2 hres
    · split at hres
      · split at hres
        · exact hfreecase p hres
        · exact os_realloc_move_inv H st ptr s _ r p st1 hH hinv2 hres
      · exact absurd hres (by simp)

/-! ## Reachable states -/

theorem call_inv (H : Nat) (st : Allocator) (c : Call) (p : Nat) (st1 : Allocator)
    (hH : header_ok H) (hinv : Inv H st) (hres : call H st c = some (p, st1))
    (hok : calls_ok st st1) : Inv H st1 ∧ st1.lim = st.lim := by
  cases c with
  | malloc s r =>
    obtain ⟨_, h2, h3⟩ := os_malloc_inv H st s r p st1 hH hinv hres
    exact ⟨h3 hok, h2⟩
  | calloc n s r =>
    obtain ⟨_, h2, h3⟩ := os_calloc_inv H st n s r p st1 hH hinv hres
    exact ⟨h3 hok, h2⟩
  | realloc q s r =>
    obtain ⟨_, h2, h3⟩ := os_realloc_inv H st q s r p st1 hH hinv hres
    exact ⟨h3 hok, h2⟩
  | free q =>
    simp only [call] at hres
    cases hf : os_free H st q with
    | none => simp [hf] at hres
    | some st2 =>
      rw [hf] at hres
      have hst := (Prod.mk.inj (Option.some.inj hres)).2
      subst hst
      obtain ⟨k1, k2, _⟩ := os_free_inv H st q _ hinv hf
      exact ⟨k1, k2⟩

theorem reachable_inv (H brk lim : Nat) (st : Allocator) (hH : header_ok H) (hb : 0 < brk)
    (hl : brk ≤ lim) (hl2 : lim < FAILED) (h : Reachable H brk lim st) :
    Inv H st ∧ st.lim = lim := by
  induction h with
  | init =>
    exact ⟨⟨chain_ok_nil _ _, rfl, hb, hl, hl2, List.Pairwise.nil, by simp [fresh]⟩, rfl⟩
  | step st0 c p st1 _ hcall hok ih =>
    obtain ⟨k1, k2⟩ := call_inv H st0 c p st1 hH ih.1 hcall hok
    exact ⟨k1, k2.trans ih.2⟩


theorem first_demo_reachable : Reachable 32 4096 (2 ^ 31) first_demo :=
  Reachable.step (fresh 4096 (2 ^ 31)) (Call.malloc 20 0) 4128 first_demo Reachable.init
    (by decide) ⟨[OsCall.sbrk 0 4096, OsCall.sbrk 131072 4096], by decide, by decide⟩

theorem mixed_demo_reachable : Reachable 32 4096 (2 ^ 31) mixed_demo :=
  Reachable.step first_demo (Call.malloc 135136 4294967296) 4294967328 mixed_demo
    first_demo_reachable (by decide) ⟨[OsCall.mmap 135168 4294967296], by decide, by decide⟩

theorem mapped_demo_reachable : Reachable 32 4096 (2 ^ 31) mapped_demo :=
  Reachable.step
    ⟨[], 0, 4096, 2 ^ 31, [⟨4294967296, 135168⟩], [OsCall.mmap 135168 4294967296]⟩
    (Call.malloc 135136 4295102464) 4295102496 mapped_demo
    (Reachable.step (fresh 4096 (2 ^ 31)) (Call.malloc 135136 4294967296) 4294967328 _
      Reachable.init (by decide) ⟨[OsCall.mmap 135168 4294967296], by decide, by decide⟩)
    (by decide) ⟨[OsCall.mmap 135168 4295102464], by decide, by decide⟩

/-- C4, counterexample: after `os_malloc(20)` on a fresh allocator (`H = 32`) the
head of the Directory is at 4096 with recorded size 20 and its successor is at
4152, not at `4096 + 32 + 20`. -/
theorem directory_not_contiguous :
    Reachable 32 4096 (2 ^ 31) first_demo ∧
      ¬ List.Chain' (fun a b => b.addr = a.addr + 32 + a.size) first_demo.dir := by
  refine ⟨first_demo_reachable, fun h => ?_⟩
  have h2 : List.Chain' (fun a b : block_meta => b.addr = a.addr + 32 + a.size)
      [⟨4096, 20, STATUS_ALLOC⟩, ⟨4152, 130984, STATUS_FREE⟩] := h
  exact absurd (List.chain'_cons.mp h2).1 (by decide)

/-- C4, amended: in every reachable state the Directory is in address order and
its blocks do not overlap: for every two adjacent nodes `A -> B`,
`address(B) ≥ address(A) + H + ALIGN(A.size)`, and `ALIGN(A.size) ≥ A.size`. -/
theorem reachable_address_ordered (H brk lim : Nat) (st : Allocator) (hH : header_ok H)
    (hb : 0 < brk) (hl : brk ≤ lim) (hl2 : lim < FAILED) (h : Reachable H brk lim st) :
    List.Chain' (fun a b => a.addr + H + ALIGN a.size ≤ b.addr ∧ a.size ≤ ALIGN a.size)
      st.dir := by
  obtain ⟨⟨⟨h1, h2⟩, _⟩, _⟩ := reachable_inv H brk lim st hH hb hl hl2 h
  apply List.Pairwise.chain'
  refine (List.Pairwise.and_mem.mp h1).imp ?_
  intro a b hab
  exact ⟨hab.2.2, (h2 a hab.1).2.1⟩

/-- C4, witness: the state after `os_malloc(20)`. -/
theorem reachable_address_ordered_witness :
    List.Chain' (fun a b => a.addr + 32 + ALIGN a.size ≤ b.addr ∧ a.size ≤ ALIGN a.size)
      first_demo.dir :=
  reachable_address_ordered 32 4096 (2 ^ 31) first_demo (by decide) (by decide) (by decide)
    (by decide) first_demo_reachable

/-- C3, counterexample: two calls `os_malloc(135136)` (`H = 32`) map 135168 bytes
each, and the kernel may place the second mapping directly after the first.
The recorded size of a MAPPED block is the length of the whole mapping, so
the range `[header, header + H + size)` of the first block runs 32 bytes into
the second. -/
theorem mapped_ranges_overlap :
    Reachable 32 4096 (2 ^ 31) mapped_demo ∧
      ∃ a ∈ mapped_demo.mapped, ∃ b ∈ mapped_demo.mapped, a ≠ b ∧
        ¬ disjoint_ranges (a.addr, a.addr + 32 + a.size) (b.addr, b.addr + 32 + b.size) :=
  ⟨mapped_demo_reachable, ⟨4294967296, 135168⟩, by decide, ⟨4295102464, 135168⟩, by decide,
    by decide, by unfold disjoint_ranges; decide⟩

/-- C3, amended: in every reachable state the address ranges of the live blocks
are pairwise disjoint, where the range of an ALLOCATED block is
`[header, header + H + size)` and the range of a MAPPED block is its mapping
`[header, header + size)`. -/
theorem reachable_live_disjoint (H brk lim : Nat) (st : Allocator) (hH : header_ok H)
    (hb : 0 < brk) (hl : brk ≤ lim) (hl2 : lim < FAILED) (h : Reachable H brk lim st) :
    (live_ranges H st).Pairwise disjoint_ranges := by
  obtain ⟨⟨⟨h1, h2⟩, _, _, h3, _, h4, h5⟩, _⟩ := reachable_inv H brk lim st hH hb hl hl2 h
  unfold live_ranges
  rw [List.pairwise_append]
  refine ⟨?_, ?_, ?_⟩
  · rw [List.pairwise_map]
    refine ((List.Pairwise.and_mem.mp h1).imp ?_).sublist (List.filter_sublist _)
    intro a b hab
    have := (h2 a hab.1).2.1
    have := hab.2.2
    simp only [block_end, disjoint_ranges] at *
    omega
  · rw [List.pairwise_map]
    exact h4.imp (fun hab => hab)
  · intro x hx y hy
    obtain ⟨a, ha, rfl⟩ := List.mem_map.mp hx
    obtain ⟨m, hm, rfl⟩ := List.mem_map.mp hy
    have k1 := h2 a (List.mem_of_mem_filter ha)
    have k2 := h5 m hm
    simp only [block_end, disjoint_ranges] at *
    omega

/-- C3, witness: the state after `os_malloc(20)` and `os_malloc(135136)`. -/
theorem reachable_live_disjoint_witness :
    (live_ranges 32 mixed_demo).Pairwise disjoint_ranges :=
  reachable_live_disjoint 32 4096 (2 ^ 31) mixed_demo (by decide) (by decide) (by decide)
    (by decide) mixed_demo_reachable

/-! ## The block returned by `os_malloc` -/

theorem os_malloc_place_block (H : Nat) (st : Allocator) (s p : Nat) (st1 : Allocator)
    (hH : header_ok H) (hs : s < MMAP_THRESHOLD) (hinv : Inv H st) (hd : st.dir ≠ [])
    (hres : os_malloc_place H st s = some (p, st1)) (hp : p ≠ 0) :
    ∃ pre blk post, st1.dir = pre ++ blk :: post ∧ (∀ c ∈ pre, c.addr ≠ blk.addr) ∧
      p = blk.addr + H ∧ blk.status = STATUS_ALLOC ∧ s ≤ blk.size ∧
      (blk.size = s ∨ blk.size = ALIGN s ∨ (blk.size % 8 = 0 ∧ blk.size < ALIGN s + H + 8)) := by
  obtain ⟨hc, ht, hb0, hlim, hlim2, hm⟩ := hinv
  have hW : WORD = 2 ^ 64 := rfl
  have hF : FAILED = WORD - 1 := rfl
  have hbW : st.brk < WORD := by omega
  have hsz := ALIGN_le_threshold s hs
  by_cases hhit : (find_free_block (os_coalesce H st.dir) (global_base st) s).2.1 ≠ 0
  · obtain ⟨pre, blk, post, hf, _, _, hal, hge, hr⟩ :=
      os_malloc_place_hit H st s hH hs hc hbW ht hhit
    have hck := find_free_block_chain_ok H st.brk _ (global_base st) s
      (os_coalesce_chain_ok H st.brk hH.1 hbW _ hc)
    rw [hf] at hck
    have hne := (chain_ok_addr_ne H st.brk hH.2.1 pre post blk hck).1
    rw [hr] at hres
    obtain ⟨hp1, hst⟩ := Prod.mk.inj (Option.some.inj hres)
    subst hst
    simp only
    split
    · exact ⟨pre, _, _, rfl, hne, hp1.symm, rfl, le_refl _, Or.inl rfl⟩
    · rename_i hsplit
      refine ⟨pre, _, _, rfl, hne, hp1.symm, rfl, by simp only; omega, Or.inr (Or.inr ?_)⟩
      have := ALIGN_mod blk.size
      simp only
      omega
  · have hmiss : (find_free_block (os_coalesce H st.dir) (global_base st) s).2.1 = 0 := by
      omega
    obtain ⟨init, l, hil, _, _, _, hne, hck⟩ := os_malloc_place_miss H st s hH hc hbW hd hmiss
    by_cases hfree : l.status = STATUS_FREE
    · rw [os_malloc_place_grow H st s hH hc hbW hd ht hmiss init l hil hfree] at hres
      obtain ⟨hp1, hst⟩ := Prod.mk.inj (Option.some.inj hres)
      subst hst
      exact ⟨init, _, [], rfl, hne, hp1.symm, rfl, hsz.2.1, Or.inr (Or.inl rfl)⟩
    · rw [os_malloc_place_append H st s hH hs hc hlim (by omega) hd ht hmiss init l hil hfree]
        at hres
      split at hres
      · obtain ⟨hp1, hst⟩ := Prod.mk.inj (Option.some.inj hres)
        subst hst
        refine ⟨init ++ [l], _, [], rfl, ?_, hp1.symm, rfl, le_refl _, Or.inl rfl⟩
        intro c hc2
        have := (hck.2 c hc2).2.2
        have := hH.2.1
        simp only [block_end] at *
        omega
      · exact absurd (Prod.mk.inj (Option.some.inj hres)).1.symm hp

theorem deref_none_of_lt (d : List block_meta) (p : Nat) (h : ∀ b ∈ d, b.addr < p) :
    deref d p = none := by
  unfold deref
  rw [List.find?_eq_none]
  intro b hb
  have := h b hb
  simp only [decide_eq_true_eq]
  omega


/-- C2, counterexample: the first `os_malloc(20)` on a fresh allocator (`H = 32`)
returns 4128, and the size recorded in the header at 4096 is 20, while the
smallest multiple of 8 that is at least 20 is `ALIGN(20) = 24`. -/
theorem os_malloc_size_not_aligned :
    os_malloc 32 (fresh 4096 (2 ^ 31)) 20 0 = some (4128, first_demo) ∧
      recorded_size first_demo (4128 - 32) = some 20 ∧ ALIGN 20 = 24 := by
  decide

/-! ## `find_free_block`: best fit below `INT_MAX` -/

theorem find_free_block_loop_best (size : Nat) (l : List block_meta) :
    ∀ m r last,
      ((∀ c ∈ l, ¬ (fits size c ∧ ALIGN c.size < m)) ∧
        (find_free_block_loop size l m r last).2.1 = r) ∨
      ∃ pre b post, l = pre ++ b :: post ∧
        (find_free_block_loop size l m r last).2.1 = b.addr ∧ fits size b ∧ ALIGN b.size < m ∧
        (∀ c ∈ l, fits size c → ALIGN b.size ≤ ALIGN c.size) ∧
        (∀ c ∈ pre, fits size c → ALIGN b.size < ALIGN c.size) := by
  induction l with
  | nil => intro m r last; exact Or.inl ⟨by simp, rfl⟩
  | cons c rest ih =>
    intro m r last
    simp only [find_free_block_loop]
    split
    · rename_i hc
      have hfc : fits size c := ⟨hc.1, hc.2.1⟩
      rcases ih (ALIGN c.size) c.addr last with ⟨h1, h2⟩ | ⟨pre, b, post, h1, h2, h3, h4, h5, h6⟩
      · right
        refine ⟨[], c, rest, rfl, h2, hfc, hc.2.2, ?_, by simp⟩
        intro x hx hfx
        rcases List.mem_cons.mp hx with rfl | hx2
        · exact le_refl _
        · have := h1 x hx2
          simp only [not_and, not_lt] at this
          exact this hfx
      · right
        refine ⟨c :: pre, b, post, by simp [h1], h2, h3, by omega, ?_, ?_⟩
        · intro x hx hfx
          rcases List.mem_cons.mp hx with rfl | hx2
          · omega
          · exact h5 x hx2 hfx
        · intro x hx hfx
          rcases List.mem_cons.mp hx with rfl | hx2
          · exact h4
          · exact h6 x hx2 hfx
    · rename_i hc
      have hc2 : fits size c → m ≤ ALIGN c.size := by
        intro hf
        by_contra hlt
        exact hc ⟨hf.1, hf.2, by omega⟩
      rcases ih m r c.addr with ⟨h1, h2⟩ | ⟨pre, b, post, h1, h2, h3, h4, h5, h6⟩
      · left
        refine ⟨?_, h2⟩
        intro x hx
        rcases List.mem_cons.mp hx with rfl | hx2
        · intro hx3
          have := hc2 hx3.1
          omega
        · exact h1 x hx2
      · right
        refine ⟨c :: pre, b, post, by simp [h1], h2, h3, h4, ?_, ?_⟩
        · intro x hx hfx
          rcases List.mem_cons.mp hx with rfl | hx2
          · have := hc2 hfx; omega
          · exact h5 x hx2 hfx
        · intro x hx hfx
          rcases List.mem_cons.mp hx with rfl | hx2
          · have := hc2 hfx; omega
          · exact h6 x hx2 hfx

/-- Best fit below the sentinel: when some fitting FREE block has a rounded size
below `INT_MAX`, `find_free_block` returns the fitting block of smallest
rounded size, and among those of that size the first in chain order. -/
theorem find_free_block_best_fit (d : List block_meta) (last size : Nat)
    (hcand : ∃ c ∈ d, fits size c ∧ ALIGN c.size < INT_MAX) :
    ∃ pre b post, d = pre ++ b :: post ∧
      (find_free_block d last size).2.1 = b.addr ∧ fits size b ∧
      (∀ c ∈ d, fits size c → ALIGN b.size ≤ ALIGN c.size) ∧
      (∀ c ∈ pre, fits size c → ALIGN b.size < ALIGN c.size) := by
  rcases find_free_block_loop_best size d INT_MAX 0 last with
    ⟨h1, _⟩ | ⟨pre, b, post, h1, h2, h3, _, h5, h6⟩
  · obtain ⟨c, hc, hf⟩ := hcand
    exact absurd hf (h1 c hc)
  · exact ⟨pre, b, post, h1, h2, h3, h5, h6⟩

/-! ## Invalid requests -/

/-- C11: in every state and for every `n`, `os_malloc(0)`, `os_calloc(0, n)` and
`os_calloc(n, 0)` return `NULL` and leave the whole state unchanged: the
Directory (an uninitialised head included), the break, the mappings and the
log, so that no operating-system primitive is called. -/
theorem invalid_requests_return_null (H : Nat) (st : Allocator) (n r : Nat) :
    os_malloc H st 0 r = some (0, st) ∧ os_calloc H st 0 n r = some (0, st) ∧
      os_calloc H st n 0 r = some (0, st) := by
  refine ⟨?_, ?_, ?_⟩
  · simp [os_malloc]
  · simp [os_calloc]
  · simp [os_calloc]

/-! ## `find_free_block`: the pointer `last` -/

theorem last_addr_getLast (d : List block_meta) (hd : d ≠ []) :
    ∀ dflt, last_addr dflt d = (d.getLast hd).addr := by
  induction d with
  | nil => exact absurd rfl hd
  | cons c rest ih =>
    intro dflt
    cases rest with
    | nil => rfl
    | cons c2 rest2 =>
      simp only [last_addr, List.getLast_cons_cons]
      exact ih (by simp) c.addr

/-- C19: for a non-empty Directory (no node of which is at `NULL`) and every
request size, when `find_free_block` returns `NULL` the pointer `*last` is the
address of the final node of the chain, and the chain is left as it was. -/
theorem find_free_block_null_last (d : List block_meta) (last s : Nat) (hd : d ≠ [])
    (hpos : ∀ a ∈ d, 0 < a.addr) (hnull : (find_free_block d last s).2.1 = 0) :
    (find_free_block d last s).2.2 = (d.getLast hd).addr ∧ (find_free_block d last s).1 = d := by
  unfold find_free_block at hnull ⊢
  rw [find_free_block_loop_zero s d INT_MAX 0 last hpos hnull]
  exact ⟨last_addr_getLast d hd last, rfl⟩

/-- C19, witness: an ALLOCATED block followed by a FREE block of 8 bytes, and a
request of 100 bytes. -/
theorem find_free_block_null_last_witness :
    (find_free_block full_demo.dir 4096 100).2.2 = (full_demo.dir.getLast (by decide)).addr ∧
      (find_free_block full_demo.dir 4096 100).1 = full_demo.dir :=
  find_free_block_null_last full_demo.dir 4096 100 (by decide) (by decide) (by decide)

/-! ## `os_free` -/

theorem wsub_add_cancel (a H : Nat) (h : a + H < WORD) : wsub (a + H) H = a := by
  unfold wsub WORD at *
  have : H % 18446744073709551616 = H := Nat.mod_eq_of_lt (by omega)
  omega

/-- C15: `os_free(NULL)` changes nothing, and `os_free` on the payload pointer of
an ALLOCATED node `b` of the Directory `pre ++ b :: post` changes only that
node, whose status becomes FREE and whose size is rounded up with `ALIGN`: the
other nodes, their order (the `next` links) and the rest of the state are
unchanged, and no node is merged. -/
theorem os_free_frame (H : Nat) (st : Allocator) (pre post : List block_meta) (b : block_meta)
    (hd : st.dir = pre ++ b :: post) (hpre : ∀ c ∈ pre, c.addr ≠ b.addr)
    (hb : b.status = STATUS_ALLOC) (hp : 0 < b.addr) (hw : b.addr + H < WORD) :
    os_free H st 0 = some st ∧
      os_free H st (b.addr + H) =
        some { st with dir := pre ++ ⟨b.addr, ALIGN b.size, STATUS_FREE⟩ :: post } := by
  refine ⟨by simp [os_free], ?_⟩
  unfold os_free
  rw [if_neg (by omega)]
  simp only [wsub_add_cancel b.addr H hw, hd, deref_append pre post b hpre, hb]
  rw [if_neg (by decide), store_append _ pre post b hpre]

/-- C15, witness: the second ALLOCATED block of `split_demo`. -/
theorem os_free_frame_witness :
    os_free 32 split_demo 0 = some split_demo ∧
      os_free 32 split_demo (4232 + 32) =
        some { split_demo with
          dir := [⟨4096, 10, STATUS_ALLOC⟩, ⟨4144, 52, STATUS_FREE⟩] ++
            ⟨4232, ALIGN 100, STATUS_FREE⟩ :: [⟨4368, 130768, STATUS_FREE⟩] } :=
  os_free_frame 32 split_demo [⟨4096, 10, STATUS_ALLOC⟩, ⟨4144, 52, STATUS_FREE⟩]
    [⟨4368, 130768, STATUS_FREE⟩] ⟨4232, 100, STATUS_ALLOC⟩ (by decide) (by decide) (by decide)
    (by decide) (by decide)

/-! ## The mapped path and its release -/

/-- C14: for every block obtained through the mapped path (`os_malloc(s)` with
`s ≥ 128 KiB`, `mmap` returning `r`, which is neither `NULL` nor `(void *) -1`
and no header of the Directory), `os_free` on the returned pointer calls
`munmap` with the base that `mmap` returned and the length that was passed to
`mmap`; the Directory, the break and the mappings that were live before are
as they were. -/
theorem mapped_round_trip (H : Nat) (st : Allocator) (s r : Nat) (hs : s ≥ MMAP_THRESHOLD)
    (hr0 : r ≠ 0) (hr1 : r ≠ FAILED) (hw : r + H < WORD)
    (hdir : ∀ b ∈ st.dir, b.addr ≠ r) :
    ∃ len st1,
      os_malloc H st s r = some (r + H, st1) ∧
      st1.log = st.log ++ [OsCall.mmap len r] ∧
      os_free H st1 (r + H) =
        some { st with mapped := st.mapped.filter (fun k => k.addr ≠ r),
                       log := st.log ++ [OsCall.mmap len r, OsCall.munmap r len] } := by
  have hs0 : s ≠ 0 := by unfold MMAP_THRESHOLD at hs; omega
  refine ⟨ofInt (toInt32 (ALIGN (wadd s H))),
    { st with log := st.log ++ [OsCall.mmap (ofInt (toInt32 (ALIGN (wadd s H)))) r],
              mapped := ⟨r, ofInt (toInt32 (ALIGN (wadd s H)))⟩ :: st.mapped }, ?_, rfl, ?_⟩
  · unfold os_malloc os_malloc_mmap
    simp only [hs0, if_false, hs, if_true, ne_eq, hr0, not_false_eq_true, hr1,
      wadd_of_lt r H hw]
  · have hderef : deref st.dir r = none := by
      unfold deref
      rw [List.find?_eq_none]
      intro b hb
      simpa using hdir b hb
    unfold os_free
    rw [if_neg (by omega)]
    simp only [wsub_add_cancel r H hw, hderef, List.find?_cons_of_pos, decide_True,
      List.filter_cons_of_neg, ne_eq, not_true_eq_false, decide_False, Bool.false_eq_true,
      not_false_eq_true, List.append_assoc, List.singleton_append]

/-- C14, witness: `os_malloc(200000)` on a fresh allocator with a 32-byte header,
the mapping placed at `2 ^ 32`. -/
theorem mapped_round_trip_witness :
    ∃ len st1,
      os_malloc 32 (fresh 4096 (2 ^ 31)) 200000 (2 ^ 32) = some (2 ^ 32 + 32, st1) ∧
      st1.log = (fresh 4096 (2 ^ 31)).log ++ [OsCall.mmap len (2 ^ 32)] ∧
      os_free 32 st1 (2 ^ 32 + 32) =
        some { fresh 4096 (2 ^ 31) with
          mapped := (fresh 4096 (2 ^ 31)).mapped.filter (fun k => k.addr ≠ 2 ^ 32),
          log := (fresh 4096 (2 ^ 31)).log ++
            [OsCall.mmap len (2 ^ 32), OsCall.munmap (2 ^ 32) len] } :=
  mapped_round_trip 32 (fresh 4096 (2 ^ 31)) 200000 (2 ^ 32) (by decide) (by decide)
    (by decide) (by decide) (by decide)

/-! ## `os_realloc`: shrinking in place -/

theorem split_threshold (H n : Nat) (hH : header_ok H) (hn : n < MMAP_THRESHOLD) :
    wadd (wadd 8 H) (ALIGN n) = ALIGN n + H + 8 := by
  have hsz := ALIGN_le_threshold n hn
  have := hH.2.2
  have hW : WORD = 2 ^ 64 := rfl
  unfold MMAP_THRESHOLD at hsz
  rw [wadd_of_lt 8 H (by omega), wadd_of_lt _ _ (by omega)]; omega

theorem os_realloc_shrink_eq (H : Nat) (st : Allocator) (pre post : List block_meta)
    (b : block_meta) (n r : Nat) (hH : header_ok H) (hd : st.dir = pre ++ b :: post)
    (hc : chain_ok H st.brk st.dir) (hbrk : st.brk < WORD) (hb : b.status = STATUS_ALLOC)
    (hn0 : 0 < n) (hn : n ≤ b.size) (hn2 : n < MMAP_THRESHOLD) :
    os_realloc H st (b.addr + H) n r = some (b.addr + H,
      { st with
        dir :=
          if ALIGN b.size ≥ ALIGN n + H + 8 then
            pre ++ ⟨b.addr, n, STATUS_ALLOC⟩ ::
              ⟨b.addr + H + ALIGN n, b.size - ALIGN n - H, STATUS_FREE⟩ :: post
          else st.dir }) := by
  have hW : WORD = 2 ^ 64 := rfl
  rw [hd] at hc
  have hpre := (chain_ok_addr_ne H st.brk hH.2.1 pre post b hc).1
  have hbb := hc.2 b (by simp)
  simp only [block_end] at hbb
  have hnw := ALIGN_nowrap b.size hbb.2.1 (by omega)
  unfold os_realloc
  simp only [wsub_add_cancel b.addr H (by omega)]
  rw [if_neg (by omega)]
  simp only [hd, deref_append pre post b hpre, hb]
  rw [if_neg (by decide), if_neg (by omega),
    if_neg (by simp only [not_or, not_le]; exact ⟨by decide, hn2⟩), if_pos hn,
    split_threshold H n hH hn2]
  by_cases hsplit : ALIGN b.size ≥ ALIGN n + H + 8
  · simp only [hsplit, if_true]
    rw [os_split_eq H n pre post b hpre (by omega) (by omega)]
    simp only [hb]
  · simp only [hsplit, if_false]

/-- C16: for an ALLOCATED node `b` of a Directory laid out in memory and every
`n` with `0 < n ≤ b.size` and `n < 128 KiB`, `os_realloc(b + H, n)` returns the
same pointer; it splits `b` (size `n`, followed by a new FREE block) exactly
when `ALIGN(b.size) ≥ ALIGN(n) + H + 8`, and otherwise leaves the Directory
unchanged.  Nothing else of the state changes. -/
theorem os_realloc_shrink (H : Nat) (st : Allocator) (pre post : List block_meta)
    (b : block_meta) (n r : Nat) (hH : header_ok H) (hd : st.dir = pre ++ b :: post)
    (hc : chain_ok H st.brk st.dir) (hbrk : st.brk < WORD) (hb : b.status = STATUS_ALLOC)
    (hn0 : 0 < n) (hn : n ≤ b.size) (hn2 : n < MMAP_THRESHOLD) :
    os_realloc H st (b.addr + H) n r = some (b.addr + H,
      { st with
        dir :=
          if ALIGN b.size ≥ ALIGN n + H + 8 then
            pre ++ ⟨b.addr, n, STATUS_ALLOC⟩ ::
              ⟨b.addr + H + ALIGN n, b.size - ALIGN n - H, STATUS_FREE⟩ :: post
          else st.dir }) :=
  os_realloc_shrink_eq H st pre post b n r hH hd hc hbrk hb hn0 hn hn2

/-- C16, witness: the block of 100 bytes of `split_demo` shrunk to 10 bytes. -/
theorem os_realloc_shrink_witness :
    os_realloc 32 split_demo (4232 + 32) 10 0 = some (4232 + 32,
      { split_demo with
        dir :=
          if ALIGN 100 ≥ ALIGN 10 + 32 + 8 then
            [⟨4096, 10, STATUS_ALLOC⟩, ⟨4144, 52, STATUS_FREE⟩] ++ ⟨4232, 10, STATUS_ALLOC⟩ ::
              ⟨4232 + 32 + ALIGN 10, 100 - ALIGN 10 - 32, STATUS_FREE⟩ ::
              [⟨4368, 130768, STATUS_FREE⟩]
          else split_demo.dir }) :=
  os_realloc_shrink 32 split_demo [⟨4096, 10, STATUS_ALLOC⟩, ⟨4144, 52, STATUS_FREE⟩]
    [⟨4368, 130768, STATUS_FREE⟩] ⟨4232, 100, STATUS_ALLOC⟩ 10 0 (by decide) (by decide)
    (by decide) (by decide) (by decide) (by decide) (by decide) (by decide)

/-! ## `os_realloc`: shrinking and growing back -/

theorem os_coalesce_realloc_walk_append (H size : Nat) (pre post : List block_meta)
    (b : block_meta) (hpre : ∀ c ∈ pre, c.addr ≠ b.addr) :
    os_coalesce_realloc_walk H b.addr size (pre ++ b :: post) =
      some (pre ++ { b with size := (os_coalesce_realloc_loop H size (ALIGN b.size) post).1 } ::
            (os_coalesce_realloc_loop H size (ALIGN b.size) post).2.1,
          (os_coalesce_realloc_loop H size (ALIGN b.size) post).1,
          (os_coalesce_realloc_loop H size (ALIGN b.size) post).2.2,
          decide ((os_coalesce_realloc_loop H size (ALIGN b.size) post).2.1 = [])) := by
  induction pre with
  | nil => simp [os_coalesce_realloc_walk]
  | cons c pre ih =>
    have hc := hpre c (List.mem_cons_self _ _)
    simp [os_coalesce_realloc_walk, hc, ih (fun d hd => hpre d (List.mem_cons_of_mem _ hd))]

theorem dir_update_self (st : Allocator) : ({ st with dir := st.dir } : Allocator) = st := by
  cases st; rfl

theorem os_realloc_regrow (H : Nat) (st : Allocator) (pre post : List block_meta)
    (a n c m r : Nat) (hH : header_ok H)
    (hd : st.dir = pre ++ ⟨a, n, STATUS_ALLOC⟩ ::
      ⟨a + H + ALIGN n, c - ALIGN n - H, STATUS_FREE⟩ :: post)
    (hc : chain_ok H st.brk st.dir) (hbrk : st.brk < WORD)
    (hfit : c ≥ ALIGN n + H) (hcw : c < WORD) (hnm : n < m) (hmc : m ≤ c)
    (hm : m < MMAP_THRESHOLD) :
    os_realloc H st (a + H) m r = some (a + H,
      { st with dir := pre ++ ⟨a, c, STATUS_ALLOC⟩ :: post }) := by
  have hW : WORD = 2 ^ 64 := rfl
  rw [hd] at hc
  have hpre := (chain_ok_addr_ne H st.brk hH.2.1 pre _ ⟨a, n, STATUS_ALLOC⟩ hc).1
  have hbb := hc.2 ⟨a, n, STATUS_ALLOC⟩ (by simp)
  simp only [block_end] at hbb
  have hacc : wadd (ALIGN n) (wadd (c - ALIGN n - H) H) = c := by
    rw [wadd_of_lt (c - ALIGN n - H) H (by omega), wadd_of_lt _ _ (by omega)]; omega
  unfold os_realloc
  simp only [wsub_add_cancel a H (by omega)]
  rw [if_neg (by omega)]
  have hder := deref_append pre (⟨a + H + ALIGN n, c - ALIGN n - H, STATUS_FREE⟩ :: post)
    ⟨a, n, STATUS_ALLOC⟩ hpre
  simp only at hder
  simp only [hd, hder]
  rw [if_neg (by decide), if_neg (by omega),
    if_neg (by simp only [not_or, not_le]; exact ⟨by decide, hm⟩), if_neg (by omega)]
  unfold os_coalesce_realloc
  have hwalk := os_coalesce_realloc_walk_append H m pre
    (⟨a + H + ALIGN n, c - ALIGN n - H, STATUS_FREE⟩ :: post) ⟨a, n, STATUS_ALLOC⟩ hpre
  simp only [os_coalesce_realloc_loop, hacc, ge_iff_le, hmc, if_true] at hwalk
  simp only [hd, hwalk, if_true, wadd_of_lt a H (by omega)]

/-- C17: for an ALLOCATED node `b` of a Directory laid out in memory and sizes
`0 < n ≤ m ≤ b.size`, `m < 128 KiB`, `os_realloc(p, n)` followed by
`os_realloc(p, m)` (`p = b + H`) returns `p` both times.  The log is unchanged
by both calls: no `memcpy`, no `memset` and no operating-system primitive is
called; and every header of the Directory after either call is at the address
of a header that was there before or at `p + n` or beyond, so that no header is
written into the first `n` bytes of the payload. -/
theorem realloc_shrink_then_grow (H : Nat) (st : Allocator) (pre post : List block_meta)
    (b : block_meta) (n m r r2 : Nat) (hH : header_ok H) (hd : st.dir = pre ++ b :: post)
    (hc : chain_ok H st.brk st.dir) (hbrk : st.brk < WORD) (hb : b.status = STATUS_ALLOC)
    (hn0 : 0 < n) (hnm : n ≤ m) (hmc : m ≤ b.size) (hm : m < MMAP_THRESHOLD) :
    ∃ st1 st2,
      os_realloc H st (b.addr + H) n r = some (b.addr + H, st1) ∧
      os_realloc H st1 (b.addr + H) m r2 = some (b.addr + H, st2) ∧
      st1.log = st.log ∧ st2.log = st.log ∧
      ∀ c ∈ st1.dir ++ st2.dir,
        (∃ c0 ∈ st.dir, c0.addr = c.addr) ∨ b.addr + H + n ≤ c.addr := by
  have hW : WORD = 2 ^ 64 := rfl
  have hc0 := hc
  rw [hd] at hc0
  have hbb := hc0.2 b (by simp)
  simp only [block_end] at hbb
  have hnw := ALIGN_nowrap b.size hbb.2.1 (by omega)
  have hszn := ALIGN_le_threshold n (by omega)
  have hszm := ALIGN_le_threshold m hm
  have hold : ∀ c ∈ st.dir, (∃ c0 ∈ st.dir, c0.addr = c.addr) ∨ b.addr + H + n ≤ c.addr :=
    fun c hc1 => Or.inl ⟨c, hc1, rfl⟩
  have hfirst := os_realloc_shrink_eq H st pre post b n r hH hd hc hbrk hb hn0 (by omega)
    (by omega)
  by_cases hsplit : ALIGN b.size ≥ ALIGN n + H + 8
  · rw [if_pos hsplit] at hfirst
    have hck1 := chain_ok_split H st.brk n pre post b STATUS_ALLOC STATUS_FREE hH.1 hbrk hc0
      hsplit hszn.2.1
    have hnew1 : ∀ c ∈ pre ++ (⟨b.addr, n, STATUS_ALLOC⟩ : block_meta) ::
        ⟨b.addr + H + ALIGN n, b.size - ALIGN n - H, STATUS_FREE⟩ :: post,
        (∃ c0 ∈ st.dir, c0.addr = c.addr) ∨ b.addr + H + n ≤ c.addr := by
      intro c hc1
      rw [hd]
      simp only [List.mem_append, List.mem_cons] at hc1
      rcases hc1 with h | h | h | h
      · exact Or.inl ⟨c, by simp [h], rfl⟩
      · exact Or.inl ⟨b, by simp, by rw [h]⟩
      · right; rw [h]; simp only; omega
      · exact Or.inl ⟨c, by simp [h], rfl⟩
    by_cases hlt : n < m
    · have hsecond := os_realloc_regrow H
        { st with dir := pre ++ ⟨b.addr, n, STATUS_ALLOC⟩ ::
            ⟨b.addr + H + ALIGN n, b.size - ALIGN n - H, STATUS_FREE⟩ :: post }
        pre post b.addr n b.size m r2 hH rfl hck1 hbrk (by omega) (by omega) hlt hmc hm
      refine ⟨_, _, hfirst, hsecond, rfl, rfl, ?_⟩
      intro c hc1
      rcases List.mem_append.mp hc1 with h | h
      · exact hnew1 c h
      · rw [hd]
        simp only [List.mem_append, List.mem_cons] at h
        rcases h with h | h | h
        · exact Or.inl ⟨c, by simp [h], rfl⟩
        · exact Or.inl ⟨b, by simp, by rw [h]⟩
        · exact Or.inl ⟨c, by simp [h], rfl⟩
    · have hmn : m = n := by omega
      subst hmn
      have hsecond := os_realloc_shrink_eq H
        { st with dir := pre ++ ⟨b.addr, m, STATUS_ALLOC⟩ ::
            ⟨b.addr + H + ALIGN m, b.size - ALIGN m - H, STATUS_FREE⟩ :: post }
        pre (⟨b.addr + H + ALIGN m, b.size - ALIGN m - H, STATUS_FREE⟩ :: post)
        ⟨b.addr, m, STATUS_ALLOC⟩ m r2 hH rfl hck1 hbrk rfl hn0 (le_refl _) hm
      rw [if_neg (by simp only; have := hH.2.1; omega)] at hsecond
      refine ⟨_, _, hfirst, hsecond, rfl, rfl, ?_⟩
      intro c hc1
      rcases List.mem_append.mp hc1 with h | h
      · exact hnew1 c h
      · exact hnew1 c h
  · rw [if_neg hsplit, dir_update_self] at hfirst
    have hsecond := os_realloc_shrink_eq H st pre post b m r2 hH hd hc hbrk hb (by omega) hmc hm
    refine ⟨_, _, hfirst, hsecond, rfl, rfl, ?_⟩
    intro c hc1
    rcases List.mem_append.mp hc1 with h | h
    · exact hold c h
    · simp only at h
      split at h
      · rw [hd]
        simp only [List.mem_append, List.mem_cons] at h
        rcases h with h | h | h | h
        · exact Or.inl ⟨c, by simp [h], rfl⟩
        · exact Or.inl ⟨b, by simp, by rw [h]⟩
        · right; rw [h]; simp only; omega
        · exact Or.inl ⟨c, by simp [h], rfl⟩
      · exact hold c h

/-- C17, witness: the block of 1000 bytes of `kilo_demo`, resized to 10 bytes and
back to 1000. -/
theorem realloc_shrink_then_grow_witness :
    ∃ st1 st2,
      os_realloc 32 kilo_demo (4096 + 32) 10 0 = some (4096 + 32, st1) ∧
      os_realloc 32 st1 (4096 + 32) 1000 0 = some (4096 + 32, st2) ∧
      st1.log = kilo_demo.log ∧ st2.log = kilo_demo.log ∧
      ∀ c ∈ st1.dir ++ st2.dir,
        (∃ c0 ∈ kilo_demo.dir, c0.addr = c.addr) ∨ 4096 + 32 + 10 ≤ c.addr :=
  realloc_shrink_then_grow 32 kilo_demo [] [⟨5128, 130008, STATUS_FREE⟩]
    ⟨4096, 1000, STATUS_ALLOC⟩ 10 1000 0 0 (by decide) (by decide) (by decide) (by decide)
    (by decide) (by decide) (by decide) (by decide) (by decide)

/-- The example of the specification, evaluated (`H = 32`): allocate 1000 bytes
in a fresh allocator, resize to 10 bytes, resize back to 1000 bytes.  The
pointer 4128 is returned three times; the second call splits the block, the
third absorbs the remainder again and gives back the Directory as it was
after the allocation. -/
theorem realloc_round_trip_example :
    os_malloc 32 (fresh 4096 (2 ^ 31)) 1000 0 = some (4128, kilo_demo) ∧
    os_realloc 32 kilo_demo 4128 10 0 = some (4128,
      { kilo_demo with
        dir := [⟨4096, 10, STATUS_ALLOC⟩, ⟨4144, 952, STATUS_FREE⟩,
          ⟨5128, 130008, STATUS_FREE⟩] }) ∧
    os_realloc 32
      { kilo_demo with
        dir := [⟨4096, 10, STATUS_ALLOC⟩, ⟨4144, 952, STATUS_FREE⟩,
          ⟨5128, 130008, STATUS_FREE⟩] } 4128 1000 0 = some (4128, kilo_demo) := by
  decide

/-! ## The small and medium path calls `sbrk` only -/

theorem sbrk_only_refl (st : Allocator) : sbrk_only st st :=
  ⟨rfl, [], by simp, by simp⟩

theorem sbrk_only_trans (st st2 st1 : Allocator) (h1 : sbrk_only st st2)
    (h2 : sbrk_only st2 st1) : sbrk_only st st1 := by
  obtain ⟨a1, es1, a2, a3⟩ := h1
  obtain ⟨b1, es2, b2, b3⟩ := h2
  refine ⟨b1.trans a1, es1 ++ es2, by rw [b2, a2, List.append_assoc], fun e he => ?_⟩
  rcases List.mem_append.mp he with h | h
  · exact a3 e h
  · exact b3 e h

theorem sbrk_only_sbrk (st : Allocator) (x : Int) : sbrk_only st (sbrk st x).2 := by
  obtain ⟨g1, _, _, g4, _⟩ := sbrk_log st x
  exact ⟨g4, _, g1, fun e he => ⟨x, _, List.mem_singleton.mp he⟩⟩

theorem sbrk_only_dir (st st1 : Allocator) (d : List block_meta) (t : Nat)
    (h : sbrk_only st st1) : sbrk_only st { st1 with dir := d, tail_next := t } := h

theorem request_space_sbrk_only (H : Nat) (st : Allocator) (last size : Nat)
    (res : Option block_meta) (st1 : Allocator)
    (h : request_space H st last size = some (res, st1)) : sbrk_only st st1 := by
  unfold request_space at h
  simp only at h
  have h0 := sbrk_only_sbrk st 0
  split at h
  · split at h
    · exact absurd h (by simp)
    · rename_i d hcut
      have h1 := sbrk_only_sbrk { (sbrk st 0).2 with dir := d, tail_next := (sbrk st 0).1 }
        (toIntptr (ALIGN (wadd size H)))
      have h2 : sbrk_only st { (sbrk st 0).2 with dir := d, tail_next := (sbrk st 0).1 } := h0
      have h3 := sbrk_only_trans _ _ _ h2 h1
      split at h
      · rw [← (Prod.mk.inj (Option.some.inj h)).2]; exact h3
      · rw [← (Prod.mk.inj (Option.some.inj h)).2]; exact h3
  · have h1 := sbrk_only_sbrk (sbrk st 0).2 ((MMAP_THRESHOLD : Nat) : Int)
    have h3 := sbrk_only_trans _ _ _ h0 h1
    split at h
    · exact absurd h (by simp)
    · rw [← (Prod.mk.inj (Option.some.inj h)).2]; exact h3

theorem os_malloc_place_sbrk_only (H : Nat) (st : Allocator) (size p : Nat) (st1 : Allocator)
    (h : os_malloc_place H st size = some (p, st1)) : sbrk_only st st1 := by
  unfold os_malloc_place at h
  simp only at h
  split at h
  · exact absurd h (by simp)
  · split at h
    · split at h
      · exact absurd h (by simp)
      · split at h
        · rw [← (Prod.mk.inj (Option.some.inj h)).2]
          exact sbrk_only_sbrk st _
        · split at h
          · exact absurd h (by simp)
          · rename_i st2 hreq
            rw [← (Prod.mk.inj (Option.some.inj h)).2]
            have h5 := request_space_sbrk_only H _ _ _ _ _ hreq
            exact h5
          · rename_i b st2 hreq
            rw [← (Prod.mk.inj (Option.some.inj h)).2]
            have h5 := request_space_sbrk_only H _ _ _ _ _ hreq
            exact h5
    · split at h
      · exact absurd h (by simp)
      · rw [← (Prod.mk.inj (Option.some.inj h)).2]
        exact sbrk_only_refl st

theorem os_malloc_sbrk_only (H : Nat) (st : Allocator) (size r p : Nat) (st1 : Allocator)
    (hs : size < MMAP_THRESHOLD) (h : os_malloc H st size r = some (p, st1)) :
    sbrk_only st st1 := by
  unfold os_malloc os_malloc_first at h
  split at h
  · rw [← (Prod.mk.inj (Option.some.inj h)).2]; exact sbrk_only_refl st
  · rw [if_neg (by omega)] at h
    split at h
    · exact absurd h (by simp)
    · rename_i st2 hfirst
      rw [← (Prod.mk.inj (Option.some.inj h)).2]
      split at hfirst
      · split at hfirst
        · exact absurd hfirst (by simp)
        · rename_i st3 hreq
          rw [← (Prod.mk.inj (Option.some.inj hfirst)).2]
          have h5 := request_space_sbrk_only H _ _ _ _ _ hreq
          exact h5
        · exact absurd (Prod.mk.inj (Option.some.inj hfirst)).1 (by simp)
      · exact absurd (Prod.mk.inj (Option.some.inj hfirst)).1 (by simp)
    · rename_i st2 hfirst
      have h2 := os_malloc_place_sbrk_only H st2 size p st1 h
      refine sbrk_only_trans st st2 st1 ?_ h2
      split at hfirst
      · split at hfirst
        · exact absurd hfirst (by simp)
        · exact absurd (Prod.mk.inj (Option.some.inj hfirst)).1 (by simp)
        · rename_i b st3 hreq
          rw [← (Prod.mk.inj (Option.some.inj hfirst)).2]
          have h5 := request_space_sbrk_only H _ _ _ _ _ hreq
          exact h5
      · rw [← (Prod.mk.inj (Option.some.inj hfirst)).2]; exact sbrk_only_refl st

/-! ## The large-object path of `os_malloc` -/

/-- C12, the failing input (`H = 32`): `os_malloc(4294967296)` takes the
large-object path, but the length `ALIGN(size + STRUCT_SIZE) = 4294967328` is
stored in an `int` and becomes 32: a mapping of 32 bytes is requested and
recorded, not one of `H + ALIGN(s)` bytes, and a pointer into it is returned. -/
theorem os_malloc_mmap_int_truncation :
    os_malloc 32 (fresh 4096 (2 ^ 31)) 4294967296 8589934592 = some (8589934592 + 32,
      { fresh 4096 (2 ^ 31) with
        mapped := [⟨8589934592, 32⟩],
        log := [OsCall.mmap 32 8589934592] }) ∧
      32 + ALIGN 4294967296 = 4294967328 := by
  decide

/-- The large-object path where the `int` does not wrap: for `s ≥ 128 KiB` with
`s + H + 7 < 2 ^ 31`, `os_malloc(s)` requests one mapping of `H + ALIGN(s)`
bytes, records a MAPPED header with that size and returns `base + H`; the
Directory and the break are unchanged.  For `0 < s < 128 KiB` only `sbrk` is
called and the mappings are unchanged. -/
theorem os_malloc_large_object_path (H : Nat) (st : Allocator) (s r : Nat) (hH : header_ok H) :
    (s ≥ MMAP_THRESHOLD → s + H + 7 < 2 ^ 31 → r ≠ 0 → r ≠ FAILED → r + H < WORD →
      os_malloc H st s r = some (r + H,
        { st with mapped := ⟨r, H + ALIGN s⟩ :: st.mapped,
                  log := st.log ++ [OsCall.mmap (H + ALIGN s) r] })) ∧
    (s < MMAP_THRESHOLD → ∀ p st1, os_malloc H st s r = some (p, st1) → sbrk_only st st1) := by
  have hW : WORD = 2 ^ 64 := rfl
  refine ⟨fun hs hs1 hr0 hr1 hw => ?_, fun hs p st1 h => os_malloc_sbrk_only H st s r p st1 hs h⟩
  have hs0 : s ≠ 0 := by unfold MMAP_THRESHOLD at hs; omega
  have h1 : wadd s H = s + H := wadd_of_lt _ _ (by omega)
  have h2 : ALIGN (s + H) = H + ALIGN s := by
    have := hH.1
    rw [ALIGN_of_lt _ (by omega), ALIGN_of_lt _ (by omega)]; omega
  have h2b := ALIGN_bounds s (by omega)
  have h3 : ofInt (toInt32 (H + ALIGN s)) = H + ALIGN s := by
    rw [toInt32_small _ (by omega)]
    unfold ofInt
    omega
  unfold os_malloc os_malloc_mmap
  simp only [hs0, if_false, hs, if_true, ne_eq, hr0, not_false_eq_true, hr1,
    wadd_of_lt r H hw, h1, h2, h3]

/-! ## The threshold of `os_calloc` -/

/-- An in-arena `os_calloc`, evaluated (`H = 32`): `os_calloc(10, 4)` on a fresh
allocator creates the arena, takes 40 bytes from it and zero-fills them. -/
theorem os_calloc_arena_example :
    os_calloc 32 (fresh 4096 (2 ^ 31)) 10 4 0 = some (4128,
      { fresh 4096 (2 ^ 31) with
        dir := [⟨4096, 40, STATUS_ALLOC⟩, ⟨4168, 130968, STATUS_FREE⟩],
        brk := 135168,
        log := [OsCall.sbrk 0 4096, OsCall.sbrk 131072 4096, OsCall.memset 4128 40] }) := by
  decide

/-! ## `os_malloc` returns a block of the Directory -/

theorem os_malloc_place_some (H : Nat) (st : Allocator) (s : Nat) (hH : header_ok H)
    (hs : s < MMAP_THRESHOLD) (hinv : Inv H st) (hd : st.dir ≠ []) :
    ∃ p st1, os_malloc_place H st s = some (p, st1) := by
  obtain ⟨hc, ht, hb0, hlim, hlim2, hm⟩ := hinv
  have hW : WORD = 2 ^ 64 := rfl
  have hF : FAILED = WORD - 1 := rfl
  have hbW : st.brk < WORD := by omega
  by_cases hhit : (find_free_block (os_coalesce H st.dir) (global_base st) s).2.1 ≠ 0
  · obtain ⟨pre, blk, post, _, _, _, _, _, hr⟩ := os_malloc_place_hit H st s hH hs hc hbW ht hhit
    exact ⟨_, _, hr⟩
  · have hmiss : (find_free_block (os_coalesce H st.dir) (global_base st) s).2.1 = 0 := by
      omega
    obtain ⟨init, l, hil, _, _, _, _, _⟩ := os_malloc_place_miss H st s hH hc hbW hd hmiss
    by_cases hfree : l.status = STATUS_FREE
    · exact ⟨_, _, os_malloc_place_grow H st s hH hc hbW hd ht hmiss init l hil hfree⟩
    · rw [os_malloc_place_append H st s hH hs hc hlim (by omega) hd ht hmiss init l hil hfree]
      split
      · exact ⟨_, _, rfl⟩
      · exact ⟨_, _, rfl⟩

theorem os_malloc_place_nonnull (H : Nat) (st : Allocator) (s p : Nat) (st1 : Allocator)
    (hH : header_ok H) (hs : s < MMAP_THRESHOLD) (hinv : Inv H st) (hd : st.dir ≠ [])
    (hres : os_malloc_place H st s = some (p, st1)) (hok : calls_ok st st1) : p ≠ 0 := by
  obtain ⟨hc, ht, hb0, hlim, hlim2, hm⟩ := hinv
  have hW : WORD = 2 ^ 64 := rfl
  have hF : FAILED = WORD - 1 := rfl
  have hbW : st.brk < WORD := by omega
  by_cases hhit : (find_free_block (os_coalesce H st.dir) (global_base st) s).2.1 ≠ 0
  · obtain ⟨pre, blk, post, hf, _, _, _, _, hr⟩ :=
      os_malloc_place_hit H st s hH hs hc hbW ht hhit
    rw [hr] at hres
    have := (Prod.mk.inj (Option.some.inj hres)).1
    have := hH.2.1
    omega
  · have hmiss : (find_free_block (os_coalesce H st.dir) (global_base st) s).2.1 = 0 := by
      omega
    obtain ⟨init, l, hil, _, _, _, _, _⟩ := os_malloc_place_miss H st s hH hc hbW hd hmiss
    by_cases hfree : l.status = STATUS_FREE
    · rw [os_malloc_place_grow H st s hH hc hbW hd ht hmiss init l hil hfree] at hres
      have := (Prod.mk.inj (Option.some.inj hres)).1
      have := hH.2.1
      omega
    · rw [os_malloc_place_append H st s hH hs hc hlim (by omega) hd ht hmiss init l hil hfree]
        at hres
      split at hres
      · have := (Prod.mk.inj (Option.some.inj hres)).1
        have := hH.2.1
        omega
      · have hst := (Prod.mk.inj (Option.some.inj hres)).2
        subst hst
        have := (calls_ok_pair st _ _ _ hok rfl).2
        exact absurd rfl this

theorem os_malloc_arena_block (H : Nat) (st : Allocator) (s r : Nat) (hH : header_ok H)
    (hinv : Inv H st) (hs0 : 0 < s) (hs : s < MMAP_THRESHOLD) :
    (os_malloc H st s r = none → st.dir = [] ∧ st.lim < st.brk + MMAP_THRESHOLD) ∧
    ∀ p st1, os_malloc H st s r = some (p, st1) → calls_ok st st1 →
      p ≠ 0 ∧ ∃ blk ∈ st1.dir, deref st1.dir (p - H) = some blk ∧ p = blk.addr + H ∧
        blk.status = STATUS_ALLOC ∧ s ≤ blk.size := by
  constructor
  · intro hnone
    unfold os_malloc at hnone
    rw [if_neg (by omega), if_neg (by omega)] at hnone
    split at hnone
    · rename_i hfirst
      unfold os_malloc_first at hfirst
      split at hfirst
      · rename_i hnil
        refine ⟨hnil, ?_⟩
        unfold request_space at hfirst
        rw [sbrk_zero st hinv.2.2.2.1] at hfirst
        simp only [ne_eq, not_true_eq_false, if_false] at hfirst
        by_contra hroom
        have hroom2 : st.brk + MMAP_THRESHOLD ≤ st.lim := by omega
        have hg := sbrk_grant { st with log := st.log ++ [OsCall.sbrk 0 st.brk] }
          MMAP_THRESHOLD hroom2
        have hF : FAILED = WORD - 1 := rfl
        have hW : WORD = 2 ^ 64 := rfl
        have hlim2 := hinv.2.2.2.2.1
        have hne : st.brk ≠ FAILED := by unfold MMAP_THRESHOLD at hroom2; omega
        simp [hg, hne] at hfirst
      · exact absurd hfirst (by simp)
    · exact absurd hnone (by simp)
    · rename_i st2 hfirst
      obtain ⟨_, h2, h3, _, _, _⟩ := os_malloc_first_inv H st s true st2 hH hinv hfirst
      obtain ⟨p, st1, hsome⟩ := os_malloc_place_some H st2 s hH hs h3 h2
      rw [hsome] at hnone
      exact absurd hnone (by simp)
  · intro p st1 hres hok
    unfold os_malloc at hres
    rw [if_neg (by omega), if_neg (by omega)] at hres
    split at hres
    · exact absurd hres (by simp)
    · rename_i st2 hfirst
      exact absurd (os_malloc_first_inv H st s false st2 hH hinv hfirst).1 (by simp)
    · rename_i st2 hfirst
      obtain ⟨_, h2, h3, ⟨es1, h4⟩, h5, h6⟩ := os_malloc_first_inv H st s true st2 hH hinv hfirst
      obtain ⟨⟨es2, k1⟩, _, _, _⟩ := os_malloc_place_inv H st2 s p st1 hH hs h3 h2 hres
      have hok2 := (calls_ok_suffix st st2 st1 es1 es2 h4 h5 h6 k1 hok).1
      have hp := os_malloc_place_nonnull H st2 s p st1 hH hs h3 h2 hres hok2
      obtain ⟨pre, blk, post, k1, k2, k3, k4, k5, _⟩ :=
        os_malloc_place_block H st2 s p st1 hH hs h3 h2 hres hp
      refine ⟨hp, blk, by rw [k1]; simp, ?_, k3, k4, k5⟩
      have : p - H = blk.addr := by omega
      rw [this, k1, deref_append pre post blk k2]

/-- C20: in every reachable state and for every `s` with `0 < s < 128 KiB`,
`os_malloc(s)` returns unless the arena has to be created and `sbrk` cannot
grant the preallocation; and whenever it returns after calls of `sbrk` that
all succeeded, the result is a non-null pointer `p = b + H` for a node `b` of
the Directory (the one found at `p - H`) whose status is ALLOCATED and whose
recorded size is at least `s`. -/
theorem os_malloc_returns_block (H brk lim : Nat) (st : Allocator) (s r : Nat)
    (hH : header_ok H) (hb : 0 < brk) (hl : brk ≤ lim) (hl2 : lim < FAILED)
    (hreach : Reachable H brk lim st) (hs0 : 0 < s) (hs : s < MMAP_THRESHOLD) :
    (os_malloc H st s r = none → st.dir = [] ∧ st.lim < st.brk + MMAP_THRESHOLD) ∧
    ∀ p st1, os_malloc H st s r = some (p, st1) → calls_ok st st1 →
      p ≠ 0 ∧ ∃ blk ∈ st1.dir, deref st1.dir (p - H) = some blk ∧ p = blk.addr + H ∧
        blk.status = STATUS_ALLOC ∧ s ≤ blk.size :=
  os_malloc_arena_block H st s r hH (reachable_inv H brk lim st hH hb hl hl2 hreach).1 hs0 hs

/-- C20, witness: a request of 100 bytes in the state after `os_malloc(20)`. -/
theorem os_malloc_returns_block_witness :
    (os_malloc 32 first_demo 100 0 = none →
      first_demo.dir = [] ∧ first_demo.lim < first_demo.brk + MMAP_THRESHOLD) ∧
    ∀ p st1, os_malloc 32 first_demo 100 0 = some (p, st1) → calls_ok first_demo st1 →
      p ≠ 0 ∧ ∃ blk ∈ st1.dir, deref st1.dir (p - 32) = some blk ∧ p = blk.addr + 32 ∧
        blk.status = STATUS_ALLOC ∧ 100 ≤ blk.size :=
  os_malloc_returns_block 32 4096 (2 ^ 31) first_demo 100 0 (by decide) (by decide) (by decide)
    (by decide) first_demo_reachable (by decide) (by decide)

/-- The request of the witness, evaluated: the pointer 4184 to a new node of 100
bytes. -/
theorem os_malloc_returns_block_example :
    os_malloc 32 first_demo 100 0 = some (4184,
      { first_demo with
        dir := [⟨4096, 20, STATUS_ALLOC⟩, ⟨4152, 100, STATUS_ALLOC⟩,
          ⟨4288, 130848, STATUS_FREE⟩] }) := by
  decide

/-! ## `os_realloc`: growing -/

/-- C18, the failing input (`H = 32`): after `p = os_malloc(10)` and
`os_malloc(10)` the block at `p = 4128` has recorded size 10 and an ALLOCATED
successor.  `os_realloc(p, 12)` rounds the size up to 16, which meets the
target, but the size is only tested after a FREE neighbour has been absorbed:
the loop is left by `break`, fresh storage is allocated, 16 bytes are copied,
the old block is released and the new address 4224 is returned. -/
theorem os_realloc_relocates_with_room :
    run 32 (fresh 4096 (2 ^ 31)) [Call.malloc 10 0, Call.malloc 10 0] = some grow_demo ∧
    12 ≤ ALIGN 10 ∧
    os_realloc 32 grow_demo 4128 12 0 = some (4224,
      { grow_demo with
        dir := [⟨4096, 16, STATUS_FREE⟩, ⟨4144, 10, STATUS_ALLOC⟩, ⟨4192, 12, STATUS_ALLOC⟩,
          ⟨4240, 130896, STATUS_FREE⟩],
        log := grow_demo.log ++ [OsCall.memcpy 4224 4128 16] }) := by
  decide

theorem os_coalesce_realloc_loop_spec (H size : Nat) (rest : List block_meta) :
    ∀ bsize,
      ((os_coalesce_realloc_loop H size bsize rest).2.2 = true →
        size ≤ (os_coalesce_realloc_loop H size bsize rest).1) ∧
      ((os_coalesce_realloc_loop H size bsize rest).2.2 = false →
        ((os_coalesce_realloc_loop H size bsize rest).1 = bsize ∨
          (os_coalesce_realloc_loop H size bsize rest).1 < size) ∧
        ((os_coalesce_realloc_loop H size bsize rest).2.1 = [] ∨
          ∃ x tl, (os_coalesce_realloc_loop H size bsize rest).2.1 = x :: tl ∧
            x.status ≠ STATUS_FREE)) := by
  induction rest with
  | nil => intro bsize; simp [os_coalesce_realloc_loop]
  | cons c rest ih =>
    intro bsize
    simp only [os_coalesce_realloc_loop]
    split
    · split
      · rename_i hge
        exact ⟨fun _ => hge, fun h => absurd h (by simp)⟩
      · rename_i hlt
        obtain ⟨h1, h2⟩ := ih (wadd bsize (wadd c.size H))
        refine ⟨h1, fun hf => ⟨?_, (h2 hf).2⟩⟩
        rcases (h2 hf).1 with h | h
        · right; rw [h]; omega
        · exact Or.inr h
    · rename_i hnf
      exact ⟨fun h => absurd h (by simp), fun _ => ⟨Or.inl rfl, Or.inr ⟨c, rest, rfl, hnf⟩⟩⟩

/-- What `os_realloc` does to grow an ALLOCATED node `b` of the Directory
`pre ++ b :: post` to `n` bytes (`b.size < n < 128 KiB`).  With `acc`, `rest`,
`ret` the accumulated size, the chain from `current` on and the exit of the
absorbing loop started with `ALIGN(b.size)`:
* the loop returned (`ret`): `n ≤ acc`, the same pointer is returned, `b` has
  size `acc` and is followed by `rest`;
* the loop reached the end of the chain: `sbrk(ALIGN(n) - acc)` is called, `b`
  gets size `ALIGN(n)` and the same pointer is returned;
* the loop was stopped by a node that is not FREE: fresh storage is allocated,
  `acc` bytes are copied and the old block is released, whether or not `acc`
  meets `n`. -/
theorem os_realloc_grow (H : Nat) (st : Allocator) (pre post : List block_meta)
    (b : block_meta) (n r : Nat) (hH : header_ok H) (hd : st.dir = pre ++ b :: post)
    (hc : chain_ok H st.brk st.dir) (hbrk : st.brk < WORD) (ht : st.tail_next = 0)
    (hb : b.status = STATUS_ALLOC) (hcn : b.size < n) (hn : n < MMAP_THRESHOLD) :
    ∃ acc rest ret, os_coalesce_realloc_loop H n (ALIGN b.size) post = (acc, rest, ret) ∧
      (ret = true → n ≤ acc ∧
        os_realloc H st (b.addr + H) n r = some (b.addr + H,
          { st with dir := pre ++ ⟨b.addr, acc, STATUS_ALLOC⟩ :: rest })) ∧
      (ret = false → rest = [] → acc ≤ ALIGN n ∧
        os_realloc H st (b.addr + H) n r = some (b.addr + H,
          { (sbrk st ((ALIGN n - acc : Nat) : Int)).2 with
            dir := pre ++ [⟨b.addr, ALIGN n, STATUS_ALLOC⟩] })) ∧
      (ret = false → rest ≠ [] → (∃ x tl, rest = x :: tl ∧ x.status ≠ STATUS_FREE) ∧
        os_realloc H st (b.addr + H) n r =
          os_realloc_move H { st with dir := pre ++ ⟨b.addr, acc, STATUS_ALLOC⟩ :: rest }
            (b.addr + H) n acc r) := by
  have hW : WORD = 2 ^ 64 := rfl
  rw [hd] at hc
  have hpre := (chain_ok_addr_ne H st.brk hH.2.1 pre post b hc).1
  have hbb := hc.2 b (by simp)
  simp only [block_end] at hbb
  have hnw := ALIGN_nowrap b.size hbb.2.1 (by omega)
  have hszn := ALIGN_le_threshold n hn
  have hptr : wadd b.addr H = b.addr + H := wadd_of_lt _ _ (by omega)
  have hre : os_realloc H st (b.addr + H) n r = os_coalesce_realloc H st b.addr n r := by
    unfold os_realloc
    simp only [wsub_add_cancel b.addr H (by omega)]
    rw [if_neg (by omega)]
    simp only [hd, deref_append pre post b hpre, hb]
    rw [if_neg (by decide), if_neg (by omega),
      if_neg (by simp only [not_or, not_le]; exact ⟨by decide, hn⟩), if_neg (by omega)]
  have hwalk := os_coalesce_realloc_walk_append H n pre post b hpre
  have hspec := os_coalesce_realloc_loop_spec H n post (ALIGN b.size)
  generalize os_coalesce_realloc_loop H n (ALIGN b.size) post = L at hwalk hspec
  obtain ⟨acc, rest, ret⟩ := L
  simp only at hwalk hspec
  refine ⟨acc, rest, ret, rfl, ?_, ?_, ?_⟩
  · intro hret
    refine ⟨hspec.1 hret, ?_⟩
    rw [hre]
    unfold os_coalesce_realloc
    simp only [hd, hwalk, hret, if_true, hptr, hb]
  · intro hret hrest
    have hacc : acc ≤ ALIGN n := by
      rcases (hspec.2 hret).1 with h | h
      · rw [h, hnw, ALIGN_of_lt n (by unfold MMAP_THRESHOLD at hn; omega)]; omega
      · omega
    refine ⟨hacc, ?_⟩
    rw [hre]
    unfold os_coalesce_realloc
    subst hrest
    have hsub : wsub (ALIGN n) acc = ALIGN n - acc :=
      wsub_of_le _ _ hacc (ALIGN_lt_WORD n)
    have hst := store_append (fun c => { c with size := ALIGN n, status := STATUS_ALLOC })
      pre [] ({ b with size := acc }) hpre
    simp only at hst
    simp only [hd, hwalk, hret, Bool.false_eq_true, if_false, decide_True, if_true, ht, ne_eq,
      not_true_eq_false, hptr, hsub, hst]
    rw [toInt32_small _ (by unfold MMAP_THRESHOLD at hszn; omega)]
  · intro hret hrest
    refine ⟨(hspec.2 hret).2.resolve_left hrest, ?_⟩
    rw [hre]
    unfold os_coalesce_realloc
    simp only [hd, hwalk, hret, Bool.false_eq_true, if_false, hrest, decide_False, hptr, hb]

/-- The three cases of `os_realloc_grow` on `grow_demo`, whose first block is
stopped by its ALLOCATED successor. -/
theorem os_realloc_grow_example :
    os_coalesce_realloc_loop 32 12 (ALIGN 10)
      [⟨4144, 10, STATUS_ALLOC⟩, ⟨4192, 130944, STATUS_FREE⟩] =
      (16, [⟨4144, 10, STATUS_ALLOC⟩, ⟨4192, 130944, STATUS_FREE⟩], false) := by
  decide

/-! ## `os_malloc` on a miss -/

theorem find_free_block_loop_zero_cond (size : Nat) (l : List block_meta) :
    ∀ m r last, (∀ a ∈ l, 0 < a.addr) → (find_free_block_loop size l m r last).2.1 = 0 →
      ∀ c ∈ l, ¬ (c.status = STATUS_FREE ∧ ALIGN c.size ≥ ALIGN size ∧ m > ALIGN c.size) := by
  induction l with
  | nil => intro m r last _ _ c hc; simp at hc
  | cons c rest ih =>
    intro m r last hpos hz
    have hc := hpos c (List.mem_cons_self _ _)
    simp only [find_free_block_loop] at hz
    by_cases hcond : c.status = STATUS_FREE ∧ ALIGN c.size ≥ ALIGN size ∧ m > ALIGN c.size
    · rw [if_pos hcond] at hz
      exfalso
      rcases find_free_block_loop_result size rest (ALIGN c.size) c.addr last with h1 | ⟨b, hb, h2, _⟩
      · simp only at hz; omega
      · obtain ⟨a, ha, hr⟩ := forall₂_mem_right (find_free_block_loop_rel size rest _ _ _) b hb
        have := hpos a (List.mem_cons_of_mem _ ha)
        have := hr.1
        simp only at hz; omega
    · rw [if_neg hcond] at hz
      intro x hx
      rcases List.mem_cons.mp hx with h | h
      · rw [h]; exact hcond
      · exact ih m r c.addr (fun a ha => hpos a (List.mem_cons_of_mem _ ha)) hz x h

/-- Where the miss of `os_malloc` does what the specification says: `os_malloc(s)`
with `0 < s < 128 KiB` on an initialised Directory in which the search returns
`NULL` (`init ++ [l]` is the coalesced Directory).  If the final node `l` is
FREE with a rounded size below `INT_MAX` and `sbrk` grants the shortfall, the
break moves up by exactly `ALIGN(s) - l.size`, the node gets size `ALIGN(s)`
and status ALLOCATED, its payload is returned and no node is added.  If `l` is
not FREE and `sbrk` grants `H + ALIGN(s)` bytes, the break moves up by that
amount and exactly one ALLOCATED node, at the previous break, is appended as
the new final node. -/
theorem os_malloc_miss (H : Nat) (st : Allocator) (s r : Nat) (hH : header_ok H)
    (hs0 : 0 < s) (hs : s < MMAP_THRESHOLD) (hd : st.dir ≠ [])
    (hc : chain_ok H st.brk st.dir) (ht : st.tail_next = 0)
    (hlim : st.brk ≤ st.lim) (hlim2 : st.lim < WORD)
    (init : List block_meta) (l : block_meta) (hil : os_coalesce H st.dir = init ++ [l])
    (hmiss : (find_free_block (os_coalesce H st.dir) (global_base st) s).2.1 = 0) :
    (l.status = STATUS_FREE → ALIGN l.size < INT_MAX → st.brk + (ALIGN s - l.size) ≤ st.lim →
      l.size < ALIGN s ∧
      os_malloc H st s r = some (l.addr + H,
        { st with dir := init ++ [⟨l.addr, ALIGN s, STATUS_ALLOC⟩],
                  brk := st.brk + (ALIGN s - l.size),
                  log := st.log ++ [OsCall.sbrk ((ALIGN s - l.size : Nat) : Int) st.brk] })) ∧
    (l.status ≠ STATUS_FREE → st.brk + (H + ALIGN s) ≤ st.lim →
      os_malloc H st s r = some (st.brk + H,
        { st with dir := init ++ [l] ++ [⟨st.brk, s, STATUS_ALLOC⟩],
                  brk := st.brk + (H + ALIGN s),
                  log := st.log ++ [OsCall.sbrk 0 st.brk,
                    OsCall.sbrk ((H + ALIGN s : Nat) : Int) st.brk] })) := by
  rw [os_malloc_initialised H st s r hs0 hs hd]
  constructor
  · intro hfree hsmall hgrant
    have hck := os_coalesce_chain_ok H st.brk hH.1 (by omega) _ hc
    have hnf := find_free_block_loop_zero_cond s (os_coalesce H st.dir) INT_MAX 0 (global_base st)
      (fun a ha => (hck.2 a ha).1) hmiss l (by rw [hil]; simp)
    rw [hil] at hck
    have hl := hck.2 l (by simp)
    have hsz := ALIGN_le_threshold s hs
    unfold MMAP_THRESHOLD at hsz
    have hlt : l.size < ALIGN s := by
      have : ¬ ALIGN l.size ≥ ALIGN s := fun h => hnf ⟨hfree, h, hsmall⟩
      omega
    refine ⟨hlt, ?_⟩
    rw [os_malloc_place_grow H st s hH hc (by omega) hd ht hmiss init l hil hfree]
    have h1 : wsub (ALIGN s) l.size = ALIGN s - l.size :=
      wsub_of_le _ _ (by omega) (ALIGN_lt_WORD s)
    rw [h1, toInt32_small _ (by omega), sbrk_grant st _ hgrant]
  · intro hnfree hgrant
    rw [os_malloc_place_append H st s hH hs hc hlim hlim2 hd ht hmiss init l hil hnfree,
      if_pos hgrant]

/-- An instance of `os_malloc_miss`: `full_demo` ends in a FREE block of 8
bytes; with the break allowed to move, `os_malloc(100)` grows that block by
`104 - 8` bytes. -/
theorem os_malloc_miss_witness :
    (⟨135128, 8, STATUS_FREE⟩ : block_meta).size < ALIGN 100 ∧
    os_malloc 32 { full_demo with lim := 2 ^ 40 } 100 0 = some (135128 + 32,
      { full_demo with
        lim := 2 ^ 40,
        dir := [⟨4096, 131000, STATUS_ALLOC⟩] ++ [⟨135128, ALIGN 100, STATUS_ALLOC⟩],
        brk := 135168 + (ALIGN 100 - 8),
        log := full_demo.log ++ [OsCall.sbrk ((ALIGN 100 - 8 : Nat) : Int) 135168] }) :=
  (os_malloc_miss 32 { full_demo with lim := 2 ^ 40 } 100 0 (by decide) (by decide) (by decide)
    (by decide) (by decide) (by decide) (by decide) (by decide)
    [⟨4096, 131000, STATUS_ALLOC⟩] ⟨135128, 8, STATUS_FREE⟩ (by decide) (by decide)).1
    (by decide) (by decide) (by decide)

/-! ## The size recorded by `os_malloc`, path by path -/

theorem os_malloc_first_dir (H : Nat) (st : Allocator) (s : Nat) (flag : Bool)
    (st2 : Allocator) (hinv : Inv H st)
    (hres : os_malloc_first H st s = some (flag, st2)) :
    st2.dir = if st.dir = [] then [⟨st.brk, wsub MMAP_THRESHOLD H, STATUS_FREE⟩] else st.dir := by
  obtain ⟨hc, ht, hb0, hlim, hlim2, hm⟩ := hinv
  unfold os_malloc_first at hres
  split at hres
  · rename_i hnil
    rw [if_pos hnil]
    unfold request_space at hres
    rw [sbrk_zero st hlim] at hres
    simp only [ne_eq, not_true_eq_false, if_false] at hres
    by_cases hne : (sbrk { st with log := st.log ++ [OsCall.sbrk 0 st.brk] }
        ((MMAP_THRESHOLD : Nat) : Int)).1 = FAILED
    · simp [hne] at hres
    · simp only [hne, if_false] at hres
      obtain ⟨s1, s2, s3⟩ := sbrk_success _ _ hne
      simp only at hres s1 s2 s3
      obtain ⟨_, hst2⟩ := Prod.mk.inj (Option.some.inj hres)
      subst hst2
      have hr1 : (sbrk { st with log := st.log ++ [OsCall.sbrk 0 st.brk] }
          ((MMAP_THRESHOLD : Nat) : Int)).1 = st.brk := by
        unfold sbrk
        rw [if_pos ⟨s1, s2⟩]
      simp only [hr1]
  · rename_i hnil
    rw [if_neg hnil]
    obtain ⟨_, hst2⟩ := Prod.mk.inj (Option.some.inj hres)
    rw [← hst2]

theorem os_malloc_place_recorded (H : Nat) (st : Allocator) (s p : Nat) (st1 : Allocator)
    (hH : header_ok H) (hs : s < MMAP_THRESHOLD) (hinv : Inv H st) (hd : st.dir ≠ [])
    (hres : os_malloc_place H st s = some (p, st1)) (hp : p ≠ 0) :
    ∃ rec, recorded_size st1 (p - H) = some rec ∧ s ≤ rec ∧
      ((find_free_block (os_coalesce H st.dir) (global_base st) s).2.1 ≠ 0 →
        ∃ b ∈ os_coalesce H st.dir,
          b.addr = (find_free_block (os_coalesce H st.dir) (global_base st) s).2.1 ∧
          b.status = STATUS_FREE ∧ ALIGN s ≤ ALIGN b.size ∧
          rec = if ALIGN b.size ≥ ALIGN s + H + 8 then s else ALIGN b.size) ∧
      ((find_free_block (os_coalesce H st.dir) (global_base st) s).2.1 = 0 →
        ∃ l, (os_coalesce H st.dir).getLast? = some l ∧
          rec = if l.status = STATUS_FREE then ALIGN s else s) := by
  obtain ⟨hc, ht, hb0, hlim, hlim2, hm⟩ := hinv
  have hW : WORD = 2 ^ 64 := rfl
  have hF : FAILED = WORD - 1 := rfl
  have hbW : st.brk < WORD := by omega
  have hsz := ALIGN_le_threshold s hs
  by_cases hhit : (find_free_block (os_coalesce H st.dir) (global_base st) s).2.1 ≠ 0
  · obtain ⟨pre, blk, post, hf, ha, hfree, hal, hge, hr⟩ :=
      os_malloc_place_hit H st s hH hs hc hbW ht hhit
    have hck := find_free_block_chain_ok H st.brk _ (global_base st) s
      (os_coalesce_chain_ok H st.brk hH.1 hbW _ hc)
    rw [hf] at hck
    have hne := (chain_ok_addr_ne H st.brk hH.2.1 pre post blk hck).1
    have hrel := find_free_block_loop_rel s (os_coalesce H st.dir) INT_MAX 0 (global_base st)
    have hf2 : (find_free_block_loop s (os_coalesce H st.dir) INT_MAX 0 (global_base st)).1
        = pre ++ blk :: post := hf
    rw [hf2] at hrel
    obtain ⟨pre0, b0, post0, hd0, _, hb0, _⟩ := forall₂_split_right pre _ blk post hrel
    have hsize : blk.size = ALIGN b0.size := by
      rcases hb0.2.2 with h | h
      · rw [hal, h]
      · exact h
    rw [hr] at hres
    obtain ⟨hp1, hst⟩ := Prod.mk.inj (Option.some.inj hres)
    subst hst
    have hpH : p - H = blk.addr := by omega
    refine ⟨if blk.size ≥ ALIGN s + H + 8 then s else blk.size, ?_, ?_, ?_, ?_⟩
    · unfold recorded_size
      rw [hpH]
      by_cases hsplit : blk.size ≥ ALIGN s + H + 8
      · have h1 := deref_append pre
          (⟨blk.addr + H + ALIGN s, blk.size - ALIGN s - H, STATUS_FREE⟩ :: post)
          ⟨blk.addr, s, STATUS_ALLOC⟩ hne
        simp only at h1
        simp only [hsplit, if_true, h1]
      · have h1 := deref_append pre post ⟨blk.addr, blk.size, STATUS_ALLOC⟩ hne
        simp only at h1
        simp only [hsplit, if_false, h1]
    · split
      · exact le_refl _
      · omega
    · intro _
      refine ⟨b0, by rw [hd0]; simp, ?_, ?_, ?_, ?_⟩
      · rw [← hb0.1]; exact ha
      · rw [← hb0.2.1]; exact hfree
      · rw [← hsize]; exact hge
      · rw [hsize]
    · intro h; exact absurd h hhit
  · have hmiss : (find_free_block (os_coalesce H st.dir) (global_base st) s).2.1 = 0 := by
      omega
    obtain ⟨init, l, hil, _, _, _, hne, hck⟩ := os_malloc_place_miss H st s hH hc hbW hd hmiss
    by_cases hfree : l.status = STATUS_FREE
    · rw [os_malloc_place_grow H st s hH hc hbW hd ht hmiss init l hil hfree] at hres
      obtain ⟨hp1, hst⟩ := Prod.mk.inj (Option.some.inj hres)
      subst hst
      have hpH : p - H = l.addr := by omega
      refine ⟨ALIGN s, ?_, hsz.2.1, fun h => absurd hmiss h, fun _ => ⟨l, ?_, ?_⟩⟩
      · unfold recorded_size
        rw [hpH]
        have h1 := deref_append init [] ⟨l.addr, ALIGN s, STATUS_ALLOC⟩ hne
        simp only at h1 ⊢
        rw [h1]
      · rw [hil, List.getLast?_concat]
      · rw [if_pos hfree]
    · rw [os_malloc_place_append H st s hH hs hc hlim (by omega) hd ht hmiss init l hil hfree]
        at hres
      split at hres
      · obtain ⟨hp1, hst⟩ := Prod.mk.inj (Option.some.inj hres)
        subst hst
        have hpH : p - H = st.brk := by omega
        refine ⟨s, ?_, le_refl _, fun h => absurd hmiss h, fun _ => ⟨l, ?_, ?_⟩⟩
        · unfold recorded_size
          rw [hpH]
          have hne2 : ∀ c ∈ init ++ [l],
              c.addr ≠ (⟨st.brk, s, STATUS_ALLOC⟩ : block_meta).addr := by
            intro c hc2
            have := (hck.2 c hc2).2.2
            have := hH.2.1
            simp only [block_end] at *
            omega
          have h1 := deref_append (init ++ [l]) [] ⟨st.brk, s, STATUS_ALLOC⟩ hne2
          simp only at h1 ⊢
          rw [h1]
        · rw [hil, List.getLast?_concat]
        · rw [if_neg hfree]
      · exact absurd (Prod.mk.inj (Option.some.inj hres)).1.symm hp

/-- C2, amended: when `os_malloc(s)` (`0 < s`, `s + H + 7 < 2 ^ 31`) returns a
non-null pointer `p`, the size `rec` recorded in the header at `p - H` is at
least `s`, and its value is fixed by the path taken.  Mapped region
(`s ≥ 128 KiB`): `rec = ALIGN(s + H)`, the length of the mapping.  Otherwise let
`st2` be the state once the arena exists (on the first call its Directory is one
FREE block of `128 KiB - H` bytes), `d` its coalesced Directory and `blk` the
pointer returned by `find_free_block`.  Hit (`blk ≠ NULL`): `blk` is a FREE node
`b` of `d` that fits, and `rec = s` when `b` is split
(`ALIGN(b.size) ≥ ALIGN(s) + H + 8`), `rec = ALIGN(b.size)` when it is taken
whole.  Miss (`blk = NULL`): `rec = ALIGN(s)` when the final node of `d` is FREE
(the tail is grown), `rec = s` when a new block is appended. -/
theorem os_malloc_recorded_size (H : Nat) (st : Allocator) (s r p : Nat) (st1 : Allocator)
    (hH : header_ok H) (hs0 : 0 < s) (hs1 : s + H + 7 < 2 ^ 31) (hinv : Inv H st)
    (hr : st.lim ≤ r) (hr2 : r + H < WORD)
    (hres : os_malloc H st s r = some (p, st1)) (hp : p ≠ 0) :
    ∃ rec, recorded_size st1 (p - H) = some rec ∧ s ≤ rec ∧
      (MMAP_THRESHOLD ≤ s → rec = ALIGN (s + H)) ∧
      (s < MMAP_THRESHOLD →
        ∃ st2, os_malloc_first H st s = some (true, st2) ∧
          st2.dir = (if st.dir = [] then [⟨st.brk, MMAP_THRESHOLD - H, STATUS_FREE⟩]
            else st.dir) ∧
          ∀ d blk, d = os_coalesce H st2.dir →
            blk = (find_free_block d (global_base st2) s).2.1 →
            (blk ≠ 0 → ∃ b ∈ d, b.addr = blk ∧ b.status = STATUS_FREE ∧
              ALIGN s ≤ ALIGN b.size ∧
              rec = if ALIGN b.size ≥ ALIGN s + H + 8 then s else ALIGN b.size) ∧
            (blk = 0 → ∃ l, d.getLast? = some l ∧
              rec = if l.status = STATUS_FREE then ALIGN s else s)) := by
  have hW : WORD = 2 ^ 64 := rfl
  unfold os_malloc at hres
  rw [if_neg (by omega)] at hres
  split at hres
  · rename_i hbig
    unfold os_malloc_mmap at hres
    simp only at hres
    split at hres
    · split at hres
      · exact absurd hres (by simp)
      · obtain ⟨hp1, hst⟩ := Prod.mk.inj (Option.some.inj hres)
        subst hst
        have h1 : wadd s H = s + H := wadd_of_lt _ _ (by omega)
        have h2 := ALIGN_bounds (s + H) (by omega)
        have h3 : ofInt (toInt32 (ALIGN (s + H))) = ALIGN (s + H) := by
          rw [toInt32_small _ (by omega)]
          unfold ofInt
          omega
        have h4 : wadd r H = r + H := wadd_of_lt _ _ hr2
        rw [h4] at hp1
        refine ⟨ALIGN (s + H), ?_, by omega, fun _ => rfl, fun h => absurd hbig (by omega)⟩
        unfold recorded_size
        have h5 : deref st.dir (p - H) = none := by
          apply deref_none_of_lt
          intro b hb
          have := (hinv.1.2 b hb).2.2
          have := hinv.2.2.2.1
          have := hH.2.1
          simp only [block_end] at *
          omega
        simp only [h5, h1, h3]
        have h6 : p - H = r := by omega
        simp [h6]
    · exact absurd (Prod.mk.inj (Option.some.inj hres)).1.symm hp
  · rename_i hsmall
    have hs : s < MMAP_THRESHOLD := by omega
    split at hres
    · exact absurd hres (by simp)
    · exact absurd (Prod.mk.inj (Option.some.inj hres)).1.symm hp
    · rename_i st2 hfirst
      obtain ⟨_, h2, h3, _, _, _⟩ := os_malloc_first_inv H st s true st2 hH hinv hfirst
      have hdir := os_malloc_first_dir H st s true st2 hinv hfirst
      have hwsub : wsub MMAP_THRESHOLD H = MMAP_THRESHOLD - H :=
        wsub_of_le _ _ (by have := hH.2.2; unfold MMAP_THRESHOLD; omega)
          (by unfold MMAP_THRESHOLD; omega)
      rw [hwsub] at hdir
      obtain ⟨rec, k1, k2, k3, k4⟩ := os_malloc_place_recorded H st2 s p st1 hH hs h3 h2 hres hp
      refine ⟨rec, k1, k2, fun h => absurd h (by omega), fun _ => ⟨st2, hfirst, hdir, ?_⟩⟩
      intro d blk hd hblk
      subst hd hblk
      exact ⟨k3, k4⟩

/-- C2, witness: the request of 16 bytes on `split_demo`, served by the FREE
block of 52 bytes at 4144, which is split: the recorded size is 16. -/
theorem os_malloc_recorded_size_witness :
    ∃ rec, recorded_size
        { split_demo with
          dir := [⟨4096, 10, STATUS_ALLOC⟩, ⟨4144, 16, STATUS_ALLOC⟩, ⟨4192, 8, STATUS_FREE⟩,
            ⟨4232, 100, STATUS_ALLOC⟩, ⟨4368, 130768, STATUS_FREE⟩] } (4176 - 32) = some rec ∧
      16 ≤ rec ∧
      (MMAP_THRESHOLD ≤ 16 → rec = ALIGN (16 + 32)) ∧
      (16 < MMAP_THRESHOLD →
        ∃ st2, os_malloc_first 32 split_demo 16 = some (true, st2) ∧
          st2.dir = (if split_demo.dir = [] then
              [⟨split_demo.brk, MMAP_THRESHOLD - 32, STATUS_FREE⟩]
            else split_demo.dir) ∧
          ∀ d blk, d = os_coalesce 32 st2.dir →
            blk = (find_free_block d (global_base st2) 16).2.1 →
            (blk ≠ 0 → ∃ b ∈ d, b.addr = blk ∧ b.status = STATUS_FREE ∧
              ALIGN 16 ≤ ALIGN b.size ∧
              rec = if ALIGN b.size ≥ ALIGN 16 + 32 + 8 then 16 else ALIGN b.size) ∧
            (blk = 0 → ∃ l, d.getLast? = some l ∧
              rec = if l.status = STATUS_FREE then ALIGN 16 else 16)) :=
  os_malloc_recorded_size 32 split_demo 16 (2 ^ 40) 4176 _ (by decide) (by decide) (by decide)
    (by decide) (by decide) (by decide) (by decide) (by decide)

/-- The five paths of `os_malloc` on concrete states (`H = 32`), with the size
recorded in the header of the returned block: 16 for a block of 16 bytes split
off a FREE block; 48 for a FREE block of 48 bytes taken whole by a request of
16 bytes; `ALIGN(100) = 104` for a FREE tail grown for a request of 100 bytes;
100 for an appended block of 100 bytes; `ALIGN(200000 + 32)` for a mapped
region of 200000 bytes. -/
theorem os_malloc_recorded_size_examples :
    (os_malloc 32 split_demo 16 0).bind (fun x => recorded_size x.2 (x.1 - 32)) = some 16 ∧
    (os_malloc 32 ⟨[⟨4096, 16 + 32, STATUS_FREE⟩, ⟨4176, 8, STATUS_ALLOC⟩], 0, 4216, 2 ^ 40, [],
        []⟩ 16 0).bind (fun x => recorded_size x.2 (x.1 - 32)) = some 48 ∧
    (os_malloc 32 { full_demo with lim := 2 ^ 40 } 100 0).bind
        (fun x => recorded_size x.2 (x.1 - 32)) = some 104 ∧
    (os_malloc 32 { full_demo with dir := [⟨4096, 131040, STATUS_ALLOC⟩], lim := 2 ^ 40 } 100
        0).bind (fun x => recorded_size x.2 (x.1 - 32)) = some 100 ∧
    (os_malloc 32 (fresh 4096 (2 ^ 31)) 200000 (2 ^ 32)).bind
        (fun x => recorded_size x.2 (x.1 - 32)) = some (ALIGN (200000 + 32)) := by
  decide

/-! ## A reachable Directory with a FREE block of more than `INT_MAX` bytes -/

theorem row_cons (s : Status) (m n : Nat) :
    row s m (n + 1) = ⟨4096 + m * 131072, 131040, s⟩ :: row s (m + 1) n := by
  unfold row
  rw [List.range'_succ, List.map_cons]

theorem row_concat (s : Status) (m n : Nat) :
    row s m (n + 1) = row s m n ++ [⟨4096 + (m + n) * 131072, 131040, s⟩] := by
  unfold row
  rw [List.range'_concat, List.map_append, List.map_singleton, Nat.one_mul]

theorem mem_row (s : Status) (m n : Nat) (c : block_meta) (h : c ∈ row s m n) :
    ∃ i, m ≤ i ∧ i < m + n ∧ c = ⟨4096 + i * 131072, 131040, s⟩ := by
  unfold row at h
  obtain ⟨i, hi, hc⟩ := List.mem_map.mp h
  rw [List.mem_range'_1] at hi
  exact ⟨i, hi.1, hi.2, hc.symm⟩

theorem os_coalesce_nonfree (H : Nat) (d : List block_meta)
    (h : ∀ c ∈ d, c.status ≠ STATUS_FREE) : os_coalesce H d = d := by
  induction d with
  | nil => rfl
  | cons b rest ih =>
    have h1 : os_coalesce H (b :: rest) = os_coalesce_loop H b rest := rfl
    rw [h1, os_coalesce_loop_nonfree H b rest (h b (List.mem_cons_self _ _)),
      ih (fun c hc => h c (List.mem_cons_of_mem _ hc))]

theorem os_free_node (H : Nat) (st : Allocator) (pre post : List block_meta) (b : block_meta)
    (hd : st.dir = pre ++ b :: post) (hpre : ∀ c ∈ pre, c.addr ≠ b.addr)
    (hb : b.status = STATUS_ALLOC) (hp : 0 < b.addr) (hw : b.addr + H < WORD) :
    os_free H st (b.addr + H) =
      some { st with dir := pre ++ ⟨b.addr, ALIGN b.size, STATUS_FREE⟩ :: post } := by
  unfold os_free
  rw [if_neg (by omega)]
  simp only [wsub_add_cancel b.addr H hw, hd, deref_append pre post b hpre, hb]
  rw [if_neg (by decide), store_append _ pre post b hpre]

/-- The state after `m + 1` calls `os_malloc(131040)` on a fresh allocator
(`H = 32`, break 4096): a row of `m + 1` ALLOCATED blocks. -/
theorem row_alloc_reachable (m : Nat) (hm : m ≤ 16384) :
    ∃ log, Reachable 32 4096 (2 ^ 40)
      ⟨row STATUS_ALLOC 0 (m + 1), 0, 4096 + (m + 1) * 131072, 2 ^ 40, [], log⟩ := by
  induction m with
  | zero =>
    exact ⟨[OsCall.sbrk 0 4096, OsCall.sbrk 131072 4096],
      Reachable.step (fresh 4096 (2 ^ 40)) (Call.malloc 131040 0) 4128 _ Reachable.init
        (by decide) ⟨[OsCall.sbrk 0 4096, OsCall.sbrk 131072 4096], by decide, by decide⟩⟩
  | succ m ih =>
    obtain ⟨log, hr⟩ := ih (by omega)
    have hinv := (reachable_inv 32 4096 (2 ^ 40) _ (by decide) (by decide) (by decide)
      (by decide) hr).1
    have hW : WORD = 2 ^ 64 := rfl
    have hA : ALIGN 131040 = 131040 := by decide
    have hnf : ∀ c ∈ row STATUS_ALLOC 0 (m + 1), c.status ≠ STATUS_FREE := by
      intro c hc
      obtain ⟨i, _, _, rfl⟩ := mem_row _ _ _ c hc
      simp
    have hco : os_coalesce 32 (row STATUS_ALLOC 0 (m + 1)) = row STATUS_ALLOC 0 (m + 1) :=
      os_coalesce_nonfree 32 _ hnf
    have hmiss := os_malloc_miss 32
      ⟨row STATUS_ALLOC 0 (m + 1), 0, 4096 + (m + 1) * 131072, 2 ^ 40, [], log⟩ 131040 0
      (by decide) (by decide) (by decide) (by rw [row_cons]; simp) hinv.1 rfl
      (by simp only; omega) (by simp only; omega)
      (row STATUS_ALLOC 0 m) ⟨4096 + (0 + m) * 131072, 131040, STATUS_ALLOC⟩
      (by simp only; rw [hco, row_concat])
      (find_free_block_no_fit _ _ _ (by
        simp only
        rw [hco]
        intro b hb hf
        exact hnf b hb hf.1))
    have hcall := hmiss.2 (by simp) (by simp only; rw [hA]; omega)
    simp only [hA] at hcall
    refine ⟨log ++ [OsCall.sbrk 0 (4096 + (m + 1) * 131072),
      OsCall.sbrk ((32 + 131040 : Nat) : Int) (4096 + (m + 1) * 131072)], ?_⟩
    have hstep := Reachable.step _ (Call.malloc 131040 0) _ _ hr hcall
      ⟨_, rfl, by
        intro e he
        simp only [List.mem_cons, List.mem_singleton, List.not_mem_nil, or_false] at he
        have hF : FAILED = WORD - 1 := rfl
        rcases he with h | h <;> subst h <;> simp only [os_ok] <;> omega⟩
    have hdir : row STATUS_ALLOC 0 m ++ [⟨4096 + (0 + m) * 131072, 131040, STATUS_ALLOC⟩] ++
        [⟨4096 + (m + 1) * 131072, 131040, STATUS_ALLOC⟩] = row STATUS_ALLOC 0 (m + 1 + 1) := by
      rw [row_concat STATUS_ALLOC 0 (m + 1), row_concat STATUS_ALLOC 0 m]
      simp
    have hbrk : 4096 + (m + 1) * 131072 + (32 + 131040) = 4096 + (m + 1 + 1) * 131072 := by omega
    rw [hdir, hbrk] at hstep
    exact hstep

/-- The state after `K` calls `os_malloc(131040)` on a fresh allocator (`H = 32`,
break 4096) and `os_free` of the last `j` of the blocks: a row of `K - j`
ALLOCATED blocks followed by `j` FREE blocks. -/
theorem row_free_reachable (K : Nat) (hK1 : 1 ≤ K) (hK : K ≤ 16385) (j : Nat) (hj : j ≤ K) :
    ∃ log, Reachable 32 4096 (2 ^ 40)
      ⟨row STATUS_ALLOC 0 (K - j) ++ row STATUS_FREE (K - j) j, 0, 4096 + K * 131072, 2 ^ 40,
        [], log⟩ := by
  induction j with
  | zero =>
    obtain ⟨log, hr⟩ := row_alloc_reachable (K - 1) (by omega)
    have h1 : K - 1 + 1 = K := by omega
    rw [h1] at hr
    refine ⟨log, ?_⟩
    have h2 : row STATUS_ALLOC 0 (K - 0) ++ row STATUS_FREE (K - 0) 0 = row STATUS_ALLOC 0 K := by
      rw [Nat.sub_zero]
      exact List.append_nil _
    rw [h2]
    exact hr
  | succ j ih =>
    obtain ⟨log, hr⟩ := ih (by omega)
    obtain ⟨m, hm⟩ : ∃ m, K - (j + 1) = m := ⟨_, rfl⟩
    have hm1 : K - j = m + 1 := by omega
    rw [hm]
    rw [hm1] at hr
    have hW : WORD = 2 ^ 64 := rfl
    have hpre : ∀ c ∈ row STATUS_ALLOC 0 m,
        c.addr ≠ (⟨4096 + (0 + m) * 131072, 131040, STATUS_ALLOC⟩ : block_meta).addr := by
      intro c hc
      obtain ⟨i, _, hi, rfl⟩ := mem_row _ _ _ c hc
      simp only
      omega
    have hfree := os_free_node 32
      ⟨row STATUS_ALLOC 0 (m + 1) ++ row STATUS_FREE (m + 1) j, 0, 4096 + K * 131072, 2 ^ 40,
        [], log⟩
      (row STATUS_ALLOC 0 m) (row STATUS_FREE (m + 1) j)
      ⟨4096 + (0 + m) * 131072, 131040, STATUS_ALLOC⟩
      (by simp only; rw [row_concat, List.append_assoc]; rfl) hpre rfl
      (by simp only; omega) (by simp only; omega)
    have hA : ALIGN 131040 = 131040 := by decide
    simp only [hA, Nat.zero_add] at hfree
    rw [← row_cons STATUS_FREE m j] at hfree
    refine ⟨log, ?_⟩
    exact Reachable.step _ (Call.free (4096 + m * 131072 + 32)) 0 _ hr
      (by simp only [call, hfree, Option.map_some']) ⟨[], by simp, by simp⟩

theorem os_coalesce_loop_row (n : Nat) : ∀ (m : Nat) (cur : block_meta),
    cur.status = STATUS_FREE → cur.size + n * 131072 < WORD →
    os_coalesce_loop 32 cur (row STATUS_FREE m n) =
      [⟨cur.addr, cur.size + n * 131072, STATUS_FREE⟩] := by
  induction n with
  | zero =>
    intro m cur hf _
    cases cur
    simp only at hf
    subst hf
    rfl
  | succ n ih =>
    intro m cur hf hlt
    have hW : WORD = 2 ^ 64 := rfl
    rw [row_cons]
    simp only [os_coalesce_loop, hf, and_self, if_true]
    have h1 : wadd cur.size (wadd 131040 32) = cur.size + 131072 := by
      rw [wadd_of_lt 131040 32 (by decide), wadd_of_lt _ _ (by omega)]
    rw [h1, ih (m + 1) ⟨cur.addr, cur.size + 131072, STATUS_FREE⟩ rfl (by simp only; omega)]
    simp only [List.cons.injEq, block_meta.mk.injEq, and_true, true_and]
    omega

/-- C9, the failing input (`H = 32`).  After 16385 calls `os_malloc(131040)` on a
fresh allocator and `os_free` of every block, the Directory is a row of 16385
FREE blocks, which the coalescing pass of `os_malloc` merges into one FREE
block of 2147614688 bytes.  The block fits a request of 20 bytes, but
`find_free_block` returns `NULL` because its rounded size is not below
`INT_MAX`; `os_malloc(20)` takes the miss branch with this FREE block as the
final node.  `ALIGN(20)` minus the size of the node is `24 - 2147614688`, a
negative number; converted to `int` it is 2147352632, and the break is moved up
by 2147352632 bytes.  The node is returned as an ALLOCATED block of 24 bytes. -/
theorem os_malloc_miss_huge_tail :
    ∃ st, Reachable 32 4096 (2 ^ 40) st ∧ st.dir = row STATUS_FREE 0 16385 ∧
      st.brk = 2147618816 ∧
      os_coalesce 32 st.dir = [⟨4096, 2147614688, STATUS_FREE⟩] ∧
      fits 20 ⟨4096, 2147614688, STATUS_FREE⟩ ∧
      (find_free_block (os_coalesce 32 st.dir) (global_base st) 20).2.1 = 0 ∧
      os_malloc 32 st 20 0 = some (4096 + 32,
        { st with
          dir := [⟨4096, 24, STATUS_ALLOC⟩],
          brk := 2147618816 + 2147352632,
          log := st.log ++ [OsCall.sbrk 2147352632 2147618816] }) ∧
      (ALIGN 20 : Int) - 2147614688 = -2147614664 := by
  obtain ⟨log, hr⟩ := row_free_reachable 16385 (by decide) (by decide) 16385 (by decide)
  rw [Nat.sub_self] at hr
  have h0 : row STATUS_ALLOC 0 0 ++ row STATUS_FREE 0 16385 = row STATUS_FREE 0 16385 :=
    List.nil_append _
  have hb : 4096 + 16385 * 131072 = 2147618816 := by decide
  rw [h0, hb] at hr
  have hinv := (reachable_inv 32 4096 (2 ^ 40) _ (by decide) (by decide) (by decide)
    (by decide) hr).1
  have hco : os_coalesce 32 (row STATUS_FREE 0 16385) = [⟨4096, 2147614688, STATUS_FREE⟩] := by
    have h1 : row STATUS_FREE 0 16385 =
        ⟨4096 + 0 * 131072, 131040, STATUS_FREE⟩ :: row STATUS_FREE (0 + 1) 16384 :=
      row_cons STATUS_FREE 0 16384
    have h2 := os_coalesce_loop_row 16384 (0 + 1) ⟨4096 + 0 * 131072, 131040, STATUS_FREE⟩ rfl
      (by decide)
    rw [h1]
    exact h2
  have hmiss : ∀ g, (find_free_block [⟨4096, 2147614688, STATUS_FREE⟩] g 20).2.1 = 0 := by
    intro g
    have h1 : ¬ (ALIGN 2147614688 ≥ ALIGN 20 ∧ INT_MAX > ALIGN 2147614688) := by decide
    simp only [find_free_block, find_free_block_loop, true_and, h1, if_false]
  refine ⟨_, hr, rfl, rfl, hco, by unfold fits; decide, by simp only [hco]; exact hmiss _, ?_,
    by decide⟩
  rw [os_malloc_initialised 32 _ 20 0 (by decide) (by decide)
    (by simp only; rw [row_cons]; simp)]
  rw [os_malloc_place_grow 32 _ 20 (by decide) hinv.1 (by simp only; decide)
    (by simp only; rw [row_cons]; simp)
    rfl (by simp only [hco]; exact hmiss _) [] ⟨4096, 2147614688, STATUS_FREE⟩ hco rfl]
  have h3 : toInt32 (wsub 24 2147614688) = ((2147352632 : Nat) : Int) := by decide
  have h4 : ALIGN 20 = 24 := by decide
  simp only [h4, h3]
  rw [sbrk_grant _ 2147352632 (by simp only; decide)]
  rfl

/-- The same call evaluated on the coalesced Directory (`H = 32`): one FREE
block of 2147614688 bytes below the break.  The search misses the block,
`os_malloc(20)` moves the break up by 2147352632 bytes and returns the block
with a recorded size of 24 bytes. -/
theorem os_malloc_huge_demo_example :
    Inv 32 huge_demo ∧
    os_coalesce 32 huge_demo.dir = huge_demo.dir ∧
    (find_free_block (os_coalesce 32 huge_demo.dir) (global_base huge_demo) 20).2.1 = 0 ∧
    os_malloc 32 huge_demo 20 0 = some (4096 + 32,
      { huge_demo with
        dir := [⟨4096, 24, STATUS_ALLOC⟩],
        brk := 2147618816 + 2147352632,
        log := huge_demo.log ++ [OsCall.sbrk 2147352632 2147618816] }) := by
  decide

end Osmem
